import Mathlib

/-!
# Confero: content-defined chunking and Bloom fingerprints

A shallow embedding of the core of `confero.c` (`make_fnv_from_block`,
`get_chunk_len`, `hash`, `jaccard_simularity`, `dofile` and the comparison
loop of `main`) and theorems about it.

Modelling conventions.

* A byte (`uint8_t`) is a `Fin 256`; a buffer is a `List Byte`.  A pointer
  `data + k` into a buffer is the list `data.drop k`; the read `block[n]` is
  `block.getD n 0` (every read the code performs is in bounds, see
  `make_fnv_from_block_eq_fnv1a`).
* `uint32_t` / `uint64_t` values are natural numbers; a reduction `% 2 ^ 32`
  or `% 2 ^ 64` is written wherever the C operation can wrap.
* The globals `bloom_bytes` and `chunking_threshhold` are passed as explicit
  arguments.
* `hash` is modelled from the point where the file has been opened, stat-ed
  and mapped: its argument `mapped_file` is the file content, and
  `file_info.st_size` is `mapped_file.length`.  The I/O failure status `1`
  is outside the model.
* A fingerprint (`uint8_t *bloomhash`) is a `List Nat` of byte values.
* `jaccard_simularity` receives fingerprints as lists of 64-bit words.
* A `float` is the rational number it denotes.  Every conversion to `float`
  and every `float` operation rounds to IEEE-754 single precision
  (`to_float`), that is, `float` expressions are evaluated in their own
  format (`FLT_EVAL_METHOD` 0, as with the SSE arithmetic of x86-64);
  comparisons of floats are comparisons of their values.
* The fingerprint storage `bloomhashes` is byte-addressed memory
  (`Nat → Nat`); slot offsets are computed as the C code computes them, in
  32-bit unsigned arithmetic.
-/

namespace Confero

/-- A `uint8_t`. -/
abbrev Byte := Fin 256

/-! ## The source functions -/

/-- `make_fnv_from_block` (confero.c:261-269): the `for` loop over
`n = 0 .. blocksize-1` with `hash = hash ^ block[n]; hash = hash * 1099511628211`
in 64-bit unsigned arithmetic, starting from `14695981039346656037`.  (The C
loop index is an `int`; the model does not represent its overflow for
`blocksize ≥ 2^31`.) -/
def make_fnv_from_block (block : List Byte) (blocksize : Nat) : Nat :=
  (List.range blocksize).foldl
    (fun hash n => ((hash ^^^ (block.getD n 0).val) * 1099511628211) % 2 ^ 64)
    14695981039346656037

/-- The `for(n=8;n<max;n++)` loop of `get_chunk_len` (confero.c:252-258),
entered at loop variable `n`.  The first argument bounds the number of
remaining iterations; `get_chunk_len` passes `max - 8`, which is exactly the
number of values `n` can take, and `get_chunk_len_loop_fuel` shows that any
larger bound gives the same result.  `n + 1` cannot wrap because `n < max`
and `max` is a `uint32_t`. -/
def get_chunk_len_loop (data : List Byte) (max limit : Nat) : Nat → Nat → Nat
  | 0, _ => max
  | fuel + 1, n =>
    if n < max then
      if make_fnv_from_block (data.drop (n - 8)) 8 < limit then n
      else get_chunk_len_loop data max limit fuel (n + 1)
    else max

/-- `get_chunk_len` (confero.c:248-259): `limit = 1 << threshhold` as a
`uint64_t`, then the scan from `n = 8`. -/
def get_chunk_len (data : List Byte) (max threshhold : Nat) : Nat :=
  get_chunk_len_loop data max ((1 <<< threshhold) % 2 ^ 64) (max - 8) 8

/-- The `do { ... } while(bytes_left)` loop of `hash` (confero.c:205-228)
followed by the final test (confero.c:231-235).  State: `pos`, `bytes_left`,
`bitsset` and the fingerprint `bloomhash`.  The result is the returned status
together with the fingerprint memory as the call leaves it.  The first
argument bounds the number of iterations; `none` means the bound was reached
(`hash_isSome` shows this never happens for the bound `hash` passes).  When
`bloom_bytes*8` is `0` in 32 bits the C expression `fnvhash % (bloom_bytes*8)`
divides by zero, which is undefined; here `% 0` returns the dividend, and the
claims about the status are stated for a non-zero modulus. -/
def hash_loop (bloom_bytes chunking_threshhold : Nat) (mapped_file : List Byte)
    (filesize : Nat) : Nat → Nat → Nat → Nat → List Nat → Option (Nat × List Nat)
  | 0, _, _, _, _ => none
  | fuel + 1, pos, bytes_left, bitsset, bloomhash =>
    let chunk_len := get_chunk_len (mapped_file.drop pos) (bytes_left % 2 ^ 32)
      chunking_threshhold
    let fnvhash := make_fnv_from_block (mapped_file.drop pos) chunk_len
    let bucket := (fnvhash % ((bloom_bytes * 8) % 2 ^ 32)) % 2 ^ 32
    let bloombyte := bucket >>> 3
    let bit := (1 <<< (bucket &&& 7)) % 2 ^ 8
    let bloomhash1 := bloomhash.set bloombyte (bloomhash.getD bloombyte 0 ||| bit)
    let bitsset1 := (bitsset + 1) % 2 ^ 32
    if bitsset1 > (bloom_bytes * 4) % 2 ^ 32 then some (3, bloomhash1)
    else
      let pos1 := pos + chunk_len
      let bytes_left1 := filesize - pos1
      if bytes_left1 ≠ 0 then
        hash_loop bloom_bytes chunking_threshhold mapped_file filesize
          fuel pos1 bytes_left1 bitsset1 bloomhash1
      else if bitsset1 < 10 then some (4, bloomhash1)
      else some (0, bloomhash1)

/-- `hash` (confero.c:176-236) on a successfully mapped file: status `2` for
a file of exactly 8 bytes, otherwise the chunking loop.  The loop leaves by
`return(3)` no later than iteration `bloom_bytes*4 + 1`, which is the
iteration bound passed. -/
def hash (bloom_bytes chunking_threshhold : Nat) (mapped_file : List Byte)
    (bloomhash : List Nat) : Option (Nat × List Nat) :=
  if mapped_file.length = 8 then some (2, bloomhash)
  else
    hash_loop bloom_bytes chunking_threshhold mapped_file mapped_file.length
      ((bloom_bytes * 4) % 2 ^ 32 + 1) 0 mapped_file.length 0 bloomhash

/-- The chunk sequence of the loop of `hash` (confero.c:205-228): the same
loop with the fingerprint update and the `bitsset` abort left out, recording
each iteration's `(pos, chunk_len)`.  `none` means `bytes_left` has not become
`0` within the given number of iterations. -/
def chunk_loop (chunking_threshhold : Nat) (mapped_file : List Byte) :
    Nat → Nat → Nat → Option (List (Nat × Nat))
  | 0, _, _ => none
  | fuel + 1, pos, bytes_left =>
    let chunk_len := get_chunk_len (mapped_file.drop pos) (bytes_left % 2 ^ 32)
      chunking_threshhold
    let pos1 := pos + chunk_len
    let bytes_left1 := mapped_file.length - pos1
    if bytes_left1 ≠ 0 then
      (chunk_loop chunking_threshhold mapped_file fuel pos1 bytes_left1).map
        (fun rest => (pos, chunk_len) :: rest)
    else some [(pos, chunk_len)]

/-- The first iterations of the loop of `hash` (confero.c:205-228), at most as
many as the first argument says: each iteration's `(pos, chunk_len)`, up to
and including the iteration after which `bytes_left` is `0`.  This is
`chunk_loop` cut off at the bound instead of answering `none`
(`chunk_steps_of_chunk_loop`). -/
def chunk_steps (chunking_threshhold : Nat) (mapped_file : List Byte) :
    Nat → Nat → Nat → List (Nat × Nat)
  | 0, _, _ => []
  | fuel + 1, pos, bytes_left =>
    let chunk_len := get_chunk_len (mapped_file.drop pos) (bytes_left % 2 ^ 32)
      chunking_threshhold
    let pos1 := pos + chunk_len
    let bytes_left1 := mapped_file.length - pos1
    if bytes_left1 ≠ 0 then
      (pos, chunk_len) :: chunk_steps chunking_threshhold mapped_file fuel pos1 bytes_left1
    else [(pos, chunk_len)]

/-- The chunks `(start, length)` of a whole file, from `pos = 0` and
`bytes_left = filesize`; `none` when the loop never reaches `bytes_left = 0`
(`chunk_loop_eq_chunking`: a run that ends within any number of iterations
ends within `length + 1`). -/
def chunking (chunking_threshhold : Nat) (mapped_file : List Byte) :
    Option (List (Nat × Nat)) :=
  chunk_loop chunking_threshhold mapped_file (mapped_file.length + 1) 0 mapped_file.length

/-! ## Specification-side definitions -/

/-- 64-bit FNV-1a as the specification words it: accumulator initialised to
the offset basis, then for each byte `acc = (acc XOR byte) * prime` with
64-bit wraparound. -/
def fnv1a (b : List Byte) : Nat :=
  b.foldl (fun acc byte => ((acc ^^^ byte.val) * 1099511628211) % 2 ^ 64)
    14695981039346656037

/-- Bit `i` of a fingerprint: bit `i mod 8` of byte `i div 8`. -/
def fp_bit (bloomhash : List Nat) (i : Nat) : Bool :=
  (bloomhash.getD (i / 8) 0).testBit (i % 8)

/-- The bytes of the chunk `(start, length)` of a file. -/
def chunk_bytes (mapped_file : List Byte) (c : Nat × Nat) : List Byte :=
  (mapped_file.drop c.1).take c.2

/-- The chunks `l` tile the byte range `[start, stop)`: the first one starts
at `start`, each next one starts where the previous one ends, and the last
one ends at `stop`. -/
def contiguous : Nat → List (Nat × Nat) → Nat → Prop
  | start, [], stop => start = stop
  | start, c :: rest, stop => c.1 = start ∧ contiguous (start + c.2) rest stop

/-- The fingerprint update of `hash` (confero.c:213-218) for one bucket:
`bloomhash[bucket>>3] |= (uint8_t)(1 << (bucket & 7))`. -/
def set_bucket (bloomhash : List Nat) (bucket : Nat) : List Nat :=
  bloomhash.set (bucket >>> 3)
    (bloomhash.getD (bucket >>> 3) 0 ||| ((1 <<< (bucket &&& 7)) % 2 ^ 8))

/-- The bucket `hash` computes for the chunk `(start, length)`
(confero.c:211-212): its hash reduced modulo the 32-bit product
`bloom_bytes*8`. -/
def chunk_bucket (bloom_bytes : Nat) (mapped_file : List Byte) (c : Nat × Nat) : Nat :=
  (make_fnv_from_block (mapped_file.drop c.1) c.2 % ((bloom_bytes * 8) % 2 ^ 32)) % 2 ^ 32

/-! ## Concrete buffers used to instantiate the theorems -/

/-- The 40 bytes `0, 1, …, 39`. -/
def ramp40 : List Byte :=
  [0, 1, 2, 3, 4, 5, 6, 7, 8, 9, 10, 11, 12, 13, 14, 15, 16, 17, 18, 19,
   20, 21, 22, 23, 24, 25, 26, 27, 28, 29, 30, 31, 32, 33, 34, 35, 36, 37, 38, 39]

/-- The 120 bytes `(37 * i + 11) mod 256` for `i = 0 … 119`. -/
def stride120 : List Byte :=
  (List.range 120).map (fun i => Fin.ofNat (37 * i + 11))


/-! ## The similarity engine (source) -/

/-- `__builtin_popcountll` on a `uint64_t`: the number of set bits among bits
`0 .. 63`. -/
def popcountll (x : Nat) : Nat :=
  (List.range 64).countP (fun j => x.testBit j)

/-- Rounding to the nearest integer, ties to the even one. -/
def round_even (x : ℚ) : ℤ :=
  if x - ⌊x⌋ < 1 / 2 then ⌊x⌋
  else if 1 / 2 < x - ⌊x⌋ then ⌊x⌋ + 1
  else if ⌊x⌋ % 2 = 0 then ⌊x⌋
  else ⌊x⌋ + 1

/-- The value of the C `float` that results from rounding the real number `x`
to IEEE-754 single precision (24-bit significand, round to nearest, ties to
even): with `e = ⌊log2 |x|⌋` the significand `x * 2^(23-e)` is rounded to an
integer and scaled back.  This is the rounding performed by the conversions
`(float)n` and by the `float` division at confero.c:96 and confero.c:144.
The exponent range of the format is not represented: every value the program
rounds has a magnitude between `2^-32` and `2^32`, well inside the normal
range.  `to_float 0 = 0`. -/
def to_float (x : ℚ) : ℚ :=
  (round_even (x * 2 ^ (23 - Int.log 2 |x|)) : ℚ) * 2 ^ (Int.log 2 |x| - 23)

/-- `jaccard_simularity` (confero.c:133-145) on two arrays of 64-bit words.
The `for(n=0;n<comparisons;n++)` loop updates the two `uint32_t` counters
`(jac_union, jac_intersection)`.  The result is the value of the returned
`float`: `-1` for the sentinel, otherwise
`(float)jac_intersection / (float)jac_union`, where both conversions and the
division round to single precision. -/
def jaccard_simularity (bloom_bytes : Nat) (a b : List Nat) : ℚ :=
  let comparisons := bloom_bytes / 8
  let counters := (List.range comparisons).foldl
    (fun (c : Nat × Nat) n =>
      ((c.1 + popcountll (a.getD n 0 ||| b.getD n 0)) % 2 ^ 32,
       (c.2 + popcountll (a.getD n 0 &&& b.getD n 0)) % 2 ^ 32))
    (0, 0)
  if counters.1 = 0 ∨ counters.2 = 0 then -1
  else to_float (to_float (counters.2 : ℚ) / to_float (counters.1 : ℚ))

/-- The set of indices of the set bits of a fingerprint held as 64-bit words,
over its first `nbits` bits: bit `i` is bit `i mod 64` of word `i div 64`. -/
def set_bits (words : List Nat) (nbits : Nat) : Finset Nat :=
  (Finset.range nbits).filter (fun i => (words.getD (i / 64) 0).testBit (i % 64) = true)

/-- The 64-bit word `n` of a byte array read through a `uint64_t *`
(confero.c:124), in the little-endian byte order of the x86 targets the
source is built for. -/
def word_of_bytes (bytes : List Nat) (n : Nat) : Nat :=
  bytes.getD (8 * n) 0 + bytes.getD (8 * n + 1) 0 * 2 ^ 8 + bytes.getD (8 * n + 2) 0 * 2 ^ 16
    + bytes.getD (8 * n + 3) 0 * 2 ^ 24 + bytes.getD (8 * n + 4) 0 * 2 ^ 32
    + bytes.getD (8 * n + 5) 0 * 2 ^ 40 + bytes.getD (8 * n + 6) 0 * 2 ^ 48
    + bytes.getD (8 * n + 7) 0 * 2 ^ 56

/-- A fingerprint of bytes seen as the array of 64-bit words that
`jaccard_simularity` receives after the pointer cast. -/
def to_words (bytes : List Nat) : List Nat :=
  (List.range (bytes.length / 8)).map (word_of_bytes bytes)

/-! ## The corpus (source) -/

/-- The global corpus state of confero.c: the fingerprint storage
`bloomhashes` as byte-addressed memory (offset from the base pointer ↦ byte),
the stored names `filenames[0 .. num_files)`, and the counters `num_files`
and `alloc_files`. -/
structure Corpus where
  /-- The byte at each offset from the pointer `bloomhashes`. -/
  bloomhashes : Nat → Nat
  /-- The names `filenames[0]`, …, `filenames[num_files - 1]`. -/
  filenames : List String
  /-- The number of files stored. -/
  num_files : Nat
  /-- The number of slots allocated. -/
  alloc_files : Nat

/-- The state before the first file: nothing allocated, nothing stored. -/
def Corpus.empty : Corpus :=
  { bloomhashes := fun _ => 0, filenames := [], num_files := 0, alloc_files := 0 }

/-- The `len` bytes of memory starting at offset `off`. -/
def read_bytes (mem : Nat → Nat) (off len : Nat) : List Nat :=
  (List.range len).map (fun k => mem (off + k))

/-- Memory after the `len` bytes at offset `off` have been replaced by
`bytes`. -/
def write_bytes (mem : Nat → Nat) (off len : Nat) (bytes : List Nat) : Nat → Nat :=
  fun addr => if off ≤ addr ∧ addr < off + len then bytes.getD (addr - off) 0 else mem addr

/-- `dofile` (confero.c:154-174) on a file with content `mapped_file`.  The
slot pointer is `bloomhashes + (num_files*bloom_bytes)`, the product being
computed in 32-bit unsigned arithmetic; the slot is cleared (`memset`) and
handed to `hash`; the name is stored and `num_files` incremented only when
`hash` returns `0`.  Allocation failure (`exit(1)`) is not modelled. -/
def dofile (bloom_bytes chunking_threshhold : Nat) (filename : String)
    (mapped_file : List Byte) (st : Corpus) : Option Corpus :=
  let alloc_files := if st.alloc_files = st.num_files then st.alloc_files + 256
    else st.alloc_files
  let off := (st.num_files * bloom_bytes) % 2 ^ 32
  (hash bloom_bytes chunking_threshhold mapped_file (List.replicate bloom_bytes 0)).map
    fun r =>
      if r.1 ≠ 0 then
        { bloomhashes := write_bytes st.bloomhashes off bloom_bytes r.2,
          filenames := st.filenames,
          num_files := st.num_files,
          alloc_files := alloc_files }
      else
        { bloomhashes := write_bytes st.bloomhashes off bloom_bytes r.2,
          filenames := st.filenames.take st.num_files ++ [filename],
          num_files := st.num_files + 1,
          alloc_files := alloc_files }

/-- `dofile` on each regular file in turn, in the order the enumeration
(`main`, `dofolder`) supplies them. -/
def dofiles (bloom_bytes chunking_threshhold : Nat) :
    List (String × List Byte) → Corpus → Option Corpus
  | [], st => some st
  | f :: rest, st =>
    (dofile bloom_bytes chunking_threshhold f.1 f.2 st).bind
      (dofiles bloom_bytes chunking_threshhold rest)

/-- One execution of the body of the comparison loop (confero.c:124-128):
the index pair, the score computed, and whether the pair was printed. -/
structure Comparison where
  /-- The outer index. -/
  a : Nat
  /-- The inner index. -/
  b : Nat
  /-- The value of the `float simularity`, the result of
  `jaccard_simularity` for the two slots. -/
  simularity : ℚ
  /-- Whether the `float` comparison `simularity >= match_thresh` held and the
  pair was printed. -/
  printed : Bool

/-- The fingerprint that the comparison loop reads for index `a`: the words
at `(uint64_t*)(bloomhashes + (a*bloom_bytes))`, the product in 32-bit
unsigned arithmetic. -/
def slot_words (bloom_bytes : Nat) (st : Corpus) (a : Nat) : List Nat :=
  to_words (read_bytes st.bloomhashes ((a * bloom_bytes) % 2 ^ 32) bloom_bytes)

/-- The initial value of the global `float match_thresh=0.9` (confero.c:41):
the constant `0.9` rounded to single precision, `0x3f666666`. -/
def default_match_thresh : ℚ := to_float (9 / 10)

/-- The option `-M` (confero.c:90-97): rejected unless `1 ≤ mt ≤ 100`,
otherwise `match_thresh = (float)mt / 100`, a `float` division (the `100` is
converted to `float`).  The argument is the integer `atoi` returns; the
result is the value of `match_thresh`. -/
def option_M (mt : Int) : Option ℚ :=
  if mt < 1 ∨ mt > 100 then none
  else some (to_float (to_float (mt : ℚ) / to_float 100))

/-- The comparison loop of `main` (confero.c:122-130),
`for(a=0;a<num_files;a++) for(b=0;b<a;b++)`, as the sequence of its body
executions.  `match_thresh` is the value of the global `float match_thresh`
(`default_match_thresh`, or what `option_M` stored); the test
`simularity >= match_thresh` compares two floats. -/
def main_compare (bloom_bytes : Nat) (match_thresh : ℚ) (st : Corpus) : List Comparison :=
  (List.range st.num_files).flatMap fun a =>
    (List.range a).map fun b =>
      { a := a, b := b,
        simularity := jaccard_simularity bloom_bytes (slot_words bloom_bytes st a)
          (slot_words bloom_bytes st b),
        printed := decide (jaccard_simularity bloom_bytes (slot_words bloom_bytes st a)
          (slot_words bloom_bytes st b) ≥ match_thresh) }

/-- The status `hash` returns for a file with the given content, started on
a cleared slot. -/
def file_status (bloom_bytes chunking_threshhold : Nat) (content : List Byte) : Option Nat :=
  (hash bloom_bytes chunking_threshhold content (List.replicate bloom_bytes 0)).map Prod.fst

/-- The fingerprint `hash` computes for a file with the given content from
an all-zero vector. -/
def file_fingerprint (bloom_bytes chunking_threshhold : Nat) (content : List Byte) :
    List Nat :=
  ((hash bloom_bytes chunking_threshhold content (List.replicate bloom_bytes 0)).map
    Prod.snd).getD []

/-- The files of a list on which `hash` returns status `0`, in order. -/
def successes (bloom_bytes chunking_threshhold : Nat) (files : List (String × List Byte)) :
    List (String × List Byte) :=
  files.filter (fun f => decide (file_status bloom_bytes chunking_threshhold f.2 = some 0))

/-- The initial value of the global `bloom_bytes` (confero.c:31). -/
def default_bloom_bytes : Nat := 1024 * 8

/-- The option `-B` (confero.c:72-78): `bloom_bytes = atoi(arg)*8`, stored in
a `uint32_t`, rejected when the result is `0`.  The argument is the integer
`atoi` returns. -/
def option_B (arg : Int) : Option Nat :=
  if ((arg * 8) % 2 ^ 32).toNat = 0 then none else some ((arg * 8) % 2 ^ 32).toNat

/-- The 160 bytes `0, 1, …, 159`. -/
def ramp160 : List Byte :=
  (List.range 160).map (fun i => Fin.ofNat i)

/-- A corpus state with two stored fingerprints of `2676 * 8 = 21408` bytes:
slot 0 has its first `90745` bits set, slot 1 its first `171217` bits. -/
def corpus53 : Corpus :=
  { bloomhashes := fun addr =>
      if addr < 11343 then 255 else if addr = 11343 then 1
      else if addr < 21408 then 0
      else if addr < 42810 then 255 else if addr = 42810 then 1 else 0,
    filenames := ["one", "two"],
    num_files := 2,
    alloc_files := 256 }

/-- A corpus state with three stored fingerprints of 8 bytes each. -/
def corpus3 : Corpus :=
  { bloomhashes := fun addr => if addr < 16 then 3 else if addr < 24 then 1 else 0,
    filenames := ["one", "two", "three"],
    num_files := 3,
    alloc_files := 256 }

/-! ## Single-precision arithmetic -/

theorem round_even_ge_floor (x : ℚ) : ⌊x⌋ ≤ round_even x := by
  simp only [round_even]
  split_ifs <;> omega

theorem round_even_le_floor_succ (x : ℚ) : round_even x ≤ ⌊x⌋ + 1 := by
  simp only [round_even]
  split_ifs <;> omega

theorem round_even_intCast (z : ℤ) : round_even (z : ℚ) = z := by
  simp [round_even]

theorem round_even_mono (x y : ℚ) (h : x ≤ y) : round_even x ≤ round_even y := by
  have hf : ⌊x⌋ ≤ ⌊y⌋ := Int.floor_mono h
  rcases lt_or_eq_of_le hf with hlt | heq
  · have h1 := round_even_le_floor_succ x
    have h2 := round_even_ge_floor y
    omega
  · have hq : (⌊x⌋ : ℚ) = (⌊y⌋ : ℚ) := by rw [heq]
    simp only [round_even]
    split_ifs <;> first | omega | (exfalso; linarith)

/-- A value within one half of an integer rounds to it. -/
theorem round_even_eq (x : ℚ) (m : ℤ) (h1 : (m : ℚ) - 1 / 2 < x) (h2 : x < (m : ℚ) + 1 / 2) :
    round_even x = m := by
  have hfl : ⌊x⌋ = m ∨ ⌊x⌋ = m - 1 := by
    have ha : m - 1 ≤ ⌊x⌋ := Int.le_floor.2 (by push_cast; linarith)
    have hb : ⌊x⌋ < m + 1 := Int.floor_lt.2 (by push_cast; linarith)
    omega
  have hle := Int.floor_le x
  have hlt := Int.lt_floor_add_one x
  rcases hfl with hf | hf
  · have hq : (⌊x⌋ : ℚ) = m := by rw [hf]
    simp only [round_even]
    split_ifs <;> first | omega | (exfalso; linarith)
  · have hq : (⌊x⌋ : ℚ) = m - 1 := by rw [hf]; push_cast; ring
    simp only [round_even]
    split_ifs <;> first | omega | (exfalso; linarith)

theorem two_zpow_pos (e : ℤ) : (0 : ℚ) < 2 ^ e := zpow_pos (by norm_num) e

/-- The significand before rounding lies in `[2^23, 2^24)`. -/
theorem scaled_bounds (x : ℚ) (hx : 0 < x) :
    (2 : ℚ) ^ (23 : ℤ) ≤ x * 2 ^ (23 - Int.log 2 x)
      ∧ x * 2 ^ (23 - Int.log 2 x) < 2 ^ (24 : ℤ) := by
  have h1 : ((2 : ℕ) : ℚ) ^ Int.log 2 x ≤ x := Int.zpow_log_le_self (by norm_num) hx
  have h2 : x < ((2 : ℕ) : ℚ) ^ (Int.log 2 x + 1) := Int.lt_zpow_succ_log_self (by norm_num) x
  rw [Nat.cast_ofNat] at h1 h2
  have hp := two_zpow_pos (23 - Int.log 2 x)
  constructor
  · have e : (2 : ℚ) ^ (23 : ℤ) = 2 ^ Int.log 2 x * 2 ^ (23 - Int.log 2 x) := by
      rw [← zpow_add₀ (by norm_num)]
      congr 1
      ring
    rw [e]
    exact mul_le_mul_of_nonneg_right h1 (le_of_lt hp)
  · have e : (2 : ℚ) ^ (24 : ℤ) = 2 ^ (Int.log 2 x + 1) * 2 ^ (23 - Int.log 2 x) := by
      rw [← zpow_add₀ (by norm_num)]
      congr 1
      ring
    rw [e]
    exact mul_lt_mul_of_pos_right h2 hp

/-- The rounded significand lies in `[2^23, 2^24]`. -/
theorem significand_bounds (x : ℚ) (hx : 0 < x) :
    (2 : ℤ) ^ 23 ≤ round_even (x * 2 ^ (23 - Int.log 2 x))
      ∧ round_even (x * 2 ^ (23 - Int.log 2 x)) ≤ 2 ^ 24 := by
  obtain ⟨h1, h2⟩ := scaled_bounds x hx
  have hfl : (2 : ℤ) ^ 23 ≤ ⌊x * 2 ^ (23 - Int.log 2 x)⌋ :=
    Int.le_floor.2 (by push_cast; exact_mod_cast h1)
  have hfu : ⌊x * 2 ^ (23 - Int.log 2 x)⌋ < (2 : ℤ) ^ 24 :=
    Int.floor_lt.2 (by push_cast; exact_mod_cast h2)
  have h3 := round_even_ge_floor (x * 2 ^ (23 - Int.log 2 x))
  have h4 := round_even_le_floor_succ (x * 2 ^ (23 - Int.log 2 x))
  constructor <;> omega

theorem to_float_of_pos (x : ℚ) (hx : 0 < x) :
    to_float x
      = (round_even (x * 2 ^ (23 - Int.log 2 x)) : ℚ) * 2 ^ (Int.log 2 x - 23) := by
  rw [to_float, abs_of_pos hx]

/-- A positive value rounds to a float in the closed binade it lies in. -/
theorem to_float_bounds (x : ℚ) (hx : 0 < x) :
    (2 : ℚ) ^ Int.log 2 x ≤ to_float x ∧ to_float x ≤ 2 ^ (Int.log 2 x + 1) := by
  obtain ⟨h1, h2⟩ := significand_bounds x hx
  have hp := two_zpow_pos (Int.log 2 x - 23)
  rw [to_float_of_pos x hx]
  have c1 : ((2 : ℤ) ^ 23 : ℚ) ≤ (round_even (x * 2 ^ (23 - Int.log 2 x)) : ℚ) := by
    exact_mod_cast h1
  have c2 : (round_even (x * 2 ^ (23 - Int.log 2 x)) : ℚ) ≤ ((2 : ℤ) ^ 24 : ℚ) := by
    exact_mod_cast h2
  constructor
  · have e : (2 : ℚ) ^ Int.log 2 x = 2 ^ (23 : ℤ) * 2 ^ (Int.log 2 x - 23) := by
      rw [← zpow_add₀ (by norm_num)]
      congr 1
      ring
    rw [e]
    exact mul_le_mul_of_nonneg_right (by exact_mod_cast c1) (le_of_lt hp)
  · have e : (2 : ℚ) ^ (Int.log 2 x + 1) = 2 ^ (24 : ℤ) * 2 ^ (Int.log 2 x - 23) := by
      rw [← zpow_add₀ (by norm_num)]
      congr 1
      ring
    rw [e]
    exact mul_le_mul_of_nonneg_right (by exact_mod_cast c2) (le_of_lt hp)

theorem to_float_pos (x : ℚ) (hx : 0 < x) : 0 < to_float x :=
  lt_of_lt_of_le (two_zpow_pos _) (to_float_bounds x hx).1

/-- Rounding to single precision is monotone. -/
theorem to_float_mono (x y : ℚ) (hx : 0 < x) (hxy : x ≤ y) : to_float x ≤ to_float y := by
  have hy : 0 < y := lt_of_lt_of_le hx hxy
  have hlog : Int.log 2 x ≤ Int.log 2 y := Int.log_mono_right hx hxy
  rcases lt_or_eq_of_le hlog with hlt | heq
  · have h1 := (to_float_bounds x hx).2
    have h2 := (to_float_bounds y hy).1
    have h3 : (2 : ℚ) ^ (Int.log 2 x + 1) ≤ 2 ^ Int.log 2 y :=
      zpow_le_zpow_right₀ (by norm_num) (by omega)
    linarith
  · rw [to_float_of_pos x hx, to_float_of_pos y hy, heq]
    have hp := two_zpow_pos (Int.log 2 y - 23)
    have hq := two_zpow_pos (23 - Int.log 2 y)
    have hs : x * 2 ^ (23 - Int.log 2 y) ≤ y * 2 ^ (23 - Int.log 2 y) :=
      mul_le_mul_of_nonneg_right hxy (le_of_lt hq)
    have hr := round_even_mono _ _ hs
    exact mul_le_mul_of_nonneg_right (by exact_mod_cast hr) (le_of_lt hp)

/-- Evaluation of the rounding from a binade and a nearest significand. -/
theorem to_float_eq (x : ℚ) (e m : ℤ) (hx : 0 < x) (h1 : (2 : ℚ) ^ e ≤ x)
    (h2 : x < 2 ^ (e + 1)) (h3 : (m : ℚ) - 1 / 2 < x * 2 ^ (23 - e))
    (h4 : x * 2 ^ (23 - e) < (m : ℚ) + 1 / 2) :
    to_float x = (m : ℚ) * 2 ^ (e - 23) := by
  have hlog : Int.log 2 x = e := by
    have a : e ≤ Int.log 2 x :=
      (Int.zpow_le_iff_le_log (by norm_num) hx).1 (by rw [Nat.cast_ofNat]; exact h1)
    have b : Int.log 2 x < e + 1 :=
      (Int.lt_zpow_iff_log_lt (by norm_num) hx).1 (by rw [Nat.cast_ofNat]; exact h2)
    omega
  rw [to_float_of_pos x hx, hlog, round_even_eq _ m h3 h4]

theorem to_float_one : to_float 1 = 1 := by
  have := to_float_eq 1 0 (2 ^ 23) (by norm_num) (by norm_num) (by norm_num) (by norm_num)
    (by norm_num)
  rw [this]
  norm_num

/-- The single-precision quotient of two floats `0 < x ≤ y` taken from reals
is in `(0, 1]`. -/
theorem float_quotient_bounds (x y : ℚ) (hx : 0 < x) (hxy : x ≤ y) :
    0 < to_float (to_float x / to_float y) ∧ to_float (to_float x / to_float y) ≤ 1 := by
  have h1 := to_float_pos x hx
  have h2 := to_float_pos y (lt_of_lt_of_le hx hxy)
  have h3 := to_float_mono x y hx hxy
  have hq : 0 < to_float x / to_float y := div_pos h1 h2
  refine ⟨to_float_pos _ hq, ?_⟩
  have h4 := to_float_mono _ 1 hq ((div_le_one h2).2 h3)
  rwa [to_float_one] at h4

/-- Natural numbers below `2^24` are floats: the conversion `(float)n` is
exact for them. -/
theorem to_float_natCast (n : Nat) (h0 : 0 < n) (h : n < 2 ^ 24) :
    to_float (n : ℚ) = (n : ℚ) := by
  have hx : (0 : ℚ) < (n : ℚ) := by exact_mod_cast h0
  have he : Nat.log 2 n < 24 := Nat.log_lt_of_lt_pow (by omega) h
  obtain ⟨k, hk⟩ : ∃ k : Nat, Nat.log 2 n + k = 23 := ⟨23 - Nat.log 2 n, by omega⟩
  have e1 : (23 : ℤ) - (Nat.log 2 n : ℤ) = (k : ℤ) := by omega
  have e2 : (Nat.log 2 n : ℤ) - 23 = -(k : ℤ) := by omega
  rw [to_float_of_pos _ hx, Int.log_natCast, e1, e2, zpow_natCast, zpow_neg, zpow_natCast]
  have e3 : (n : ℚ) * 2 ^ k = (((n * 2 ^ k : Nat) : ℤ) : ℚ) := by push_cast; ring
  rw [e3, round_even_intCast]
  push_cast
  field_simp

/-! ## The chunk hasher -/

/-- One round of the hash loop. -/
theorem make_fnv_from_block_succ (block : List Byte) (n : Nat) :
    make_fnv_from_block block (n + 1)
      = ((make_fnv_from_block block n ^^^ (block.getD n 0).val) * 1099511628211) % 2 ^ 64 := by
  simp only [make_fnv_from_block, List.range_succ, List.foldl_append, List.foldl_cons,
    List.foldl_nil]

theorem fnv1a_append_singleton (b : List Byte) (x : Byte) :
    fnv1a (b ++ [x]) = ((fnv1a b ^^^ x.val) * 1099511628211) % 2 ^ 64 := by
  simp only [fnv1a, List.foldl_append, List.foldl_cons, List.foldl_nil]

/-- On the first `n` bytes of a block that has them, the loop computes FNV-1a
of those bytes (all reads are in bounds). -/
theorem make_fnv_from_block_eq_fnv1a (block : List Byte) (n : Nat) (h : n ≤ block.length) :
    make_fnv_from_block block n = fnv1a (block.take n) := by
  induction n with
  | zero => simp [make_fnv_from_block, fnv1a]
  | succ k ih =>
    have hk : k < block.length := h
    rw [make_fnv_from_block_succ, ih (Nat.le_of_lt hk), List.take_succ,
      List.getElem?_eq_getElem hk, Option.toList_some, fnv1a_append_singleton,
      List.getD_eq_getElem?_getD, List.getElem?_eq_getElem hk, Option.getD_some]

theorem make_fnv_from_block_lt (block : List Byte) (n : Nat) :
    make_fnv_from_block block n < 2 ^ 64 := by
  cases n with
  | zero => simp [make_fnv_from_block]
  | succ k => rw [make_fnv_from_block_succ]; exact Nat.mod_lt _ (by norm_num)

/-- The hash reads only the first `blocksize` bytes of the block. -/
theorem make_fnv_from_block_congr (b1 b2 : List Byte) (n : Nat)
    (h : b1.take n = b2.take n) : make_fnv_from_block b1 n = make_fnv_from_block b2 n := by
  induction n with
  | zero => simp [make_fnv_from_block]
  | succ k ih =>
    have hk : b1.take k = b2.take k := by
      have := congrArg (List.take k) h
      simpa [List.take_take] using this
    have hg : b1.getD k 0 = b2.getD k 0 := by
      have := congrArg (fun l => l.getD k 0) h
      simpa [List.getD_eq_getElem?_getD, List.getElem?_take] using this
    rw [make_fnv_from_block_succ, make_fnv_from_block_succ, ih hk, hg]


/-! ## The chunk boundary detector -/

theorem get_chunk_len_loop_le (data : List Byte) (max limit fuel n : Nat) :
    get_chunk_len_loop data max limit fuel n ≤ max := by
  induction fuel generalizing n with
  | zero => simp [get_chunk_len_loop]
  | succ k ih =>
    simp only [get_chunk_len_loop]
    split_ifs with h1 h2
    · exact Nat.le_of_lt h1
    · exact ih (n + 1)
    · exact Nat.le_refl max

theorem get_chunk_len_loop_ge (data : List Byte) (max limit fuel n : Nat) (h : n ≤ max) :
    n ≤ get_chunk_len_loop data max limit fuel n := by
  induction fuel generalizing n with
  | zero => simpa [get_chunk_len_loop] using h
  | succ k ih =>
    simp only [get_chunk_len_loop]
    split_ifs with h1 h2
    · exact Nat.le_refl n
    · exact Nat.le_trans (Nat.le_succ n) (ih (n + 1) h1)
    · exact h

/-- A result below `max` was returned from inside the loop, at a position
whose window hash is below the limit. -/
theorem get_chunk_len_loop_hit (data : List Byte) (max limit fuel n : Nat)
    (h : get_chunk_len_loop data max limit fuel n < max) :
    make_fnv_from_block (data.drop (get_chunk_len_loop data max limit fuel n - 8)) 8 < limit := by
  induction fuel generalizing n with
  | zero => simp [get_chunk_len_loop] at h
  | succ k ih =>
    simp only [get_chunk_len_loop] at h ⊢
    split_ifs at h ⊢ with h1 h2
    · exact h2
    · exact ih (n + 1) h
    · exact absurd h (Nat.lt_irrefl max)

/-- With enough iterations the loop stops at the first position whose window
hash is below the limit. -/
theorem get_chunk_len_loop_least (data : List Byte) (max limit fuel n m : Nat)
    (hfuel : max - n ≤ fuel) (hnm : n ≤ m) (hm : m < max)
    (hit : make_fnv_from_block (data.drop (m - 8)) 8 < limit) :
    get_chunk_len_loop data max limit fuel n ≤ m := by
  induction fuel generalizing n with
  | zero => omega
  | succ k ih =>
    simp only [get_chunk_len_loop]
    split_ifs with h1 h2
    · exact hnm
    · have hne : n ≠ m := by
        rintro rfl
        exact h2 hit
      exact ih (n + 1) (by omega) (by omega)
    · omega

/-- The iteration bound is immaterial once it covers the `max - n` values
the loop variable can still take. -/
theorem get_chunk_len_loop_fuel (data : List Byte) (max limit fuel n : Nat)
    (hfuel : max - n ≤ fuel) :
    get_chunk_len_loop data max limit fuel n
      = get_chunk_len_loop data max limit (max - n) n := by
  induction fuel generalizing n with
  | zero =>
    have : max - n = 0 := by omega
    rw [this]
  | succ k ih =>
    by_cases h1 : n < max
    · have hs : max - n = (max - (n + 1)) + 1 := by omega
      rw [hs]
      simp only [get_chunk_len_loop, h1, if_true]
      split_ifs with h2
      · rfl
      · exact ih (n + 1) (by omega)
    · have : max - n = 0 := by omega
      rw [this]
      simp [get_chunk_len_loop, h1]

theorem get_chunk_len_le (data : List Byte) (max T : Nat) :
    get_chunk_len data max T ≤ max :=
  get_chunk_len_loop_le data max _ _ 8

theorem get_chunk_len_small (data : List Byte) (max T : Nat) (h : max ≤ 8) :
    get_chunk_len data max T = max := by
  have h0 : max - 8 = 0 := by omega
  simp [get_chunk_len, h0, get_chunk_len_loop]

theorem get_chunk_len_ge_eight (data : List Byte) (max T : Nat) (h : 8 ≤ max) :
    8 ≤ get_chunk_len data max T :=
  get_chunk_len_loop_ge data max _ _ 8 h

theorem get_chunk_len_pos (data : List Byte) (max T : Nat) (h : 1 ≤ max) :
    1 ≤ get_chunk_len data max T := by
  by_cases h8 : 8 ≤ max
  · have := get_chunk_len_ge_eight data max T h8
    omega
  · rw [get_chunk_len_small data max T (by omega)]
    exact h

theorem get_chunk_len_hit (data : List Byte) (max T : Nat)
    (h : get_chunk_len data max T < max) :
    8 ≤ get_chunk_len data max T ∧
      make_fnv_from_block (data.drop (get_chunk_len data max T - 8)) 8
        < (1 <<< T) % 2 ^ 64 := by
  constructor
  · by_cases h8 : 8 ≤ max
    · exact get_chunk_len_ge_eight data max T h8
    · rw [get_chunk_len_small data max T (by omega)] at h
      exact absurd h (Nat.lt_irrefl max)
  · exact get_chunk_len_loop_hit data max _ _ 8 h

theorem get_chunk_len_least (data : List Byte) (max T m : Nat) (h8 : 8 ≤ m) (hm : m < max)
    (hit : make_fnv_from_block (data.drop (m - 8)) 8 < (1 <<< T) % 2 ^ 64) :
    get_chunk_len data max T ≤ m :=
  get_chunk_len_loop_least data max _ _ 8 m (Nat.le_refl _) h8 hm hit

theorem limit_eq (T : Nat) (hT : T ≤ 63) : (1 <<< T) % 2 ^ 64 = 2 ^ T := by
  rw [Nat.shiftLeft_eq, Nat.one_mul]
  exact Nat.mod_eq_of_lt (Nat.pow_lt_pow_right (by norm_num) (by omega))

/-- The hash of the window `data[m-8 .. m)` as the loop computes it. -/
theorem window_eq_fnv1a (data : List Byte) (m : Nat) (h8 : 8 ≤ m) (hm : m ≤ data.length) :
    make_fnv_from_block (data.drop (m - 8)) 8 = fnv1a ((data.drop (m - 8)).take 8) :=
  make_fnv_from_block_eq_fnv1a _ 8 (by rw [List.length_drop]; omega)

/-! ## The chunking loop -/

theorem chunk_loop_succ (T : Nat) (file : List Byte) (fuel pos bl : Nat) :
    chunk_loop T file (fuel + 1) pos bl
      = if file.length - (pos + get_chunk_len (file.drop pos) (bl % 2 ^ 32) T) ≠ 0 then
          (chunk_loop T file fuel (pos + get_chunk_len (file.drop pos) (bl % 2 ^ 32) T)
            (file.length - (pos + get_chunk_len (file.drop pos) (bl % 2 ^ 32) T))).map
            (fun rest => (pos, get_chunk_len (file.drop pos) (bl % 2 ^ 32) T) :: rest)
        else some [(pos, get_chunk_len (file.drop pos) (bl % 2 ^ 32) T)] := by
  simp only [chunk_loop]

/-- A run that has ended is not changed by a larger iteration bound. -/
theorem chunk_loop_fuel_succ (T : Nat) (file : List Byte) (fuel pos bl : Nat)
    (l : List (Nat × Nat)) (h : chunk_loop T file fuel pos bl = some l) :
    chunk_loop T file (fuel + 1) pos bl = some l := by
  induction fuel generalizing pos bl l with
  | zero => simp [chunk_loop] at h
  | succ k ih =>
    rw [chunk_loop_succ] at h ⊢
    split_ifs at h ⊢ with hc
    · rw [Option.map_eq_some'] at h
      obtain ⟨rest, hrest, rfl⟩ := h
      rw [ih _ _ rest hrest]
      rfl
    · exact h

theorem chunk_loop_fuel_mono (T : Nat) (file : List Byte) (fuel fuel1 pos bl : Nat)
    (l : List (Nat × Nat)) (h : chunk_loop T file fuel pos bl = some l) (hle : fuel ≤ fuel1) :
    chunk_loop T file fuel1 pos bl = some l := by
  induction hle with
  | refl => exact h
  | step _ ih => exact chunk_loop_fuel_succ T file _ pos bl l ih

/-- A run of `c` chunks needs `c` iterations, and there is at least one chunk. -/
theorem chunk_loop_length (T : Nat) (file : List Byte) (fuel pos bl : Nat)
    (l : List (Nat × Nat)) (h : chunk_loop T file fuel pos bl = some l) :
    1 ≤ l.length ∧ l.length ≤ fuel := by
  induction fuel generalizing pos bl l with
  | zero => simp [chunk_loop] at h
  | succ k ih =>
    rw [chunk_loop_succ] at h
    split_ifs at h with hc
    · rw [Option.map_eq_some'] at h
      obtain ⟨rest, hrest, rfl⟩ := h
      have := ih _ _ rest hrest
      simp only [List.length_cons]
      omega
    · cases h
      simp

/-- A run of `c` chunks ends within any bound of at least `c` iterations. -/
theorem chunk_loop_fuel_length (T : Nat) (file : List Byte) (fuel fuel1 pos bl : Nat)
    (l : List (Nat × Nat)) (h : chunk_loop T file fuel pos bl = some l)
    (hle : l.length ≤ fuel1) : chunk_loop T file fuel1 pos bl = some l := by
  induction fuel generalizing pos bl l fuel1 with
  | zero => simp [chunk_loop] at h
  | succ k ih =>
    rw [chunk_loop_succ] at h
    cases fuel1 with
    | zero =>
      have := chunk_loop_length T file (k + 1) pos bl l (by rw [chunk_loop_succ]; exact h)
      omega
    | succ j =>
      rw [chunk_loop_succ]
      split_ifs at h ⊢ with hc
      · rw [Option.map_eq_some'] at h
        obtain ⟨rest, hrest, rfl⟩ := h
        rw [ih j _ _ rest hrest (by simpa using hle)]
        rfl
      · exact h

theorem contiguous_sum (l : List (Nat × Nat)) (start stop : Nat)
    (h : contiguous start l stop) : start + (l.map Prod.snd).sum = stop := by
  induction l generalizing start with
  | nil => simpa [contiguous] using h
  | cons c rest ih =>
    obtain ⟨_, h2⟩ := h
    have := ih _ h2
    simp only [List.map_cons, List.sum_cons]
    omega

theorem contiguous_mem (l : List (Nat × Nat)) (start stop : Nat)
    (h : contiguous start l stop) (c : Nat × Nat) (hc : c ∈ l) :
    start ≤ c.1 ∧ c.1 + c.2 ≤ stop := by
  induction l generalizing start with
  | nil => simp at hc
  | cons d rest ih =>
    obtain ⟨h1, h2⟩ := h
    rcases List.mem_cons.1 hc with rfl | hmem
    · have := contiguous_sum rest _ _ h2
      omega
    · have := ih _ h2 hmem
      omega

/-- The chunks of a finished run tile `[pos, filesize)`. -/
theorem chunk_loop_contiguous (T : Nat) (file : List Byte) (fuel pos : Nat)
    (l : List (Nat × Nat)) (hpos : pos ≤ file.length)
    (h : chunk_loop T file fuel pos (file.length - pos) = some l) :
    contiguous pos l file.length := by
  induction fuel generalizing pos l with
  | zero => simp [chunk_loop] at h
  | succ k ih =>
    rw [chunk_loop_succ] at h
    have hle := get_chunk_len_le (file.drop pos) ((file.length - pos) % 2 ^ 32) T
    have hmod := Nat.mod_le (file.length - pos) (2 ^ 32)
    split_ifs at h with hc
    · rw [Option.map_eq_some'] at h
      obtain ⟨rest, hrest, rfl⟩ := h
      exact ⟨rfl, ih _ rest (by omega) hrest⟩
    · cases h
      refine ⟨rfl, ?_⟩
      simp only [contiguous]
      omega

/-- Below `2^32` bytes every chunk of a non-empty range is non-empty. -/
theorem chunk_loop_chunk_pos (T : Nat) (file : List Byte) (fuel pos : Nat)
    (l : List (Nat × Nat)) (hpos : pos < file.length) (hlen : file.length - pos < 2 ^ 32)
    (h : chunk_loop T file fuel pos (file.length - pos) = some l) :
    ∀ c ∈ l, 1 ≤ c.2 := by
  induction fuel generalizing pos l with
  | zero => simp [chunk_loop] at h
  | succ k ih =>
    rw [chunk_loop_succ, Nat.mod_eq_of_lt hlen] at h
    have hge := get_chunk_len_pos (file.drop pos) (file.length - pos) T (by omega)
    split_ifs at h with hc
    · rw [Option.map_eq_some'] at h
      obtain ⟨rest, hrest, rfl⟩ := h
      intro c hmem
      rcases List.mem_cons.1 hmem with rfl | hmem
      · exact hge
      · exact ih _ rest (by omega) (by omega) hrest c hmem
    · cases h
      intro c hmem
      rw [List.mem_singleton] at hmem
      subst hmem
      exact hge

/-- Below `2^32` bytes the loop ends, within as many iterations as there are
bytes left. -/
theorem chunk_loop_terminates (T : Nat) (file : List Byte) (fuel pos : Nat)
    (hpos : pos < file.length) (hlen : file.length - pos < 2 ^ 32)
    (hfuel : file.length - pos ≤ fuel) :
    ∃ l, chunk_loop T file fuel pos (file.length - pos) = some l := by
  induction fuel generalizing pos with
  | zero => omega
  | succ k ih =>
    rw [chunk_loop_succ, Nat.mod_eq_of_lt hlen]
    have hge := get_chunk_len_pos (file.drop pos) (file.length - pos) T (by omega)
    have hle := get_chunk_len_le (file.drop pos) (file.length - pos) T
    split_ifs with hc
    · obtain ⟨rest, hrest⟩ := ih (pos + get_chunk_len (file.drop pos) (file.length - pos) T)
        (by omega) (by omega) (by omega)
      exact ⟨_, by rw [hrest]; rfl⟩
    · exact ⟨_, rfl⟩

/-- When `bytes_left` is a non-zero multiple of `2^32` the narrowed `max` is
`0`, the chunk length is `0` and the loop makes no progress. -/
theorem chunk_loop_stuck (T : Nat) (file : List Byte) (fuel pos : Nat)
    (hne : file.length - pos ≠ 0) (hmod : (file.length - pos) % 2 ^ 32 = 0) :
    chunk_loop T file fuel pos (file.length - pos) = none := by
  induction fuel with
  | zero => rfl
  | succ k ih =>
    rw [chunk_loop_succ, hmod, get_chunk_len_small _ 0 T (by omega), Nat.add_zero,
      if_pos hne, ih]
    rfl

theorem chunking_empty (T : Nat) : chunking T [] = some [(0, 0)] := by
  simp [chunking, chunk_loop_succ, get_chunk_len_small]

/-! ## Boundaries in absolute file positions -/

theorem drop_window (file : List Byte) (pos n : Nat) (h8 : 8 ≤ n) :
    (file.drop pos).drop (n - 8) = file.drop (pos + n - 8) := by
  rw [List.drop_drop]
  congr 1
  omega

/-- A chunk that ends before the end of the range ends at a position whose
8-byte window hash is below the limit, at least 8 bytes after its start. -/
theorem next_boundary_hit (T : Nat) (file : List Byte) (pos max : Nat)
    (h : get_chunk_len (file.drop pos) max T < max) :
    8 ≤ get_chunk_len (file.drop pos) max T ∧
      make_fnv_from_block (file.drop (pos + get_chunk_len (file.drop pos) max T - 8)) 8
        < (1 <<< T) % 2 ^ 64 := by
  obtain ⟨h8, hh⟩ := get_chunk_len_hit (file.drop pos) max T h
  rw [drop_window file pos _ h8] at hh
  exact ⟨h8, hh⟩

/-- The chunk starting at `pos` ends no later than any position `p ≥ pos + 8`
inside the range whose window hash is below the limit. -/
theorem next_boundary_least (T : Nat) (file : List Byte) (pos max p : Nat)
    (h8 : pos + 8 ≤ p) (hp : p - pos < max)
    (hit : make_fnv_from_block (file.drop (p - 8)) 8 < (1 <<< T) % 2 ^ 64) :
    pos + get_chunk_len (file.drop pos) max T ≤ p := by
  have := get_chunk_len_least (file.drop pos) max T (p - pos) (by omega) hp
    (by rw [drop_window file pos _ (by omega)]
        have e : pos + (p - pos) - 8 = p - 8 := by omega
        rw [e]
        exact hit)
  omega

/-- A position `q` whose window hash is below the limit, with no such
position among the 7 before it, is a chunk boundary of every run that starts
at least 8 bytes before it. -/
theorem chunk_loop_capture (T : Nat) (file : List Byte) (q : Nat) (hq : q < file.length)
    (hit : make_fnv_from_block (file.drop (q - 8)) 8 < (1 <<< T) % 2 ^ 64)
    (quiet : ∀ m, q - 7 ≤ m → m < q →
      ¬ make_fnv_from_block (file.drop (m - 8)) 8 < (1 <<< T) % 2 ^ 64)
    (fuel pos : Nat) (l : List (Nat × Nat)) (hlen : file.length - pos < 2 ^ 32)
    (hpos : pos + 8 ≤ q)
    (h : chunk_loop T file fuel pos (file.length - pos) = some l) :
    ∃ pre post, l = pre ++ post ∧ contiguous pos pre q ∧
      chunk_loop T file fuel q (file.length - q) = some post := by
  induction fuel generalizing pos l with
  | zero => simp [chunk_loop] at h
  | succ k ih =>
    rw [chunk_loop_succ, Nat.mod_eq_of_lt hlen] at h
    have hleast := next_boundary_least T file pos (file.length - pos) q hpos (by omega) hit
    rw [if_pos (by omega), Option.map_eq_some'] at h
    obtain ⟨rest, hrest, rfl⟩ := h
    rcases Nat.eq_or_lt_of_le hleast with heq | hlt
    · refine ⟨[(pos, get_chunk_len (file.drop pos) (file.length - pos) T)], rest, rfl,
        ⟨rfl, heq⟩, ?_⟩
      rw [heq] at hrest
      exact chunk_loop_fuel_succ T file k q _ rest hrest
    · obtain ⟨h8, hh⟩ := next_boundary_hit T file pos (file.length - pos) (by omega)
      have hfar : pos + get_chunk_len (file.drop pos) (file.length - pos) T + 8 ≤ q := by
        by_contra hcon
        exact quiet _ (by omega) hlt hh
      obtain ⟨pre, post, hl, hc, hp⟩ := ih _ rest (by omega) hfar hrest
      refine ⟨(pos, get_chunk_len (file.drop pos) (file.length - pos) T) :: pre, post, ?_,
        ⟨rfl, hc⟩, chunk_loop_fuel_succ T file k q _ post hp⟩
      rw [hl]
      rfl

/-- The chunking of a suffix does not depend on what precedes it. -/
theorem chunk_loop_append_left (T : Nat) (P B : List Byte) (fuel pos bl : Nat) :
    chunk_loop T (P ++ B) fuel (P.length + pos) bl
      = (chunk_loop T B fuel pos bl).map (List.map (fun c => (P.length + c.1, c.2))) := by
  induction fuel generalizing pos bl with
  | zero => rfl
  | succ k ih =>
    have hd : (P ++ B).drop (P.length + pos) = B.drop pos := List.drop_append pos
    have hl : ∀ c, (P ++ B).length - (P.length + pos + c) = B.length - (pos + c) := by
      intro c
      rw [List.length_append]
      omega
    rw [chunk_loop_succ, chunk_loop_succ, hd, hl]
    split_ifs with hc
    · rw [Nat.add_assoc, ih]
      cases chunk_loop T B k (pos + get_chunk_len (B.drop pos) (bl % 2 ^ 32) T)
        (B.length - (pos + get_chunk_len (B.drop pos) (bl % 2 ^ 32) T)) <;> rfl
    · rfl

/-- A lower threshold never ends a chunk earlier. -/
theorem get_chunk_len_antitone (data : List Byte) (max T1 T2 : Nat)
    (hlim : (1 <<< T1) % 2 ^ 64 ≤ (1 <<< T2) % 2 ^ 64) :
    get_chunk_len data max T2 ≤ get_chunk_len data max T1 := by
  rcases Nat.lt_or_ge (get_chunk_len data max T1) max with hlt | hge
  · obtain ⟨h8, hh⟩ := get_chunk_len_hit data max T1 hlt
    exact get_chunk_len_least data max T2 _ h8 hlt (Nat.lt_of_lt_of_le hh hlim)
  · exact Nat.le_trans (get_chunk_len_le data max T2) hge

/-- The run with the higher threshold stays ahead: started no later, it has
at least as many chunks. -/
theorem chunk_loop_count_mono (T1 T2 : Nat) (file : List Byte)
    (hlim : (1 <<< T1) % 2 ^ 64 ≤ (1 <<< T2) % 2 ^ 64)
    (fuel1 fuel2 pos1 pos2 : Nat) (l1 l2 : List (Nat × Nat))
    (hpos : pos2 ≤ pos1) (hpos1 : pos1 ≤ file.length) (hlen : file.length - pos2 < 2 ^ 32)
    (h1 : chunk_loop T1 file fuel1 pos1 (file.length - pos1) = some l1)
    (h2 : chunk_loop T2 file fuel2 pos2 (file.length - pos2) = some l2) :
    l1.length ≤ l2.length := by
  induction fuel1 generalizing fuel2 pos1 pos2 l1 l2 with
  | zero => simp [chunk_loop] at h1
  | succ k ih =>
    have hlen2 := (chunk_loop_length T2 file fuel2 pos2 _ l2 h2).1
    rw [chunk_loop_succ, Nat.mod_eq_of_lt (by omega)] at h1
    have hle1 := get_chunk_len_le (file.drop pos1) (file.length - pos1) T1
    split_ifs at h1 with hc
    · rw [Option.map_eq_some'] at h1
      obtain ⟨rest1, hrest1, rfl⟩ := h1
      obtain ⟨h8, hh⟩ := next_boundary_hit T1 file pos1 (file.length - pos1) (by omega)
      have hleast := next_boundary_least T2 file pos2 (file.length - pos2)
        (pos1 + get_chunk_len (file.drop pos1) (file.length - pos1) T1) (by omega) (by omega)
        (Nat.lt_of_lt_of_le hh hlim)
      cases fuel2 with
      | zero => simp [chunk_loop] at h2
      | succ j =>
        rw [chunk_loop_succ, Nat.mod_eq_of_lt hlen, if_pos (by omega),
          Option.map_eq_some'] at h2
        obtain ⟨rest2, hrest2, rfl⟩ := h2
        have := ih j _ _ rest1 rest2 hleast (by omega) (by omega) hrest1 hrest2
        simpa using this
    · cases h1
      simpa using hlen2

/-- Below `2^32` bytes the chunking of a whole file ends. -/
theorem chunking_terminates (T : Nat) (B : List Byte) (hlen : B.length < 2 ^ 32) :
    ∃ l, chunking T B = some l := by
  rcases Nat.eq_zero_or_pos B.length with h0 | hpos
  · rw [List.length_eq_zero] at h0
    subst h0
    exact ⟨_, chunking_empty T⟩
  · obtain ⟨l, hl⟩ := chunk_loop_terminates T B (B.length + 1) 0 hpos (by omega) (by omega)
    rw [Nat.sub_zero] at hl
    exact ⟨l, hl⟩

theorem limit_mono (T1 T2 : Nat) (h12 : T1 ≤ T2) (hT2 : T2 ≤ 63) :
    (1 <<< T1) % 2 ^ 64 ≤ (1 <<< T2) % 2 ^ 64 := by
  rw [limit_eq T1 (by omega), limit_eq T2 hT2]
  exact Nat.pow_le_pow_right (by norm_num) h12

/-! ## The fingerprint builder -/

theorem hash_loop_succ (bb T : Nat) (file : List Byte) (fs fuel pos bl k : Nat)
    (fp : List Nat) :
    hash_loop bb T file fs (fuel + 1) pos bl k fp
      = if (k + 1) % 2 ^ 32 > (bb * 4) % 2 ^ 32 then
          some (3, set_bucket fp
            (chunk_bucket bb file (pos, get_chunk_len (file.drop pos) (bl % 2 ^ 32) T)))
        else if fs - (pos + get_chunk_len (file.drop pos) (bl % 2 ^ 32) T) ≠ 0 then
          hash_loop bb T file fs fuel
            (pos + get_chunk_len (file.drop pos) (bl % 2 ^ 32) T)
            (fs - (pos + get_chunk_len (file.drop pos) (bl % 2 ^ 32) T))
            ((k + 1) % 2 ^ 32)
            (set_bucket fp
              (chunk_bucket bb file (pos, get_chunk_len (file.drop pos) (bl % 2 ^ 32) T)))
        else if (k + 1) % 2 ^ 32 < 10 then
          some (4, set_bucket fp
            (chunk_bucket bb file (pos, get_chunk_len (file.drop pos) (bl % 2 ^ 32) T)))
        else
          some (0, set_bucket fp
            (chunk_bucket bb file (pos, get_chunk_len (file.drop pos) (bl % 2 ^ 32) T))) := by
  simp only [hash_loop, set_bucket, chunk_bucket]

/-- When the chunking ends within the limit, the loop of `hash` processes
exactly its chunks and ends with status `4` or `0`. -/
theorem hash_loop_of_chunks (bb T : Nat) (file : List Byte) (n : Nat) :
    ∀ (fuel pos bl k : Nat) (fp : List Nat) (l : List (Nat × Nat)),
      chunk_loop T file n pos bl = some l → k + l.length ≤ (bb * 4) % 2 ^ 32 →
      l.length ≤ fuel →
      hash_loop bb T file file.length fuel pos bl k fp
        = some (if k + l.length < 10 then 4 else 0,
            l.foldl (fun fp c => set_bucket fp (chunk_bucket bb file c)) fp) := by
  induction n with
  | zero =>
    intro fuel pos bl k fp l h
    simp [chunk_loop] at h
  | succ m ih =>
    intro fuel pos bl k fp l h hk hfuel
    have hL : (bb * 4) % 2 ^ 32 < 2 ^ 32 := Nat.mod_lt _ (by norm_num)
    have hl1 := (chunk_loop_length T file _ pos bl l h).1
    cases fuel with
    | zero => omega
    | succ j =>
      rw [chunk_loop_succ] at h
      rw [hash_loop_succ, Nat.mod_eq_of_lt (by omega), if_neg (by omega)]
      split_ifs at h with hc
      · rw [Option.map_eq_some'] at h
        obtain ⟨rest, hrest, rfl⟩ := h
        rw [if_pos hc, ih j _ _ (k + 1) _ rest hrest
          (by simp only [List.length_cons] at hk; omega)
          (by simp only [List.length_cons] at hfuel; omega)]
        simp only [List.length_cons, List.foldl_cons]
        have e : k + 1 + rest.length = k + (rest.length + 1) := by omega
        rw [e]
      · cases h
        rw [if_neg hc]
        simp only [List.length_singleton, List.foldl_cons, List.foldl_nil]
        split_ifs <;> rfl

/-- When the chunking does not end within the limit, the loop of `hash`
leaves with status `3`. -/
theorem hash_loop_abort (bb T : Nat) (file : List Byte) :
    ∀ (fuel pos bl k : Nat) (fp : List Nat), k ≤ (bb * 4) % 2 ^ 32 →
      chunk_loop T file ((bb * 4) % 2 ^ 32 - k) pos bl = none →
      (bb * 4) % 2 ^ 32 - k + 1 ≤ fuel →
      ∃ fp1, hash_loop bb T file file.length fuel pos bl k fp = some (3, fp1) := by
  intro fuel
  induction fuel with
  | zero =>
    intro pos bl k fp hk h hfuel
    omega
  | succ j ih =>
    intro pos bl k fp hk h hfuel
    have hbb : (bb * 4) % 2 ^ 32 + 1 < 2 ^ 32 := by omega
    rw [hash_loop_succ, Nat.mod_eq_of_lt (by omega)]
    by_cases hlast : k + 1 > (bb * 4) % 2 ^ 32
    · rw [if_pos hlast]
      exact ⟨_, rfl⟩
    · rw [if_neg hlast]
      have e : (bb * 4) % 2 ^ 32 - k = ((bb * 4) % 2 ^ 32 - (k + 1)) + 1 := by omega
      rw [e, chunk_loop_succ] at h
      split_ifs at h with hc
      · rw [Option.map_eq_none'] at h
        rw [if_pos hc]
        exact ih _ _ (k + 1) _ (by omega) h (by omega)

/-- A finished run never has more chunks than bytes, plus one. -/
theorem chunk_loop_complete (T : Nat) (file : List Byte) (fuel pos : Nat)
    (l : List (Nat × Nat)) (hpos : pos ≤ file.length)
    (h : chunk_loop T file fuel pos (file.length - pos) = some l) :
    l.length ≤ file.length - pos + 1 := by
  induction fuel generalizing pos l with
  | zero => simp [chunk_loop] at h
  | succ j ih =>
    have h0 := h
    rw [chunk_loop_succ] at h
    have hle := get_chunk_len_le (file.drop pos) ((file.length - pos) % 2 ^ 32) T
    have hmod := Nat.mod_le (file.length - pos) (2 ^ 32)
    split_ifs at h with hc
    · rw [Option.map_eq_some'] at h
      obtain ⟨rest, hrest, rfl⟩ := h
      have hne : (file.length - pos) % 2 ^ 32 ≠ 0 := by
        intro hz
        rw [chunk_loop_stuck T file (j + 1) pos (by omega) hz] at h0
        cases h0
      have hge := get_chunk_len_pos (file.drop pos) ((file.length - pos) % 2 ^ 32) T
        (by omega)
      have := ih _ rest (by omega) hrest
      simp only [List.length_cons]
      omega
    · cases h
      simp

/-- The chunking of a whole file, seen through any iteration bound. -/
theorem chunk_loop_eq_chunking (T : Nat) (file : List Byte) (fuel : Nat)
    (l : List (Nat × Nat)) (h : chunk_loop T file fuel 0 file.length = some l) :
    chunking T file = some l := by
  have hc := chunk_loop_complete T file fuel 0 l (Nat.zero_le _) (by rw [Nat.sub_zero]; exact h)
  exact chunk_loop_fuel_length T file fuel _ 0 _ l h (by omega)

theorem chunk_loop_of_chunking (T : Nat) (file : List Byte) (fuel : Nat)
    (l : List (Nat × Nat)) (h : chunking T file = some l) (hfuel : l.length ≤ fuel) :
    chunk_loop T file fuel 0 file.length = some l :=
  chunk_loop_fuel_length T file _ fuel 0 _ l h hfuel

/-- Within `n` iterations the loop ends exactly when the file has at most `n`
chunks. -/
theorem chunk_loop_none_iff (T : Nat) (file : List Byte) (n : Nat) :
    chunk_loop T file n 0 file.length = none
      ↔ ∀ l, chunking T file = some l → n < l.length := by
  constructor
  · intro hnone l hl
    by_contra hcon
    rw [chunk_loop_of_chunking T file n l hl (by omega)] at hnone
    cases hnone
  · intro hall
    cases hres : chunk_loop T file n 0 file.length with
    | none => rfl
    | some l =>
      have h1 := chunk_loop_eq_chunking T file n l hres
      have h2 := (chunk_loop_length T file n 0 _ l hres).2
      have := hall l h1
      omega

/-- The 32-bit product `bloom_bytes*4` is a multiple of 4, so the counter
`bitsset` reaches `bloom_bytes*4 + 1` without wrapping. -/
theorem limit_succ_lt (bb : Nat) : (bb * 4) % 2 ^ 32 + 1 < 2 ^ 32 := by
  omega

/-- The result of `hash` on a file whose chunking ends within the limit. -/
theorem hash_of_chunking (bb T : Nat) (file : List Byte) (fp : List Nat)
    (l : List (Nat × Nat)) (h8 : file.length ≠ 8) (hl : chunking T file = some l)
    (hle : l.length ≤ (bb * 4) % 2 ^ 32) :
    hash bb T file fp
      = some (if l.length < 10 then 4 else 0,
          l.foldl (fun fp c => set_bucket fp (chunk_bucket bb file c)) fp) := by
  rw [hash, if_neg h8, hash_loop_of_chunks bb T file _ _ 0 file.length 0 fp l hl
    (by omega) (by omega), Nat.zero_add]

/-- The result of `hash` on a file whose chunking does not end within the
limit. -/
theorem hash_oversaturated (bb T : Nat) (file : List Byte) (fp : List Nat)
    (h8 : file.length ≠ 8)
    (hmany : ∀ l, chunking T file = some l → (bb * 4) % 2 ^ 32 < l.length) :
    ∃ fp1, hash bb T file fp = some (3, fp1) := by
  rw [hash, if_neg h8]
  exact hash_loop_abort bb T file _ 0 file.length 0 fp (Nat.zero_le _)
    ((chunk_loop_none_iff T file _).2 hmany) (by omega)

/-- The loop of `hash` always returns within `bloom_bytes*4 + 1` iterations:
`hash` is total. -/
theorem hash_isSome (bb T : Nat) (file : List Byte) (fp : List Nat) :
    ∃ status fp1, hash bb T file fp = some (status, fp1) := by
  by_cases h8 : file.length = 8
  · exact ⟨2, fp, by rw [hash, if_pos h8]⟩
  · cases hres : chunk_loop T file ((bb * 4) % 2 ^ 32) 0 file.length with
    | none =>
      obtain ⟨fp1, h⟩ := hash_oversaturated bb T file fp h8
        ((chunk_loop_none_iff T file _).1 hres)
      exact ⟨3, fp1, h⟩
    | some l =>
      have h1 := chunk_loop_eq_chunking T file _ l hres
      have h2 := (chunk_loop_length T file _ 0 _ l hres).2
      exact ⟨_, _, hash_of_chunking bb T file fp l h8 h1 h2⟩

/-! ## Fingerprint bits -/

theorem length_set_bucket (fp : List Nat) (b : Nat) :
    (set_bucket fp b).length = fp.length := by
  simp [set_bucket]

theorem fp_bit_set_bucket (fp : List Nat) (b i : Nat) (hb : b / 8 < fp.length) :
    fp_bit (set_bucket fp b) i = (fp_bit fp i || decide (i = b)) := by
  have hshift : b >>> 3 = b / 8 := by
    rw [Nat.shiftRight_eq_div_pow]
  have hand : b &&& 7 = b % 8 := by
    have := Nat.and_pow_two_sub_one_eq_mod b 3
    simpa using this
  have hbit : (1 <<< (b % 8)) % 2 ^ 8 = 2 ^ (b % 8) := by
    rw [Nat.shiftLeft_eq, Nat.one_mul]
    exact Nat.mod_eq_of_lt (Nat.pow_lt_pow_right (by norm_num) (by omega))
  simp only [fp_bit, set_bucket, hshift, hand, hbit]
  by_cases hbyte : i / 8 = b / 8
  · rw [hbyte, List.getD_eq_getElem?_getD, List.getD_eq_getElem?_getD,
      List.getElem?_set_self hb, Option.getD_some, Nat.testBit_lor, Nat.testBit_two_pow]
    congr 1
    by_cases hib : i = b
    · subst hib
      simp
    · have : b % 8 ≠ i % 8 := by omega
      simp [hib, this]
  · have hib : i ≠ b := by
      rintro rfl
      exact hbyte rfl
    rw [List.getD_eq_getElem?_getD, List.getD_eq_getElem?_getD,
      List.getElem?_set_ne (Ne.symm hbyte)]
    simp [hib]

theorem fp_bit_foldl (buckets : List Nat) (fp : List Nat) (i : Nat)
    (hb : ∀ b ∈ buckets, b / 8 < fp.length) :
    fp_bit (buckets.foldl set_bucket fp) i = true ↔ fp_bit fp i = true ∨ i ∈ buckets := by
  induction buckets generalizing fp with
  | nil => simp
  | cons b rest ih =>
    rw [List.foldl_cons, ih (set_bucket fp b)
      (by
        intro c hc
        rw [length_set_bucket]
        exact hb c (List.mem_cons_of_mem _ hc)),
      fp_bit_set_bucket fp b i (hb b (List.mem_cons_self _ _))]
    simp only [Bool.or_eq_true, decide_eq_true_eq, List.mem_cons]
    tauto

theorem fp_bit_zero (n i : Nat) : fp_bit (List.replicate n 0) i = false := by
  simp only [fp_bit, List.getD_eq_getElem?_getD]
  by_cases h : i / 8 < n
  · simp [List.getElem?_replicate, h]
  · simp [List.getElem?_replicate, h]

/-- While the chunk counter stays within the limit and the chunking has not
ended, the loop of `hash` has not returned. -/
theorem hash_loop_running (bb T : Nat) (file : List Byte) :
    ∀ (fuel pos bl k : Nat) (fp : List Nat), k + fuel ≤ (bb * 4) % 2 ^ 32 →
      chunk_loop T file fuel pos bl = none →
      hash_loop bb T file file.length fuel pos bl k fp = none := by
  intro fuel
  induction fuel with
  | zero =>
    intro pos bl k fp _ _
    rfl
  | succ j ih =>
    intro pos bl k fp hk h
    have hL : (bb * 4) % 2 ^ 32 < 2 ^ 32 := Nat.mod_lt _ (by norm_num)
    rw [chunk_loop_succ] at h
    rw [hash_loop_succ, Nat.mod_eq_of_lt (by omega), if_neg (by omega)]
    split_ifs at h with hc
    rw [Option.map_eq_none'] at h
    rw [if_pos hc]
    exact ih _ _ (k + 1) _ (by omega) h

/-- The two ways `hash` can end on a file whose length is not 8. -/
theorem hash_cases (bb T : Nat) (file : List Byte) (fp : List Nat)
    (h8 : file.length ≠ 8) :
    (∃ l, chunking T file = some l ∧ l.length ≤ (bb * 4) % 2 ^ 32 ∧
        hash bb T file fp
          = some (if l.length < 10 then 4 else 0,
              l.foldl (fun fp c => set_bucket fp (chunk_bucket bb file c)) fp))
      ∨ ((∀ l, chunking T file = some l → (bb * 4) % 2 ^ 32 < l.length) ∧
        ∃ fp1, hash bb T file fp = some (3, fp1)) := by
  cases hres : chunk_loop T file ((bb * 4) % 2 ^ 32) 0 file.length with
  | none =>
    right
    have hmany := (chunk_loop_none_iff T file _).1 hres
    exact ⟨hmany, hash_oversaturated bb T file fp h8 hmany⟩
  | some l =>
    left
    have h1 := chunk_loop_eq_chunking T file _ l hres
    have h2 := (chunk_loop_length T file _ 0 _ l hres).2
    exact ⟨l, h1, h2, hash_of_chunking bb T file fp l h8 h1 h2⟩

/-- The bucket of a chunk of the file, in the specification's terms. -/
theorem chunk_bucket_eq (bb : Nat) (file : List Byte) (c : Nat × Nat)
    (hbb0 : 0 < bb) (hbb : bb < 2 ^ 29) (hc : c.1 + c.2 ≤ file.length) :
    chunk_bucket bb file c = fnv1a (chunk_bytes file c) % (bb * 8)
      ∧ chunk_bucket bb file c / 8 < bb := by
  have h32 : bb * 8 < 2 ^ 32 := by omega
  have e : chunk_bucket bb file c = fnv1a (chunk_bytes file c) % (bb * 8) := by
    rw [chunk_bucket, Nat.mod_eq_of_lt h32,
      make_fnv_from_block_eq_fnv1a _ _ (by rw [List.length_drop]; omega)]
    exact Nat.mod_eq_of_lt (Nat.lt_trans (Nat.mod_lt _ (by omega)) h32)
  refine ⟨e, ?_⟩
  rw [e]
  have := Nat.mod_lt (fnv1a (chunk_bytes file c)) (show 0 < bb * 8 by omega)
  omega

/-- Starting from all zeros, the bits set by the loop of `hash` are exactly
the buckets of the chunks. -/
theorem fp_bit_fingerprint (bb : Nat) (file : List Byte) (l : List (Nat × Nat)) (i : Nat)
    (hbb0 : 0 < bb) (hbb : bb < 2 ^ 29) (hl : ∀ c ∈ l, c.1 + c.2 ≤ file.length) :
    fp_bit (l.foldl (fun fp c => set_bucket fp (chunk_bucket bb file c))
        (List.replicate bb 0)) i = true
      ↔ ∃ c ∈ l, i = fnv1a (chunk_bytes file c) % (bb * 8) := by
  have hmap : l.foldl (fun fp c => set_bucket fp (chunk_bucket bb file c))
      (List.replicate bb 0)
      = (l.map (chunk_bucket bb file)).foldl set_bucket (List.replicate bb 0) := by
    rw [List.foldl_map]
  rw [hmap, fp_bit_foldl _ _ i
    (by
      intro b hb
      obtain ⟨c, hc, rfl⟩ := List.mem_map.1 hb
      rw [List.length_replicate]
      exact (chunk_bucket_eq bb file c hbb0 hbb (hl c hc)).2),
    fp_bit_zero]
  constructor
  · rintro (h | h)
    · cases h
    · obtain ⟨c, hc, rfl⟩ := List.mem_map.1 h
      exact ⟨c, hc, (chunk_bucket_eq bb file c hbb0 hbb (hl c hc)).1⟩
  · rintro ⟨c, hc, rfl⟩
    right
    exact List.mem_map.2 ⟨c, hc, (chunk_bucket_eq bb file c hbb0 hbb (hl c hc)).1⟩

theorem chunking_bounds (T : Nat) (file : List Byte) (l : List (Nat × Nat))
    (h : chunking T file = some l) : ∀ c ∈ l, c.1 + c.2 ≤ file.length := by
  intro c hc
  have hcont := chunk_loop_contiguous T file (file.length + 1) 0 l (Nat.zero_le _)
    (by rw [Nat.sub_zero]; exact h)
  exact (contiguous_mem l 0 _ hcont c hc).2

/-! ## The similarity engine -/

/-- The number of set bits among the first `64 * m` bits of the words `w`. -/
theorem sum_popcountll (w : Nat → Nat) (m : Nat) :
    ((List.range m).map (fun n => popcountll (w n))).sum
      = (List.range (64 * m)).countP (fun i => (w (i / 64)).testBit (i % 64)) := by
  induction m with
  | zero => simp
  | succ k ih =>
    have e : 64 * (k + 1) = 64 * k + 64 := by ring
    rw [List.range_succ, List.map_append, List.sum_append, ih, e, List.range_add,
      List.countP_append, List.countP_map]
    congr 1
    simp only [List.map_cons, List.map_nil, List.sum_cons, List.sum_nil, Nat.add_zero,
      popcountll]
    apply List.countP_congr
    intro j hj
    have hj64 : j < 64 := List.mem_range.1 hj
    have h1 : (64 * k + j) / 64 = k := by omega
    have h2 : (64 * k + j) % 64 = j := by omega
    simp [h1, h2]

theorem card_filter_range (p : Nat → Bool) (N : Nat) :
    ((Finset.range N).filter (fun i => p i = true)).card = (List.range N).countP p := by
  induction N with
  | zero => simp
  | succ k ih =>
    rw [Finset.range_succ, Finset.filter_insert, List.range_succ, List.countP_append]
    by_cases hp : p k = true
    · rw [if_pos hp, Finset.card_insert_of_not_mem (by simp), ih]
      simp [hp]
    · rw [if_neg hp, ih]
      simp [hp]

/-- The two counters after the loop of `jaccard_simularity`: the sums of the
population counts, each reduced modulo `2^32`. -/
theorem jaccard_counters (a b : List Nat) (m : Nat) :
    (List.range m).foldl
        (fun (c : Nat × Nat) n =>
          ((c.1 + popcountll (a.getD n 0 ||| b.getD n 0)) % 2 ^ 32,
           (c.2 + popcountll (a.getD n 0 &&& b.getD n 0)) % 2 ^ 32))
        (0, 0)
      = (((List.range m).map (fun n => popcountll (a.getD n 0 ||| b.getD n 0))).sum % 2 ^ 32,
         ((List.range m).map (fun n => popcountll (a.getD n 0 &&& b.getD n 0))).sum % 2 ^ 32) := by
  induction m with
  | zero => simp
  | succ k ih =>
    rw [List.range_succ, List.foldl_append, ih]
    simp only [List.foldl_cons, List.foldl_nil, List.map_append, List.map_cons, List.map_nil,
      List.sum_append, List.sum_cons, List.sum_nil, Nat.add_zero, Nat.mod_add_mod]

theorem sum_popcountll_lor (a b : List Nat) (m : Nat) :
    ((List.range m).map (fun n => popcountll (a.getD n 0 ||| b.getD n 0))).sum
      = (set_bits a (64 * m) ∪ set_bits b (64 * m)).card := by
  rw [sum_popcountll (fun n => a.getD n 0 ||| b.getD n 0) m, set_bits, set_bits,
    ← Finset.filter_or, ← card_filter_range]
  congr 1
  apply Finset.filter_congr
  intro i _
  simp [Nat.testBit_lor]

theorem sum_popcountll_land (a b : List Nat) (m : Nat) :
    ((List.range m).map (fun n => popcountll (a.getD n 0 &&& b.getD n 0))).sum
      = (set_bits a (64 * m) ∩ set_bits b (64 * m)).card := by
  rw [sum_popcountll (fun n => a.getD n 0 &&& b.getD n 0) m, set_bits, set_bits,
    ← Finset.filter_and, ← card_filter_range]
  congr 1
  apply Finset.filter_congr
  intro i _
  simp [Nat.testBit_land]

theorem set_bits_card_le (a : List Nat) (N : Nat) : (set_bits a N).card ≤ N := by
  rw [set_bits]
  exact Nat.le_trans (Finset.card_filter_le _ _) (by simp)

theorem set_bits_union_card_le (a b : List Nat) (N : Nat) :
    (set_bits a N ∪ set_bits b N).card ≤ N := by
  rw [set_bits, set_bits, ← Finset.filter_or]
  exact Nat.le_trans (Finset.card_filter_le _ _) (by simp)

/-- The result of `jaccard_simularity` when the 32-bit counters cannot wrap,
in terms of the sets of set bits: the sentinel, or the single-precision
quotient of the two cardinalities converted to `float`. -/
theorem jaccard_simularity_eq (bb : Nat) (a b : List Nat) (hmul : 8 ∣ bb)
    (hbb : bb < 2 ^ 29) :
    jaccard_simularity bb a b
      = if (set_bits a (bb * 8) ∩ set_bits b (bb * 8)).card = 0 then -1
        else to_float
          (to_float ((set_bits a (bb * 8) ∩ set_bits b (bb * 8)).card : ℚ)
            / to_float ((set_bits a (bb * 8) ∪ set_bits b (bb * 8)).card : ℚ)) := by
  have hN : 64 * (bb / 8) = bb * 8 := by
    obtain ⟨k, rfl⟩ := hmul
    omega
  have hU := set_bits_union_card_le a b (bb * 8)
  have hI : (set_bits a (bb * 8) ∩ set_bits b (bb * 8)).card
      ≤ (set_bits a (bb * 8) ∪ set_bits b (bb * 8)).card :=
    Finset.card_le_card (fun _ hx =>
      Finset.mem_union_left _ (Finset.mem_inter.1 hx).1)
  simp only [jaccard_simularity, jaccard_counters, sum_popcountll_lor, sum_popcountll_land, hN]
  rw [Nat.mod_eq_of_lt (by omega), Nat.mod_eq_of_lt (by omega)]
  by_cases h0 : (set_bits a (bb * 8) ∩ set_bits b (bb * 8)).card = 0
  · rw [if_pos (Or.inr h0), if_pos h0]
  · rw [if_neg (by omega), if_neg h0]

/-- The single-precision quotient of the two counters is in `(0, 1]` when the
intersection is not empty. -/
theorem jaccard_quotient_bounds (I U : Nat) (hI : 0 < I) (hIU : I ≤ U) :
    0 < to_float (to_float (I : ℚ) / to_float (U : ℚ))
      ∧ to_float (to_float (I : ℚ) / to_float (U : ℚ)) ≤ 1 :=
  float_quotient_bounds (I : ℚ) (U : ℚ) (by exact_mod_cast hI) (by exact_mod_cast hIU)

theorem set_bits_inter_card_le_union (a b : List Nat) (N : Nat) :
    (set_bits a N ∩ set_bits b N).card ≤ (set_bits a N ∪ set_bits b N).card :=
  Finset.card_le_card (fun _ hx => Finset.mem_union_left _ (Finset.mem_inter.1 hx).1)

theorem jaccard_simularity_comm (bb : Nat) (a b : List Nat) :
    jaccard_simularity bb a b = jaccard_simularity bb b a := by
  simp only [jaccard_simularity, Nat.lor_comm, Nat.land_comm]

/-! ## Bytes and words -/

theorem testBit_byte_of_word (b0 b1 b2 b3 b4 b5 b6 b7 k r : Nat)
    (h0 : b0 < 256) (h1 : b1 < 256) (h2 : b2 < 256) (h3 : b3 < 256) (h4 : b4 < 256)
    (h5 : b5 < 256) (h6 : b6 < 256) (h7 : b7 < 256) (hk : k < 8) (hr : r < 8) :
    (b0 + b1 * 2 ^ 8 + b2 * 2 ^ 16 + b3 * 2 ^ 24 + b4 * 2 ^ 32 + b5 * 2 ^ 40 + b6 * 2 ^ 48
        + b7 * 2 ^ 56).testBit (8 * k + r)
      = ([b0, b1, b2, b3, b4, b5, b6, b7].getD k 0).testBit r := by
  have key : ∀ w b : Nat, (w >>> (8 * k)) % 2 ^ 8 = b → w.testBit (8 * k + r) = b.testBit r := by
    intro w b hb
    rw [← hb, Nat.testBit_mod_two_pow, Nat.testBit_shiftRight]
    simp [hr]
  apply key
  rw [Nat.shiftRight_eq_div_pow]
  interval_cases k <;> simp only [List.getD_cons_zero, List.getD_cons_succ] <;> omega

theorem getD_lt_of_all_lt (bytes : List Nat) (hbytes : ∀ x ∈ bytes, x < 256) (i : Nat) :
    bytes.getD i 0 < 256 := by
  rw [List.getD_eq_getElem?_getD]
  by_cases hi : i < bytes.length
  · rw [List.getElem?_eq_getElem hi, Option.getD_some]
    exact hbytes _ (List.getElem_mem hi)
  · rw [List.getElem?_eq_none (by omega)]
    simp

/-- Bit `j` of word `n` is bit `j mod 8` of byte `8 n + j div 8`. -/
theorem testBit_word_of_bytes (bytes : List Nat) (hbytes : ∀ x ∈ bytes, x < 256)
    (n j : Nat) (hj : j < 64) :
    (word_of_bytes bytes n).testBit j = (bytes.getD (8 * n + j / 8) 0).testBit (j % 8) := by
  have hk : j / 8 < 8 := by omega
  have hr : j % 8 < 8 := by omega
  have hjj : j = 8 * (j / 8) + j % 8 := by omega
  have hb := getD_lt_of_all_lt bytes hbytes
  have h := testBit_byte_of_word (bytes.getD (8 * n) 0) (bytes.getD (8 * n + 1) 0)
    (bytes.getD (8 * n + 2) 0) (bytes.getD (8 * n + 3) 0) (bytes.getD (8 * n + 4) 0)
    (bytes.getD (8 * n + 5) 0) (bytes.getD (8 * n + 6) 0) (bytes.getD (8 * n + 7) 0)
    (j / 8) (j % 8) (hb _) (hb _) (hb _) (hb _) (hb _) (hb _) (hb _) (hb _) hk hr
  rw [← hjj] at h
  rw [word_of_bytes, h]
  generalize j / 8 = k at hk
  interval_cases k <;> rfl

theorem getD_to_words (bytes : List Nat) (n : Nat) (hn : n < bytes.length / 8) :
    (to_words bytes).getD n 0 = word_of_bytes bytes n := by
  simp [to_words, List.getD_eq_getElem?_getD, List.getElem?_map, List.getElem?_range hn]

/-- The set bits of a fingerprint are the same whether it is read byte by
byte or word by word. -/
theorem mem_set_bits_to_words (fp : List Nat) (bb : Nat) (hlen : fp.length = bb)
    (hmul : 8 ∣ bb) (hbytes : ∀ x ∈ fp, x < 256) (i : Nat) :
    i ∈ set_bits (to_words fp) (bb * 8) ↔ i < bb * 8 ∧ fp_bit fp i = true := by
  rw [set_bits, Finset.mem_filter, Finset.mem_range]
  constructor
  · rintro ⟨hi, hbit⟩
    refine ⟨hi, ?_⟩
    have hn : i / 64 < fp.length / 8 := by
      obtain ⟨k, rfl⟩ := hmul
      omega
    rw [getD_to_words fp _ hn, testBit_word_of_bytes fp hbytes _ _ (by omega)] at hbit
    have e1 : 8 * (i / 64) + i % 64 / 8 = i / 8 := by omega
    have e2 : i % 64 % 8 = i % 8 := by omega
    rw [e1, e2] at hbit
    exact hbit
  · rintro ⟨hi, hbit⟩
    refine ⟨hi, ?_⟩
    have hn : i / 64 < fp.length / 8 := by
      obtain ⟨k, rfl⟩ := hmul
      omega
    rw [getD_to_words fp _ hn, testBit_word_of_bytes fp hbytes _ _ (by omega)]
    have e1 : 8 * (i / 64) + i % 64 / 8 = i / 8 := by omega
    have e2 : i % 64 % 8 = i % 8 := by omega
    rw [e1, e2]
    exact hbit

/-! ## Fingerprints returned by `hash` -/

theorem set_bucket_lt (fp : List Nat) (b : Nat) (hbytes : ∀ x ∈ fp, x < 256) :
    ∀ x ∈ set_bucket fp b, x < 256 := by
  intro x hx
  rcases List.mem_or_eq_of_mem_set hx with h | h
  · exact hbytes x h
  · rw [h]
    exact @Nat.or_lt_two_pow _ _ 8 (getD_lt_of_all_lt fp hbytes _) (Nat.mod_lt _ (by norm_num))

theorem foldl_set_bucket_invariants (bb : Nat) (file : List Byte) (l : List (Nat × Nat))
    (fp : List Nat) (hbytes : ∀ x ∈ fp, x < 256) :
    (l.foldl (fun fp c => set_bucket fp (chunk_bucket bb file c)) fp).length = fp.length
      ∧ ∀ x ∈ l.foldl (fun fp c => set_bucket fp (chunk_bucket bb file c)) fp, x < 256 := by
  induction l generalizing fp with
  | nil => exact ⟨rfl, hbytes⟩
  | cons c rest ih =>
    have h := ih (set_bucket fp (chunk_bucket bb file c)) (set_bucket_lt fp _ hbytes)
    rw [length_set_bucket] at h
    exact h

/-- What a status `0` of `hash` means. -/
theorem hash_status_zero (bb T : Nat) (B : List Byte) (fp0 fp : List Nat)
    (h : hash bb T B fp0 = some (0, fp)) :
    B.length ≠ 8 ∧ ∃ l, chunking T B = some l ∧ 10 ≤ l.length ∧
      l.length ≤ (bb * 4) % 2 ^ 32 ∧
      fp = l.foldl (fun fp c => set_bucket fp (chunk_bucket bb B c)) fp0 := by
  have h8 : B.length ≠ 8 := by
    intro h8
    rw [hash, if_pos h8] at h
    cases h
  refine ⟨h8, ?_⟩
  rcases hash_cases bb T B fp0 h8 with ⟨l, hl, hle, hres⟩ | ⟨_, fp1, hres⟩
  · rw [hres] at h
    by_cases h10 : l.length < 10
    · rw [if_pos h10] at h
      cases h
    · rw [if_neg h10] at h
      cases h
      exact ⟨l, hl, by omega, hle, rfl⟩
  · rw [hres] at h
    cases h

/-! ## Fingerprint memory -/

theorem length_read_bytes (mem : Nat → Nat) (off len : Nat) :
    (read_bytes mem off len).length = len := by
  simp [read_bytes]

theorem read_write_same (mem : Nat → Nat) (off len : Nat) (bytes : List Nat)
    (hlen : bytes.length = len) :
    read_bytes (write_bytes mem off len bytes) off len = bytes := by
  apply List.ext_getElem
  · rw [length_read_bytes, hlen]
  · intro k h1 h2
    simp only [read_bytes, write_bytes, List.getElem_map, List.getElem_range]
    rw [if_pos (by rw [length_read_bytes] at h1; omega), Nat.add_sub_cancel_left,
      List.getD_eq_getElem?_getD, List.getElem?_eq_getElem h2, Option.getD_some]

theorem read_write_disjoint (mem : Nat → Nat) (off len off1 len1 : Nat) (bytes : List Nat)
    (h : off1 + len1 ≤ off ∨ off + len ≤ off1) :
    read_bytes (write_bytes mem off len bytes) off1 len1 = read_bytes mem off1 len1 := by
  simp only [read_bytes]
  apply List.map_congr_left
  intro k hk
  have hk1 : k < len1 := List.mem_range.1 hk
  simp only [write_bytes]
  rw [if_neg (by omega)]

/-- The loop of `hash` keeps the length of the fingerprint and keeps its
bytes below 256. -/
theorem hash_loop_invariants (bb T : Nat) (file : List Byte) (fs : Nat) :
    ∀ (fuel pos bl k : Nat) (fp : List Nat) (r : Nat × List Nat),
      (∀ x ∈ fp, x < 256) → hash_loop bb T file fs fuel pos bl k fp = some r →
      r.2.length = fp.length ∧ ∀ x ∈ r.2, x < 256 := by
  intro fuel
  induction fuel with
  | zero =>
    intro pos bl k fp r _ h
    simp [hash_loop] at h
  | succ j ih =>
    intro pos bl k fp r hbytes h
    rw [hash_loop_succ] at h
    have hb := set_bucket_lt fp
      (chunk_bucket bb file (pos, get_chunk_len (file.drop pos) (bl % 2 ^ 32) T)) hbytes
    have hl := length_set_bucket fp
      (chunk_bucket bb file (pos, get_chunk_len (file.drop pos) (bl % 2 ^ 32) T))
    split_ifs at h with h1 h2 h3
    · cases h
      exact ⟨hl, hb⟩
    · have := ih _ _ _ _ r hb h
      rw [hl] at this
      exact this
    · cases h
      exact ⟨hl, hb⟩
    · cases h
      exact ⟨hl, hb⟩

theorem hash_invariants (bb T : Nat) (file : List Byte) (fp : List Nat) (r : Nat × List Nat)
    (hbytes : ∀ x ∈ fp, x < 256) (h : hash bb T file fp = some r) :
    r.2.length = fp.length ∧ ∀ x ∈ r.2, x < 256 := by
  rw [hash] at h
  split_ifs at h with h8
  · cases h
    exact ⟨rfl, hbytes⟩
  · exact hash_loop_invariants bb T file _ _ _ _ _ fp r hbytes h

theorem replicate_zero_lt (n : Nat) : ∀ x ∈ List.replicate n 0, x < 256 := by
  intro x hx
  rw [List.eq_of_mem_replicate hx]
  norm_num

/-- A fingerprint that `hash` returns with status `0` has a set bit. -/
theorem hash_success_set_bit (bb T : Nat) (B : List Byte) (fp : List Nat)
    (hbb0 : 0 < bb) (hbb : bb < 2 ^ 29)
    (h : hash bb T B (List.replicate bb 0) = some (0, fp)) :
    ∃ i, i < bb * 8 ∧ fp_bit fp i = true := by
  obtain ⟨_, l, hl, h10, _, rfl⟩ := hash_status_zero bb T B _ fp h
  cases l with
  | nil => simp at h10
  | cons c rest =>
    refine ⟨fnv1a (chunk_bytes B c) % (bb * 8), Nat.mod_lt _ (by omega), ?_⟩
    rw [fp_bit_fingerprint bb B (c :: rest) _ hbb0 hbb (chunking_bounds T B _ hl)]
    exact ⟨c, List.mem_cons_self _ _, rfl⟩

theorem jaccard_simularity_self (bb : Nat) (a : List Nat) (hmul : 8 ∣ bb) (hbb : bb < 2 ^ 29)
    (hbit : (set_bits a (bb * 8)).Nonempty) : jaccard_simularity bb a a = 1 := by
  have hcard : (set_bits a (bb * 8)).card ≠ 0 := by
    rw [Finset.card_ne_zero]
    exact hbit
  have hpos : (0 : ℚ) < ((set_bits a (bb * 8)).card : ℚ) := by
    exact_mod_cast Nat.pos_of_ne_zero hcard
  rw [jaccard_simularity_eq bb a a hmul hbb, Finset.inter_self, Finset.union_self,
    if_neg hcard, div_self (ne_of_gt (to_float_pos _ hpos)), to_float_one]

/-- Two copies of a fingerprint that `hash` returned with status `0` have
similarity `1`. -/
theorem jaccard_simularity_success (bb T : Nat) (B : List Byte) (fp : List Nat)
    (hbb0 : 0 < bb) (hbb : bb < 2 ^ 29) (hmul : 8 ∣ bb)
    (h : hash bb T B (List.replicate bb 0) = some (0, fp)) :
    jaccard_simularity bb (to_words fp) (to_words fp) = 1 := by
  obtain ⟨i, hi, hbit⟩ := hash_success_set_bit bb T B fp hbb0 hbb h
  have hinv := hash_invariants bb T B _ _ (replicate_zero_lt bb) h
  rw [List.length_replicate] at hinv
  apply jaccard_simularity_self bb _ hmul hbb
  exact ⟨i, (mem_set_bits_to_words fp bb hinv.1 hmul hinv.2 i).2 ⟨hi, hbit⟩⟩

theorem dofile_of_hash (bb T : Nat) (name : String) (file : List Byte) (st : Corpus)
    (r : Nat × List Nat) (h : hash bb T file (List.replicate bb 0) = some r) :
    dofile bb T name file st
      = some (if r.1 ≠ 0 then
          { bloomhashes := write_bytes st.bloomhashes ((st.num_files * bb) % 2 ^ 32) bb r.2,
            filenames := st.filenames,
            num_files := st.num_files,
            alloc_files := if st.alloc_files = st.num_files then st.alloc_files + 256
              else st.alloc_files }
        else
          { bloomhashes := write_bytes st.bloomhashes ((st.num_files * bb) % 2 ^ 32) bb r.2,
            filenames := st.filenames.take st.num_files ++ [name],
            num_files := st.num_files + 1,
            alloc_files := if st.alloc_files = st.num_files then st.alloc_files + 256
              else st.alloc_files }) := by
  simp only [dofile, h, Option.map_some']

/-- `dofile` always returns. -/
theorem dofile_isSome (bb T : Nat) (name : String) (file : List Byte) (st : Corpus) :
    ∃ st1, dofile bb T name file st = some st1 := by
  obtain ⟨s, fp, h⟩ := hash_isSome bb T file (List.replicate bb 0)
  exact ⟨_, dofile_of_hash bb T name file st (s, fp) h⟩

/-! ## The comparison loop -/

/-- The index pairs at which the body of the comparison loop runs, in
order. -/
theorem main_compare_pairs (bb : Nat) (M : ℚ) (st : Corpus) :
    (main_compare bb M st).map (fun c => (c.a, c.b))
      = (List.range st.num_files).flatMap (fun a => (List.range a).map (fun b => (a, b))) := by
  simp [main_compare, List.map_flatMap, Function.comp_def]

theorem length_index_pairs (n : Nat) :
    ((List.range n).flatMap (fun a => (List.range a).map (fun b => (a, b)))).length
      = n * (n - 1) / 2 := by
  induction n with
  | zero => rfl
  | succ k ih =>
    rw [List.range_succ, List.flatMap_append, List.length_append, ih, List.flatMap_singleton,
      List.length_map, List.length_range, Nat.triangle_succ]

theorem mem_index_pairs (n a b : Nat) :
    (a, b) ∈ (List.range n).flatMap (fun a => (List.range a).map (fun b => (a, b)))
      ↔ b < a ∧ a < n := by
  simp only [List.mem_flatMap, List.mem_map, List.mem_range, Prod.mk.injEq]
  constructor
  · rintro ⟨a1, ha1, b1, hb1, rfl, rfl⟩
    exact ⟨hb1, ha1⟩
  · rintro ⟨hb, ha⟩
    exact ⟨a, ha, b, hb, rfl, rfl⟩

theorem pairwise_index_pairs (n : Nat) :
    ((List.range n).flatMap (fun a => (List.range a).map (fun b => (a, b)))).Pairwise
      (fun p q => p.1 < q.1 ∨ (p.1 = q.1 ∧ p.2 < q.2)) := by
  rw [List.pairwise_flatMap]
  constructor
  · intro a _
    rw [List.pairwise_map]
    exact (List.pairwise_lt_range a).imp (fun h => Or.inr ⟨rfl, h⟩)
  · refine (List.pairwise_lt_range n).imp ?_
    intro a1 a2 h x hx y hy
    obtain ⟨b1, _, rfl⟩ := List.mem_map.1 hx
    obtain ⟨b2, _, rfl⟩ := List.mem_map.1 hy
    exact Or.inl h

theorem main_compare_entry (bb : Nat) (M : ℚ) (st : Corpus) (c : Comparison)
    (hc : c ∈ main_compare bb M st) :
    c.simularity = jaccard_simularity bb (slot_words bb st c.a) (slot_words bb st c.b)
      ∧ (c.printed = true ↔ M ≤ c.simularity) := by
  simp only [main_compare, List.mem_flatMap, List.mem_map] at hc
  obtain ⟨a, _, b, _, rfl⟩ := hc
  exact ⟨rfl, by simp⟩

/-! ## Building the corpus -/

/-- As long as the 32-bit slot offset `num_files*bloom_bytes` does not wrap,
`dofile` over a list of files stores exactly the files on which `hash`
returns `0`, in order, each with the fingerprint `hash` computes from an
all-zero vector, and leaves the fingerprints stored before untouched. -/
theorem dofiles_no_wrap (bb T : Nat) (files : List (String × List Byte)) :
    ∀ st : Corpus, (st.num_files + files.length) * bb ≤ 2 ^ 32 →
      st.filenames.length = st.num_files →
      ∃ st1, dofiles bb T files st = some st1 ∧
        st1.num_files = st.num_files + (successes bb T files).length ∧
        st1.filenames = st.filenames ++ (successes bb T files).map Prod.fst ∧
        (∀ j, j < st.num_files →
          read_bytes st1.bloomhashes (j * bb) bb = read_bytes st.bloomhashes (j * bb) bb) ∧
        (∀ j f, (successes bb T files)[j]? = some f →
          read_bytes st1.bloomhashes ((st.num_files + j) * bb) bb
            = file_fingerprint bb T f.2) := by
  induction files with
  | nil =>
    intro st _ _
    exact ⟨st, rfl, by simp [successes], by simp [successes], fun _ _ => rfl,
      by simp [successes]⟩
  | cons f rest ih =>
    intro st hroom hnames
    obtain ⟨s, fp, hh⟩ := hash_isSome bb T f.2 (List.replicate bb 0)
    have hlen : fp.length = bb := by
      have := (hash_invariants bb T f.2 _ _ (replicate_zero_lt bb) hh).1
      rw [List.length_replicate] at this
      exact this
    have hstat : file_status bb T f.2 = some s := by rw [file_status, hh]; rfl
    have hfp : file_fingerprint bb T f.2 = fp := by rw [file_fingerprint, hh]; rfl
    rw [List.length_cons] at hroom
    have hmul1 : (st.num_files + 1) * bb ≤ (st.num_files + (rest.length + 1)) * bb :=
      Nat.mul_le_mul_right bb (by omega)
    have hsucc : (st.num_files + 1) * bb = st.num_files * bb + bb := Nat.succ_mul _ _
    have hoff : (st.num_files * bb) % 2 ^ 32 = st.num_files * bb := by
      by_cases hb : bb = 0
      · subst hb
        simp
      · exact Nat.mod_eq_of_lt (by omega)
    have hbelow : ∀ j, j < st.num_files → j * bb + bb ≤ st.num_files * bb := by
      intro j hj
      have := Nat.mul_le_mul_right bb (Nat.succ_le_of_lt hj)
      rw [Nat.succ_mul] at this
      exact this
    have hd := dofile_of_hash bb T f.1 f.2 st (s, fp) hh
    rw [hoff] at hd
    by_cases hs : s = 0
    · -- the file is stored in slot `num_files`
      subst hs
      simp only [ne_eq, not_true_eq_false, if_false] at hd
      have hsuc : successes bb T (f :: rest) = f :: successes bb T rest := by
        simp [successes, hstat]
      obtain ⟨st1, h1, hn1, hf1, hold1, hnew1⟩ := ih
        { bloomhashes := write_bytes st.bloomhashes (st.num_files * bb) bb fp,
          filenames := st.filenames.take st.num_files ++ [f.1],
          num_files := st.num_files + 1,
          alloc_files := if st.alloc_files = st.num_files then st.alloc_files + 256
            else st.alloc_files }
        (by
          show (st.num_files + 1 + rest.length) * bb ≤ 2 ^ 32
          have e : st.num_files + 1 + rest.length = st.num_files + (rest.length + 1) := by
            omega
          rw [e]
          exact hroom)
        (by
          show (st.filenames.take st.num_files ++ [f.1]).length = st.num_files + 1
          simp [hnames])
      refine ⟨st1, ?_, ?_, ?_, ?_, ?_⟩
      · rw [dofiles, hd, Option.some_bind]
        exact h1
      · rw [hn1, hsuc, List.length_cons]
        show st.num_files + 1 + _ = _
        omega
      · rw [hf1, hsuc]
        show st.filenames.take st.num_files ++ [f.1] ++ _ = _
        rw [← hnames, List.take_length]
        simp
      · intro j hj
        rw [hold1 j (by show j < st.num_files + 1; omega)]
        exact read_write_disjoint _ _ _ _ _ _ (Or.inl (hbelow j hj))
      · intro j g hg
        rw [hsuc] at hg
        cases j with
        | zero =>
          simp only [List.getElem?_cons_zero, Option.some.injEq] at hg
          subst hg
          rw [Nat.add_zero, hold1 st.num_files (by show st.num_files < st.num_files + 1; omega),
            hfp]
          exact read_write_same _ _ _ _ hlen
        | succ i =>
          simp only [List.getElem?_cons_succ] at hg
          have := hnew1 i g hg
          have e : st.num_files + (i + 1) = st.num_files + 1 + i := by omega
          rw [e]
          exact this
    · -- the file is rejected
      rw [if_pos (by simpa using hs)] at hd
      dsimp only at hd
      have hsuc : successes bb T (f :: rest) = successes bb T rest := by
        simp [successes, hstat, hs]
      obtain ⟨st1, h1, hn1, hf1, hold1, hnew1⟩ := ih
        { bloomhashes := write_bytes st.bloomhashes (st.num_files * bb) bb fp,
          filenames := st.filenames,
          num_files := st.num_files,
          alloc_files := if st.alloc_files = st.num_files then st.alloc_files + 256
            else st.alloc_files }
        (by
          show (st.num_files + rest.length) * bb ≤ 2 ^ 32
          exact Nat.le_trans (Nat.mul_le_mul_right bb (by omega)) hroom)
        (by
          show st.filenames.length = st.num_files
          exact hnames)
      refine ⟨st1, ?_, ?_, ?_, ?_, ?_⟩
      · rw [dofiles, hd, Option.some_bind]
        exact h1
      · rw [hn1, hsuc]
      · rw [hf1, hsuc]
      · intro j hj
        rw [hold1 j hj]
        exact read_write_disjoint _ _ _ _ _ _ (Or.inl (hbelow j hj))
      · intro j g hg
        rw [hsuc] at hg
        exact hnew1 j g hg

set_option maxRecDepth 20000 in
/-- The ten chunks of `ramp160` at threshold `60`. -/
theorem chunking_ramp160 :
    chunking 60 ramp160 = some [(0, 19), (19, 10), (29, 26), (55, 33), (88, 11), (99, 13),
      (112, 13), (125, 8), (133, 8), (141, 19)] := by
  rfl

/-! ## Chunk sizes -/

/-- In a run that ends, a chunk that is not the last one is at least 8 bytes
long, and the run continues from its end. -/
theorem chunk_loop_nonlast (T : Nat) (file : List Byte) (fuel pos : Nat)
    (c c2 : Nat × Nat) (rest : List (Nat × Nat)) (hpos : pos ≤ file.length)
    (h : chunk_loop T file (fuel + 1) pos (file.length - pos) = some (c :: c2 :: rest)) :
    8 ≤ c.2 ∧ pos + c.2 ≤ file.length ∧ file.length - (pos + c.2) ≠ 0 ∧
      chunk_loop T file fuel (pos + c.2) (file.length - (pos + c.2)) = some (c2 :: rest) := by
  rw [chunk_loop_succ] at h
  have hle := get_chunk_len_le (file.drop pos) ((file.length - pos) % 2 ^ 32) T
  have hmod := Nat.mod_le (file.length - pos) (2 ^ 32)
  split_ifs at h with hc
  · rw [Option.map_eq_some'] at h
    obtain ⟨rest1, hrest1, heq⟩ := h
    rw [List.cons.injEq] at heq
    obtain ⟨hc1, hr1⟩ := heq
    subst hr1
    have hc2 : c.2 = get_chunk_len (file.drop pos) ((file.length - pos) % 2 ^ 32) T := by
      rw [← hc1]
    rw [← hc2] at hrest1 hc hle
    refine ⟨?_, by omega, hc, hrest1⟩
    rcases Nat.lt_or_ge c.2 ((file.length - pos) % 2 ^ 32) with hlt | hge
    · rw [hc2] at hlt ⊢
      exact (get_chunk_len_hit _ _ T hlt).1
    · exfalso
      have hstuck := chunk_loop_stuck T file fuel (pos + c.2) hc (by omega)
      rw [hstuck] at hrest1
      cases hrest1
  · cases h

/-- A run of `k` chunks over at least one byte covers at least
`8 (k - 1) + 1` bytes. -/
theorem chunk_loop_size (T : Nat) (file : List Byte) (fuel pos : Nat) (l : List (Nat × Nat))
    (hpos : pos < file.length)
    (h : chunk_loop T file fuel pos (file.length - pos) = some l) :
    8 * (l.length - 1) + 1 ≤ file.length - pos := by
  induction fuel generalizing pos l with
  | zero => simp [chunk_loop] at h
  | succ j ih =>
    match l, h with
    | [], h =>
      have := (chunk_loop_length T file _ pos _ [] h).1
      simp at this
    | [c], _ =>
      simp only [List.length_singleton]
      omega
    | c :: c2 :: rest, h =>
      obtain ⟨h8, hle, hne, hrest⟩ := chunk_loop_nonlast T file j pos c c2 rest
        (Nat.le_of_lt hpos) h
      have := ih (pos + c.2) (c2 :: rest) (by omega) hrest
      simp only [List.length_cons] at this ⊢
      omega

/-- In the chunking of a whole file every chunk but the last is at least 8
bytes long. -/
theorem chunk_loop_all_but_last (T : Nat) (file : List Byte) (fuel pos : Nat)
    (pre : List (Nat × Nat)) (c : Nat × Nat) (post : List (Nat × Nat))
    (hpos : pos ≤ file.length) (hpost : post ≠ [])
    (h : chunk_loop T file fuel pos (file.length - pos) = some (pre ++ c :: post)) :
    8 ≤ c.2 := by
  induction pre generalizing fuel pos with
  | nil =>
    cases fuel with
    | zero => simp [chunk_loop] at h
    | succ j =>
      cases post with
      | nil => exact absurd rfl hpost
      | cons c2 rest => exact (chunk_loop_nonlast T file j pos c c2 rest hpos h).1
  | cons p pre1 ih =>
    cases fuel with
    | zero => simp [chunk_loop] at h
    | succ j =>
      have hshape : ∃ c2 rest, pre1 ++ c :: post = c2 :: rest := by
        cases pre1 with
        | nil => exact ⟨c, post, rfl⟩
        | cons q pre2 => exact ⟨q, pre2 ++ c :: post, rfl⟩
      obtain ⟨c2, rest, hs⟩ := hshape
      rw [List.cons_append, hs] at h
      obtain ⟨_, hle, _, hrest⟩ := chunk_loop_nonlast T file j pos p c2 rest hpos h
      rw [← hs] at hrest
      exact ih j (pos + p.2) hle hrest

/-! ## Files of 4 GiB and more -/

theorem set_bucket_idem (fp : List Nat) (b : Nat) :
    set_bucket (set_bucket fp b) b = set_bucket fp b := by
  by_cases hi : b >>> 3 < fp.length
  · simp only [set_bucket]
    rw [List.getD_eq_getElem?_getD (l := fp.set _ _), List.getElem?_set_self hi,
      Option.getD_some, List.set_set, Nat.lor_assoc, Nat.or_self]
  · have hset : ∀ v, fp.set (b >>> 3) v = fp := fun v =>
      List.set_eq_of_length_le (by omega)
    simp only [set_bucket, hset]

/-- On a file whose length is a non-zero multiple of `2^32` the loop of
`hash` stays at position `0`, sets the same bucket in every iteration and
leaves with status `3` when the counter passes the limit. -/
theorem hash_loop_stuck (bb T : Nat) (file : List Byte) (hne : file.length ≠ 0)
    (hmod : file.length % 2 ^ 32 = 0) :
    ∀ (fuel k : Nat) (fp : List Nat), k ≤ (bb * 4) % 2 ^ 32 →
      (bb * 4) % 2 ^ 32 - k + 1 ≤ fuel →
      hash_loop bb T file file.length fuel 0 file.length k fp
        = some (3, set_bucket fp (chunk_bucket bb file (0, 0))) := by
  intro fuel
  induction fuel with
  | zero =>
    intro k fp _ hfuel
    omega
  | succ j ih =>
    intro k fp hk hfuel
    have hbb : (bb * 4) % 2 ^ 32 + 1 < 2 ^ 32 := limit_succ_lt bb
    rw [hash_loop_succ, hmod, get_chunk_len_small _ 0 T (by omega), Nat.add_zero,
      Nat.mod_eq_of_lt (by omega)]
    by_cases hlast : k + 1 > (bb * 4) % 2 ^ 32
    · rw [if_pos hlast]
    · rw [if_neg hlast, Nat.sub_zero, if_pos hne, ih (k + 1) _ (by omega) (by omega),
        set_bucket_idem]

/-! ## The iterations of the chunking loop -/

theorem chunk_steps_succ (T : Nat) (file : List Byte) (fuel pos bl : Nat) :
    chunk_steps T file (fuel + 1) pos bl
      = if file.length - (pos + get_chunk_len (file.drop pos) (bl % 2 ^ 32) T) ≠ 0 then
          (pos, get_chunk_len (file.drop pos) (bl % 2 ^ 32) T)
            :: chunk_steps T file fuel (pos + get_chunk_len (file.drop pos) (bl % 2 ^ 32) T)
              (file.length - (pos + get_chunk_len (file.drop pos) (bl % 2 ^ 32) T))
        else [(pos, get_chunk_len (file.drop pos) (bl % 2 ^ 32) T)] := by
  simp only [chunk_steps]

/-- When the loop ends within the bound, its iterations are the chunk
sequence. -/
theorem chunk_steps_of_chunk_loop (T : Nat) (file : List Byte) (fuel pos bl : Nat)
    (l : List (Nat × Nat)) (h : chunk_loop T file fuel pos bl = some l) :
    chunk_steps T file fuel pos bl = l := by
  induction fuel generalizing pos bl l with
  | zero => simp [chunk_loop] at h
  | succ k ih =>
    rw [chunk_loop_succ] at h
    rw [chunk_steps_succ]
    split_ifs at h with hc
    · obtain ⟨rest, hrest, rfl⟩ := Option.map_eq_some'.1 h
      rw [if_pos hc, ih _ _ rest hrest]
    · rw [if_neg hc]
      exact Option.some.inj h

/-- When `bytes_left` is a non-zero multiple of `2^32` every iteration is the
empty chunk at the same position. -/
theorem chunk_steps_stuck (T : Nat) (file : List Byte) (fuel pos : Nat)
    (hne : file.length - pos ≠ 0) (hmod : (file.length - pos) % 2 ^ 32 = 0) :
    chunk_steps T file fuel pos (file.length - pos) = List.replicate fuel (pos, 0) := by
  induction fuel with
  | zero => rfl
  | succ k ih =>
    rw [chunk_steps_succ, hmod, get_chunk_len_small _ 0 T (by omega), Nat.add_zero,
      if_pos hne, ih, List.replicate_succ]

/-! ## The match threshold -/

/-- Every threshold the option `-M` stores lies in `(0, 1]`. -/
theorem option_M_range (mt : Int) (M : ℚ) (h : option_M mt = some M) : 0 < M ∧ M ≤ 1 := by
  simp only [option_M] at h
  split_ifs at h with hc
  have h1 : (1 : ℤ) ≤ mt := by omega
  have h2 : mt ≤ 100 := by omega
  have hb := float_quotient_bounds (mt : ℚ) 100 (by exact_mod_cast h1) (by exact_mod_cast h2)
  rw [← Option.some.inj h]
  exact hb

theorem option_M_isSome (mt : Int) (h1 : 1 ≤ mt) (h2 : mt ≤ 100) :
    option_M mt = some (to_float ((mt : ℚ) / 100)) := by
  have hc : ¬ (mt < 1 ∨ mt > 100) := by omega
  obtain ⟨n, rfl⟩ : ∃ n : Nat, mt = n := ⟨mt.toNat, by omega⟩
  have e1 : to_float ((n : ℤ) : ℚ) = ((n : ℤ) : ℚ) := by
    have := to_float_natCast n (by omega) (by omega)
    exact_mod_cast this
  have e2 : to_float (100 : ℚ) = 100 := by
    have := to_float_natCast 100 (by norm_num) (by norm_num)
    exact_mod_cast this
  rw [option_M, if_neg hc, e1, e2]

/-- The threshold stored for `-M53` is the float `0x3f07ae14`, which is below
`53/100`. -/
theorem option_M_53 : option_M 53 = some (8891924 / 16777216) := by
  rw [option_M_isSome 53 (by norm_num) (by norm_num)]
  have h := to_float_eq ((53 : ℤ) / 100 : ℚ) (-1) 8891924 (by norm_num) (by norm_num)
    (by norm_num) (by norm_num) (by norm_num)
  rw [h]
  norm_num

/-- The default threshold is the float `0x3f666666`. -/
theorem default_match_thresh_eq : default_match_thresh = 15099494 / 16777216 := by
  have h := to_float_eq (9 / 10 : ℚ) (-1) 15099494 (by norm_num) (by norm_num)
    (by norm_num) (by norm_num) (by norm_num)
  rw [default_match_thresh, h]
  norm_num

/-- The single-precision quotient of the counters `90745` and `171217` is the
float `0x3f07ae14`, although the exact quotient is below `53/100`. -/
theorem float_quotient_53 :
    to_float (to_float (90745 : ℚ) / to_float (171217 : ℚ)) = 8891924 / 16777216 := by
  have e1 : to_float (90745 : ℚ) = 90745 := by
    have := to_float_natCast 90745 (by norm_num) (by norm_num)
    exact_mod_cast this
  have e2 : to_float (171217 : ℚ) = 171217 := by
    have := to_float_natCast 171217 (by norm_num) (by norm_num)
    exact_mod_cast this
  have h := to_float_eq (90745 / 171217 : ℚ) (-1) 8891924 (by norm_num) (by norm_num)
    (by norm_num) (by norm_num) (by norm_num)
  rw [e1, e2, h]
  norm_num

/-- The single-precision quotient of the counters `1` and `3`. -/
theorem float_quotient_third :
    to_float (to_float (1 : ℚ) / to_float (3 : ℚ)) = 11184811 / 33554432 := by
  have e2 : to_float (3 : ℚ) = 3 := by
    have := to_float_natCast 3 (by norm_num) (by norm_num)
    exact_mod_cast this
  have h := to_float_eq (1 / 3 : ℚ) (-2) 11184811 (by norm_num) (by norm_num)
    (by norm_num) (by norm_num) (by norm_num)
  rw [to_float_one, e2, h]
  norm_num

/-! ## A pair at the rounding boundary -/

theorem getD_read_bytes (mem : Nat → Nat) (off len k : Nat) (hk : k < len) :
    (read_bytes mem off len).getD k 0 = mem (off + k) := by
  simp [read_bytes, List.getD_eq_getElem?_getD, hk]

theorem testBit_255 (j : Nat) (hj : j < 8) : Nat.testBit 255 j = true := by
  interval_cases j <;> rfl

theorem testBit_one_byte (j : Nat) (hj : j < 8) : Nat.testBit 1 j = decide (j = 0) := by
  interval_cases j <;> rfl

/-- Slot 0 of `corpus53` has exactly its first `90745` bits set. -/
theorem set_bits_corpus53_zero :
    set_bits (slot_words 21408 corpus53 0) (21408 * 8) = Finset.range 90745 := by
  ext i
  have hbytes : ∀ x ∈ read_bytes corpus53.bloomhashes 0 21408, x < 256 := by
    intro x hx
    simp only [read_bytes, List.mem_map, List.mem_range] at hx
    obtain ⟨k, _, rfl⟩ := hx
    simp only [corpus53]
    split_ifs <;> norm_num
  rw [slot_words, Nat.zero_mul, Nat.zero_mod,
    mem_set_bits_to_words _ 21408 (length_read_bytes _ _ _) (by norm_num) hbytes i,
    Finset.mem_range]
  constructor
  · rintro ⟨hi, hbit⟩
    rw [fp_bit, getD_read_bytes _ _ _ _ (by omega)] at hbit
    simp only [corpus53] at hbit
    split_ifs at hbit with h1 h2 h3 h4 h5
    · omega
    · rw [testBit_one_byte _ (by omega)] at hbit
      have := of_decide_eq_true hbit
      omega
    · simp at hbit
    · omega
    · omega
    · simp at hbit
  · intro hi
    refine ⟨by omega, ?_⟩
    rw [fp_bit, getD_read_bytes _ _ _ _ (by omega)]
    simp only [corpus53]
    by_cases h1 : 0 + i / 8 < 11343
    · rw [if_pos h1]
      exact testBit_255 _ (by omega)
    · have h2 : 0 + i / 8 = 11343 := by omega
      rw [if_neg h1, if_pos h2, testBit_one_byte _ (by omega)]
      exact decide_eq_true (by omega)

/-- Slot 1 of `corpus53` has exactly its first `171217` bits set. -/
theorem set_bits_corpus53_one :
    set_bits (slot_words 21408 corpus53 1) (21408 * 8) = Finset.range 171217 := by
  ext i
  have hbytes : ∀ x ∈ read_bytes corpus53.bloomhashes 21408 21408, x < 256 := by
    intro x hx
    simp only [read_bytes, List.mem_map, List.mem_range] at hx
    obtain ⟨k, _, rfl⟩ := hx
    simp only [corpus53]
    split_ifs <;> norm_num
  have hoff : 1 * 21408 % 2 ^ 32 = 21408 := by norm_num
  rw [slot_words, hoff,
    mem_set_bits_to_words _ 21408 (length_read_bytes _ _ _) (by norm_num) hbytes i,
    Finset.mem_range]
  constructor
  · rintro ⟨hi, hbit⟩
    rw [fp_bit, getD_read_bytes _ _ _ _ (by omega)] at hbit
    simp only [corpus53] at hbit
    split_ifs at hbit with h1 h2 h3 h4 h5
    · omega
    · omega
    · omega
    · omega
    · rw [testBit_one_byte _ (by omega)] at hbit
      have := of_decide_eq_true hbit
      omega
    · simp at hbit
  · intro hi
    refine ⟨by omega, ?_⟩
    rw [fp_bit, getD_read_bytes _ _ _ _ (by omega)]
    simp only [corpus53]
    have n1 : ¬ 21408 + i / 8 < 11343 := by omega
    have n2 : ¬ 21408 + i / 8 = 11343 := by omega
    have n3 : ¬ 21408 + i / 8 < 21408 := by omega
    rw [if_neg n1, if_neg n2, if_neg n3]
    by_cases h1 : 21408 + i / 8 < 42810
    · rw [if_pos h1]
      exact testBit_255 _ (by omega)
    · have h2 : 21408 + i / 8 = 42810 := by omega
      rw [if_neg h1, if_pos h2, testBit_one_byte _ (by omega)]
      exact decide_eq_true (by omega)

/-- The score of the pair in `corpus53`: the counters are `90745` and
`171217`, and their single-precision quotient is the float `0x3f07ae14`. -/
theorem jaccard_simularity_corpus53 :
    jaccard_simularity 21408 (slot_words 21408 corpus53 1) (slot_words 21408 corpus53 0)
      = 8891924 / 16777216 := by
  have hsub : Finset.range 90745 ⊆ Finset.range 171217 :=
    Finset.range_subset.2 (by norm_num)
  rw [jaccard_simularity_eq _ _ _ (by norm_num) (by norm_num), set_bits_corpus53_zero,
    set_bits_corpus53_one, Finset.inter_eq_right.2 hsub, Finset.union_eq_left.2 hsub,
    Finset.card_range, Finset.card_range, if_neg (by norm_num)]
  exact_mod_cast float_quotient_53

/-- With `-B2676 -M53` the comparison loop prints the pair of `corpus53`: its
score and the threshold are the same float, although the exact quotient of
the counters, `90745/171217`, is below `53/100`. -/
theorem main_compare_corpus53 :
    option_M 53 = some (8891924 / 16777216)
      ∧ main_compare 21408 (8891924 / 16777216) corpus53
          = [{ a := 1, b := 0, simularity := 8891924 / 16777216, printed := true }]
      ∧ (90745 : ℚ) / 171217 < 53 / 100 := by
  refine ⟨option_M_53, ?_, by norm_num⟩
  have hn : corpus53.num_files = 2 := rfl
  simp [main_compare, hn, List.range_succ, jaccard_simularity_corpus53]

/-! ## Claims -/

/-- C1: `make_fnv_from_block` is exactly 64-bit FNV-1a.  For every byte
sequence `b` of length `blocksize` the result is the left fold over `b` of
`h ↦ ((h XOR byte) * 1099511628211) mod 2^64` from `14695981039346656037`;
the hash of the empty sequence is `0xcbf29ce484222325` and the hash of the
single byte `0x61` is `0xaf63dc4c8601ec8c`. -/
theorem C1_make_fnv_from_block_is_fnv1a (b : List Byte) (blocksize : Nat)
    (hlen : b.length = blocksize) :
    make_fnv_from_block b blocksize
        = b.foldl (fun h byte => ((h ^^^ byte.val) * 1099511628211) % 2 ^ 64)
            14695981039346656037
      ∧ make_fnv_from_block [] 0 = 0xcbf29ce484222325
      ∧ make_fnv_from_block [0x61] 1 = 0xaf63dc4c8601ec8c := by
  refine ⟨?_, by decide, by decide⟩
  have h := make_fnv_from_block_eq_fnv1a b blocksize (Nat.le_of_eq hlen.symm)
  rw [h, ← hlen, List.take_length]
  rfl

theorem C1_witness :
    ([0x66, 0x6f, 0x6f] : List Byte).length = 3 ∧
      (make_fnv_from_block [0x66, 0x6f, 0x6f] 3
          = ([0x66, 0x6f, 0x6f] : List Byte).foldl
              (fun h byte => ((h ^^^ byte.val) * 1099511628211) % 2 ^ 64)
              14695981039346656037
        ∧ make_fnv_from_block [] 0 = 0xcbf29ce484222325
        ∧ make_fnv_from_block [0x61] 1 = 0xaf63dc4c8601ec8c) :=
  ⟨rfl, C1_make_fnv_from_block_is_fnv1a [0x66, 0x6f, 0x6f] 3 rfl⟩

/-- C2: for a buffer `data` of length `max` and a threshold `T` in `1..63`,
`get_chunk_len data max T` is the smallest `n` with `8 ≤ n < max` whose
window `data[n-8 .. n)` has FNV-1a hash below `2^T`; it is `max` when there
is no such `n`; and a buffer of at most 8 bytes is returned whole. -/
theorem C2_get_chunk_len_first_boundary (data : List Byte) (max T : Nat)
    (hlen : data.length = max) (_hT1 : 1 ≤ T) (hT63 : T ≤ 63) :
    (∀ n, 8 ≤ n → n < max → fnv1a ((data.drop (n - 8)).take 8) < 2 ^ T →
        (∀ m, 8 ≤ m → m < n → ¬ fnv1a ((data.drop (m - 8)).take 8) < 2 ^ T) →
        get_chunk_len data max T = n)
      ∧ ((∀ n, 8 ≤ n → n < max → ¬ fnv1a ((data.drop (n - 8)).take 8) < 2 ^ T) →
        get_chunk_len data max T = max)
      ∧ (max ≤ 8 → get_chunk_len data max T = max) := by
  have hle := get_chunk_len_le data max T
  have hhit : get_chunk_len data max T < max →
      8 ≤ get_chunk_len data max T ∧
        fnv1a ((data.drop (get_chunk_len data max T - 8)).take 8) < 2 ^ T := by
    intro hlt
    obtain ⟨h8, hh⟩ := get_chunk_len_hit data max T hlt
    rw [limit_eq T hT63, window_eq_fnv1a data _ h8 (by omega)] at hh
    exact ⟨h8, hh⟩
  refine ⟨?_, ?_, get_chunk_len_small data max T⟩
  · intro n h8 hn hit hmin
    have hleast : get_chunk_len data max T ≤ n := by
      apply get_chunk_len_least data max T n h8 hn
      rw [limit_eq T hT63, window_eq_fnv1a data n h8 (by omega)]
      exact hit
    rcases Nat.lt_or_ge (get_chunk_len data max T) n with hlt | hge
    · obtain ⟨h8r, hr⟩ := hhit (by omega)
      exact absurd hr (hmin _ h8r hlt)
    · omega
  · intro hnone
    rcases Nat.lt_or_ge (get_chunk_len data max T) max with hlt | hge
    · obtain ⟨h8r, hr⟩ := hhit hlt
      exact absurd hr (hnone _ h8r hlt)
    · omega

/-- C3: for `max ≥ 1` remaining bytes and a threshold `T` in `1..63` the
chunk length returned by `get_chunk_len` lies in `[1, max]`. -/
theorem C3_get_chunk_len_range (data : List Byte) (max T : Nat)
    (hmax : 1 ≤ max) (_hT1 : 1 ≤ T) (_hT63 : T ≤ 63) :
    1 ≤ get_chunk_len data max T ∧ get_chunk_len data max T ≤ max :=
  ⟨get_chunk_len_pos data max T hmax, get_chunk_len_le data max T⟩

theorem C2_witness :
    ([11, 48, 85, 122, 159, 196, 233, 14, 51, 88, 125, 162] : List Byte).length = 12 ∧
      1 ≤ 63 ∧ 63 ≤ 63 ∧
      ((∀ n, 8 ≤ n → n < 12 →
          fnv1a ((([11, 48, 85, 122, 159, 196, 233, 14, 51, 88, 125, 162] : List Byte).drop
            (n - 8)).take 8) < 2 ^ 63 →
          (∀ m, 8 ≤ m → m < n →
            ¬ fnv1a ((([11, 48, 85, 122, 159, 196, 233, 14, 51, 88, 125, 162] : List Byte).drop
              (m - 8)).take 8) < 2 ^ 63) →
          get_chunk_len [11, 48, 85, 122, 159, 196, 233, 14, 51, 88, 125, 162] 12 63 = n)
        ∧ ((∀ n, 8 ≤ n → n < 12 →
            ¬ fnv1a ((([11, 48, 85, 122, 159, 196, 233, 14, 51, 88, 125, 162] : List Byte).drop
              (n - 8)).take 8) < 2 ^ 63) →
          get_chunk_len [11, 48, 85, 122, 159, 196, 233, 14, 51, 88, 125, 162] 12 63 = 12)
        ∧ (12 ≤ 8 →
          get_chunk_len [11, 48, 85, 122, 159, 196, 233, 14, 51, 88, 125, 162] 12 63 = 12)) :=
  ⟨rfl, by decide, by decide,
    C2_get_chunk_len_first_boundary [11, 48, 85, 122, 159, 196, 233, 14, 51, 88, 125, 162]
      12 63 rfl (by decide) (by decide)⟩

theorem C3_witness :
    1 ≤ 12 ∧ 1 ≤ 63 ∧ 63 ≤ 63 ∧
      (1 ≤ get_chunk_len [11, 48, 85, 122, 159, 196, 233, 14, 51, 88, 125, 162] 12 63 ∧
        get_chunk_len [11, 48, 85, 122, 159, 196, 233, 14, 51, 88, 125, 162] 12 63 ≤ 12) :=
  ⟨by decide, by decide, by decide,
    C3_get_chunk_len_range [11, 48, 85, 122, 159, 196, 233, 14, 51, 88, 125, 162] 12 63
      (by decide) (by decide) (by decide)⟩

/-- C4 as stated fails.  On the empty buffer the `do … while` loop runs once
and produces one chunk of length `0`, so not every chunk length is `≥ 1`; and
on a buffer of `2^32` bytes the narrowed `max` is `0`, so the loop never
reaches `bytes_left = 0` and there is no chunk sequence at all. -/
theorem C4_counterexample :
    ¬ (∃ l, chunking 52 ([] : List Byte) = some l ∧
        (l.map Prod.snd).sum = ([] : List Byte).length ∧
        ∀ c ∈ l, 1 ≤ c.2 ∧ c.2 ≤ ([] : List Byte).length - c.1)
      ∧ ¬ (∃ l, chunking 52 (List.replicate (2 ^ 32) (0 : Byte)) = some l) := by
  constructor
  · rintro ⟨l, hl, _, hall⟩
    rw [chunking_empty] at hl
    cases hl
    have := (hall (0, 0) (List.mem_singleton.2 rfl)).1
    omega
  · rintro ⟨l, hl⟩
    have hs := chunk_loop_stuck 52 (List.replicate (2 ^ 32) (0 : Byte))
      ((List.replicate (2 ^ 32) (0 : Byte)).length + 1) 0
      (by rw [List.length_replicate]; norm_num) (by rw [List.length_replicate]; norm_num)
    rw [chunking, ← Nat.sub_zero (List.replicate (2 ^ 32) (0 : Byte)).length] at hl
    rw [Nat.sub_zero] at hl hs
    rw [hs] at hl
    cases hl

/-- C4 (amended): for every byte buffer `B` shorter than `2^32` bytes and
every threshold `T` in `1..63` the chunking loop of `hash` ends and yields
chunks that tile `B` from position `0`: their lengths sum to `len(B)` and each
is at most the bytes remaining where it starts.  When `B` is non-empty every
chunk length is `≥ 1`; the empty buffer yields the single chunk `(0, 0)`. -/
theorem C4_chunking_partitions (B : List Byte) (T : Nat) (hlen : B.length < 2 ^ 32)
    (_hT1 : 1 ≤ T) (_hT63 : T ≤ 63) :
    ∃ l, chunking T B = some l ∧ contiguous 0 l B.length ∧
      (l.map Prod.snd).sum = B.length ∧
      (∀ c ∈ l, c.2 ≤ B.length - c.1) ∧
      (B ≠ [] → ∀ c ∈ l, 1 ≤ c.2) ∧
      (B = [] → l = [(0, 0)]) := by
  have key : ∀ l, chunking T B = some l → contiguous 0 l B.length ∧
      (l.map Prod.snd).sum = B.length ∧ (∀ c ∈ l, c.2 ≤ B.length - c.1) := by
    intro l hl
    have hc := chunk_loop_contiguous T B (B.length + 1) 0 l (Nat.zero_le _)
      (by rw [Nat.sub_zero]; exact hl)
    refine ⟨hc, ?_, ?_⟩
    · have := contiguous_sum l 0 _ hc
      omega
    · intro c hmem
      have := contiguous_mem l 0 _ hc c hmem
      omega
  rcases List.eq_nil_or_concat B with hB | ⟨B0, x, hB⟩
  · subst hB
    refine ⟨[(0, 0)], chunking_empty T, (key _ (chunking_empty T)).1,
      (key _ (chunking_empty T)).2.1, (key _ (chunking_empty T)).2.2, ?_, ?_⟩
    · intro h
      exact absurd rfl h
    · intro _
      rfl
  · have hpos : 0 < B.length := by
      rw [hB]
      simp
    obtain ⟨l, hl⟩ := chunk_loop_terminates T B (B.length + 1) 0 hpos (by omega) (by omega)
    have hl1 : chunking T B = some l := by
      rw [Nat.sub_zero] at hl
      exact hl
    refine ⟨l, hl1, (key l hl1).1, (key l hl1).2.1, (key l hl1).2.2, ?_, ?_⟩
    · intro _
      exact chunk_loop_chunk_pos T B (B.length + 1) 0 l hpos (by omega) hl
    · intro h
      rw [h] at hpos
      exact absurd hpos (by simp)

theorem C4_witness :
    ([11, 48, 85, 122, 159, 196, 233, 14, 51, 88, 125, 162] : List Byte).length < 2 ^ 32 ∧
      1 ≤ 63 ∧ 63 ≤ 63 ∧
      ∃ l, chunking 63 [11, 48, 85, 122, 159, 196, 233, 14, 51, 88, 125, 162] = some l ∧
        contiguous 0 l
          ([11, 48, 85, 122, 159, 196, 233, 14, 51, 88, 125, 162] : List Byte).length ∧
        (l.map Prod.snd).sum
          = ([11, 48, 85, 122, 159, 196, 233, 14, 51, 88, 125, 162] : List Byte).length ∧
        (∀ c ∈ l, c.2
          ≤ ([11, 48, 85, 122, 159, 196, 233, 14, 51, 88, 125, 162] : List Byte).length - c.1) ∧
        (([11, 48, 85, 122, 159, 196, 233, 14, 51, 88, 125, 162] : List Byte) ≠ [] →
          ∀ c ∈ l, 1 ≤ c.2) ∧
        (([11, 48, 85, 122, 159, 196, 233, 14, 51, 88, 125, 162] : List Byte) = [] →
          l = [(0, 0)]) :=
  ⟨by decide, by decide, by decide,
    C4_chunking_partitions [11, 48, 85, 122, 159, 196, 233, 14, 51, 88, 125, 162] 63
      (by decide) (by decide) (by decide)⟩

/-- C5 as stated fails when `P` and `B` are each shorter than `2^32` bytes
but `P ++ B` is not.  With `P` the `2^32 - 40` zero bytes, `B = ramp40`,
`T = 61` and `q = 19` every condition of the claim holds (both lengths are
below `2^32`, `15 ≤ q < len(B)`, the window ending at `q` hits, the windows
ending at `q-7 .. q-1` do not), and `q` is a chunk boundary of `B`; but
`P ++ B` has `2^32` bytes, the narrowed `max` is `0`, every iteration of the
loop is the empty chunk at position `0`, and the loop never ends: `P ++ B`
has no chunk boundary at `|P| + q`, nor anywhere else. -/
theorem C5_counterexample :
    (List.replicate (2 ^ 32 - 40) (0 : Byte)).length < 2 ^ 32 ∧ ramp40.length < 2 ^ 32 ∧
      1 ≤ 61 ∧ 61 ≤ 63 ∧ 15 ≤ 19 ∧ 19 < ramp40.length ∧
      fnv1a ((ramp40.drop (19 - 8)).take 8) < 2 ^ 61 ∧
      (∀ m, 19 - 7 ≤ m → m < 19 → ¬ fnv1a ((ramp40.drop (m - 8)).take 8) < 2 ^ 61) ∧
      chunking 61 ramp40 = some [(0, 19), (19, 10), (29, 11)] ∧
      chunking 61 (List.replicate (2 ^ 32 - 40) (0 : Byte) ++ ramp40) = none ∧
      (∀ n, chunk_steps 61 (List.replicate (2 ^ 32 - 40) (0 : Byte) ++ ramp40) n 0
          (List.replicate (2 ^ 32 - 40) (0 : Byte) ++ ramp40).length
        = List.replicate n (0, 0)) := by
  have hlen : (List.replicate (2 ^ 32 - 40) (0 : Byte) ++ ramp40).length = 2 ^ 32 := by
    rw [List.length_append, List.length_replicate]
    rfl
  have hquiet : ∀ m, 19 - 7 ≤ m → m < 19 →
      ¬ fnv1a ((ramp40.drop (m - 8)).take 8) < 2 ^ 61 := by
    intro m h1 h2
    have h3 : 12 ≤ m := h1
    interval_cases m <;> decide
  refine ⟨by rw [List.length_replicate]; norm_num, by decide, by decide, by decide, by decide,
    by decide, by decide, hquiet, by rfl, ?_, ?_⟩
  · have hs := chunk_loop_stuck 61 (List.replicate (2 ^ 32 - 40) (0 : Byte) ++ ramp40)
      ((List.replicate (2 ^ 32 - 40) (0 : Byte) ++ ramp40).length + 1) 0
      (by rw [hlen]; norm_num) (by rw [hlen]; norm_num)
    rw [Nat.sub_zero] at hs
    exact hs
  · intro n
    have hs := chunk_steps_stuck 61 (List.replicate (2 ^ 32 - 40) (0 : Byte) ++ ramp40) n 0
      (by rw [hlen]; norm_num) (by rw [hlen]; norm_num)
    rw [Nat.sub_zero] at hs
    exact hs

/-- C5 (amended): chunk boundaries are shift-resistant as long as the whole
file stays below `2^32` bytes.  Let `P` be a prefix and `B` a buffer with
`P ++ B` (hence also `P` and `B`) shorter than `2^32` bytes, `T` in `1..63`,
and `q` a position of `B` with `15 ≤ q < len(B)` whose window `B[q-8 .. q)`
has FNV-1a hash below `2^T` while none of the positions `q-7 .. q-1` has.
Then `q` is a chunk boundary of `B`, `|P| + q` is a chunk boundary of
`P ++ B`, and the chunks after that boundary are the same in both chunkings:
same lengths, starts shifted by `|P|`, hence the same bytes and the same
chunk hash. -/
theorem C5_shift_resistant (P B : List Byte) (T q : Nat)
    (_hP : P.length < 2 ^ 32) (_hB : B.length < 2 ^ 32) (hlen : (P ++ B).length < 2 ^ 32)
    (_hT1 : 1 ≤ T) (hT63 : T ≤ 63)
    (hq15 : 15 ≤ q) (hq : q < B.length)
    (hit : fnv1a ((B.drop (q - 8)).take 8) < 2 ^ T)
    (quiet : ∀ m, q - 7 ≤ m → m < q → ¬ fnv1a ((B.drop (m - 8)).take 8) < 2 ^ T) :
    ∃ pre pre1 post,
      chunking T B = some (pre ++ post) ∧ contiguous 0 pre q ∧
      chunking T (P ++ B) = some (pre1 ++ post.map (fun c => (P.length + c.1, c.2))) ∧
      contiguous 0 pre1 (P.length + q) ∧
      post ≠ [] ∧
      (∀ c ∈ post, chunk_bytes (P ++ B) (P.length + c.1, c.2) = chunk_bytes B c) ∧
      (∀ c ∈ post, make_fnv_from_block ((P ++ B).drop (P.length + c.1)) c.2
        = make_fnv_from_block (B.drop c.1) c.2) := by
  have hPB : (P ++ B).length = P.length + B.length := List.length_append P B
  have hdrop : ∀ k, (P ++ B).drop (P.length + k) = B.drop k := fun k => List.drop_append k
  -- the hypotheses, in the form the loop tests them
  have hitB : make_fnv_from_block (B.drop (q - 8)) 8 < (1 <<< T) % 2 ^ 64 := by
    rw [limit_eq T hT63, window_eq_fnv1a B q (by omega) (by omega)]
    exact hit
  have quietB : ∀ m, q - 7 ≤ m → m < q →
      ¬ make_fnv_from_block (B.drop (m - 8)) 8 < (1 <<< T) % 2 ^ 64 := by
    intro m h1 h2
    rw [limit_eq T hT63, window_eq_fnv1a B m (by omega) (by omega)]
    exact quiet m h1 h2
  have hitPB : make_fnv_from_block ((P ++ B).drop (P.length + q - 8)) 8
      < (1 <<< T) % 2 ^ 64 := by
    have e : P.length + q - 8 = P.length + (q - 8) := by omega
    rw [e, hdrop]
    exact hitB
  have quietPB : ∀ m, P.length + q - 7 ≤ m → m < P.length + q →
      ¬ make_fnv_from_block ((P ++ B).drop (m - 8)) 8 < (1 <<< T) % 2 ^ 64 := by
    intro m h1 h2
    have e : m - 8 = P.length + ((m - P.length) - 8) := by omega
    rw [e, hdrop]
    exact quietB (m - P.length) (by omega) (by omega)
  -- both chunkings end
  obtain ⟨l, hl⟩ := chunk_loop_terminates T B (B.length + 1) 0 (by omega) (by omega) (by omega)
  obtain ⟨l1, hl1⟩ := chunk_loop_terminates T (P ++ B) ((P ++ B).length + 1) 0
    (by omega) (by omega) (by omega)
  -- and both have the boundary
  obtain ⟨pre, post, hsplit, hpre, hpost⟩ := chunk_loop_capture T B q hq hitB quietB
    (B.length + 1) 0 l (by omega) (by omega) hl
  obtain ⟨pre1, post1, hsplit1, hpre1, hpost1⟩ := chunk_loop_capture T (P ++ B)
    (P.length + q) (by omega) hitPB quietPB ((P ++ B).length + 1) 0 l1 (by omega) (by omega) hl1
  -- the runs after the boundary agree
  have hbl : (P ++ B).length - (P.length + q) = B.length - q := by omega
  rw [hbl, chunk_loop_append_left,
    chunk_loop_fuel_mono T B (B.length + 1) ((P ++ B).length + 1) q _ post hpost (by omega)]
    at hpost1
  have hpost1e : post1 = post.map (fun c => (P.length + c.1, c.2)) := by
    simpa using hpost1.symm
  refine ⟨pre, pre1, post, ?_, hpre, ?_, hpre1, ?_, ?_, ?_⟩
  · rw [chunking, ← hsplit, ← hl, Nat.sub_zero]
  · rw [chunking, ← hpost1e, ← hsplit1, ← hl1, Nat.sub_zero]
  · intro hnil
    have := (chunk_loop_length T B _ q _ post hpost).1
    rw [hnil] at this
    simp at this
  · intro c _
    simp only [chunk_bytes, hdrop]
  · intro c _
    rw [hdrop]

theorem C5_witness :
    ([7, 7, 7] : List Byte).length < 2 ^ 32 ∧ ramp40.length < 2 ^ 32 ∧
      (([7, 7, 7] : List Byte) ++ ramp40).length < 2 ^ 32 ∧ 1 ≤ 61 ∧ 61 ≤ 63 ∧
      15 ≤ 19 ∧ 19 < ramp40.length ∧
      fnv1a ((ramp40.drop (19 - 8)).take 8) < 2 ^ 61 ∧
      (∀ m, 19 - 7 ≤ m → m < 19 → ¬ fnv1a ((ramp40.drop (m - 8)).take 8) < 2 ^ 61) ∧
      ∃ pre pre1 post,
        chunking 61 ramp40 = some (pre ++ post) ∧ contiguous 0 pre 19 ∧
        chunking 61 (([7, 7, 7] : List Byte) ++ ramp40)
          = some (pre1 ++ post.map (fun c => (([7, 7, 7] : List Byte).length + c.1, c.2))) ∧
        contiguous 0 pre1 (([7, 7, 7] : List Byte).length + 19) ∧
        post ≠ [] ∧
        (∀ c ∈ post,
          chunk_bytes (([7, 7, 7] : List Byte) ++ ramp40)
            (([7, 7, 7] : List Byte).length + c.1, c.2) = chunk_bytes ramp40 c) ∧
        (∀ c ∈ post,
          make_fnv_from_block
            ((([7, 7, 7] : List Byte) ++ ramp40).drop (([7, 7, 7] : List Byte).length + c.1)) c.2
            = make_fnv_from_block (ramp40.drop c.1) c.2) :=
  have hquiet : ∀ m, 19 - 7 ≤ m → m < 19 →
      ¬ fnv1a ((ramp40.drop (m - 8)).take 8) < 2 ^ 61 := by
    intro m h1 h2
    have h3 : 12 ≤ m := h1
    interval_cases m <;> decide
  ⟨by decide, by decide, by decide, by decide, by decide, by decide, by decide, by decide,
    hquiet,
    C5_shift_resistant [7, 7, 7] ramp40 61 19 (by decide) (by decide) (by decide) (by decide)
      (by decide) (by decide) (by decide) (by decide) hquiet⟩

/-- C6 as stated fails, in both parts.  On a 12-byte buffer the threshold `1`
gives the chunk length `12` and the threshold `63` gives `8`: the lower
threshold gives the longer chunk.  And the 120-byte buffer `stride120` has 11
chunks with threshold `62` but 14 chunks with threshold `63`. -/
theorem C6_counterexample :
    ¬ (get_chunk_len [11, 48, 85, 122, 159, 196, 233, 14, 51, 88, 125, 162] 12 1
        ≤ get_chunk_len [11, 48, 85, 122, 159, 196, 233, 14, 51, 88, 125, 162] 12 63)
      ∧ ¬ (∀ l1 l2, chunking 62 stride120 = some l1 → chunking 63 stride120 = some l2 →
        l2.length ≤ l1.length) := by
  constructor
  · decide
  · intro h
    have h1 : chunking 62 stride120 = some [(0, 8), (8, 12), (20, 10), (30, 11), (41, 12),
        (53, 19), (72, 9), (81, 8), (89, 15), (104, 8), (112, 8)] := by rfl
    have h2 : chunking 63 stride120 = some [(0, 8), (8, 9), (17, 8), (25, 12), (37, 10),
        (47, 8), (55, 9), (64, 8), (72, 9), (81, 8), (89, 9), (98, 9), (107, 8),
        (115, 5)] := by rfl
    have := h _ _ h1 h2
    simp at this

/-- C6 (amended): the chunking threshold works the other way round (the
source says "Lower number, bigger chunks").  For every buffer `data` of `max`
bytes and thresholds `T1 ≤ T2` in `1..63`,
`get_chunk_len data max T2 ≤ get_chunk_len data max T1`; and for every whole
buffer `B` shorter than `2^32` bytes both chunkings end and the one with the
lower threshold `T1` has at most as many chunks as the one with `T2`. -/
theorem C6_lower_threshold_bigger_chunks (data B : List Byte) (max T1 T2 : Nat)
    (_hT1 : 1 ≤ T1) (h12 : T1 ≤ T2) (hT2 : T2 ≤ 63) (hB : B.length < 2 ^ 32) :
    get_chunk_len data max T2 ≤ get_chunk_len data max T1 ∧
      ∃ l1 l2, chunking T1 B = some l1 ∧ chunking T2 B = some l2 ∧
        l1.length ≤ l2.length := by
  have hlim := limit_mono T1 T2 h12 hT2
  refine ⟨get_chunk_len_antitone data max T1 T2 hlim, ?_⟩
  obtain ⟨l1, hl1⟩ := chunking_terminates T1 B hB
  obtain ⟨l2, hl2⟩ := chunking_terminates T2 B hB
  refine ⟨l1, l2, hl1, hl2, ?_⟩
  exact chunk_loop_count_mono T1 T2 B hlim (B.length + 1) (B.length + 1) 0 0 l1 l2
    (Nat.le_refl 0) (Nat.zero_le _) (by omega) (by rw [Nat.sub_zero]; exact hl1)
    (by rw [Nat.sub_zero]; exact hl2)

theorem C6_witness :
    1 ≤ 62 ∧ 62 ≤ 63 ∧ 63 ≤ 63 ∧ stride120.length < 2 ^ 32 ∧
      (get_chunk_len ramp40 40 63 ≤ get_chunk_len ramp40 40 62 ∧
        ∃ l1 l2, chunking 62 stride120 = some l1 ∧ chunking 63 stride120 = some l2 ∧
          l1.length ≤ l2.length) :=
  ⟨by decide, by decide, by decide, by decide,
    C6_lower_threshold_bigger_chunks ramp40 stride120 40 62 63 (by decide) (by decide)
      (by decide) (by decide)⟩

/-- C7: for every byte buffer `B` and every configuration with `bloom_bytes` a
positive multiple of 8 below `2^29` (`bloom_bits = bloom_bytes*8`), starting
from an all-zero fingerprint, `hash` returns status `0` exactly when
`len(B) ≠ 8` and the number of chunks `c` of `B` satisfies
`10 ≤ c ≤ bloom_bits/2`; and on status `0` bit `i` of the fingerprint is set
if and only if `i = FNV-1a(chunk) mod bloom_bits` for some chunk of `B`. -/
theorem C7_hash_status_zero_and_bits (bb T : Nat) (B : List Byte)
    (hbb0 : 0 < bb) (hbb : bb < 2 ^ 29) (_hmul : 8 ∣ bb) :
    ((∃ fp, hash bb T B (List.replicate bb 0) = some (0, fp))
        ↔ (B.length ≠ 8 ∧ ∃ l, chunking T B = some l ∧ 10 ≤ l.length ∧
            l.length ≤ bb * 8 / 2))
      ∧ (∀ fp, hash bb T B (List.replicate bb 0) = some (0, fp) →
          ∃ l, chunking T B = some l ∧
            ∀ i, fp_bit fp i = true
              ↔ ∃ c ∈ l, i = fnv1a (chunk_bytes B c) % (bb * 8)) := by
  have hL : (bb * 4) % 2 ^ 32 = bb * 4 := Nat.mod_eq_of_lt (by omega)
  have hhalf : bb * 8 / 2 = bb * 4 := by omega
  have hzero : ∀ fp, hash bb T B (List.replicate bb 0) = some (0, fp) →
      B.length ≠ 8 ∧ ∃ l, chunking T B = some l ∧ 10 ≤ l.length ∧ l.length ≤ bb * 4 ∧
        fp = l.foldl (fun fp c => set_bucket fp (chunk_bucket bb B c))
          (List.replicate bb 0) := by
    intro fp hfp
    have h8 : B.length ≠ 8 := by
      intro h8
      rw [hash, if_pos h8] at hfp
      cases hfp
    refine ⟨h8, ?_⟩
    rcases hash_cases bb T B (List.replicate bb 0) h8 with
      ⟨l, hl, hle, hres⟩ | ⟨_, fp1, hres⟩
    · rw [hres] at hfp
      by_cases h10 : l.length < 10
      · rw [if_pos h10] at hfp
        cases hfp
      · rw [if_neg h10] at hfp
        cases hfp
        exact ⟨l, hl, by omega, by omega, rfl⟩
    · rw [hres] at hfp
      cases hfp
  refine ⟨⟨?_, ?_⟩, ?_⟩
  · rintro ⟨fp, hfp⟩
    obtain ⟨h8, l, hl, h10, hle, _⟩ := hzero fp hfp
    exact ⟨h8, l, hl, h10, by omega⟩
  · rintro ⟨h8, l, hl, h10, hle⟩
    rw [hash_of_chunking bb T B _ l h8 hl (by omega), if_neg (by omega)]
    exact ⟨_, rfl⟩
  · intro fp hfp
    obtain ⟨_, l, hl, _, _, rfl⟩ := hzero fp hfp
    refine ⟨l, hl, fun i => ?_⟩
    exact fp_bit_fingerprint bb B l i hbb0 hbb (chunking_bounds T B l hl)

theorem C7_witness :
    0 < 8 ∧ 8 < 2 ^ 29 ∧ 8 ∣ 8 ∧
      (((∃ fp, hash 8 63 stride120 (List.replicate 8 0) = some (0, fp))
          ↔ (stride120.length ≠ 8 ∧ ∃ l, chunking 63 stride120 = some l ∧ 10 ≤ l.length ∧
              l.length ≤ 8 * 8 / 2))
        ∧ (∀ fp, hash 8 63 stride120 (List.replicate 8 0) = some (0, fp) →
            ∃ l, chunking 63 stride120 = some l ∧
              ∀ i, fp_bit fp i = true
                ↔ ∃ c ∈ l, i = fnv1a (chunk_bytes stride120 c) % (8 * 8))) :=
  ⟨by decide, by decide, by decide,
    C7_hash_status_zero_and_bits 8 63 stride120 (by decide) (by decide) (by decide)⟩

/-- C8: on every input of exactly 8 bytes, whatever its content, the bucket
count and the chunking threshold, `hash` returns status `2` and leaves the
fingerprint as it was (no bit is set). -/
theorem C8_eight_bytes_status_two (bb T : Nat) (B : List Byte) (fp : List Nat)
    (h8 : B.length = 8) : hash bb T B fp = some (2, fp) := by
  rw [hash, if_pos h8]

theorem C8_witness :
    ([1, 2, 3, 4, 5, 6, 7, 8] : List Byte).length = 8 ∧
      hash 8192 52 [1, 2, 3, 4, 5, 6, 7, 8] (List.replicate 8192 0)
        = some (2, List.replicate 8192 0) :=
  ⟨rfl, C8_eight_bytes_status_two 8192 52 [1, 2, 3, 4, 5, 6, 7, 8] (List.replicate 8192 0) rfl⟩

/-- C9: for every input whose length is not 8, `hash` returns status `3` if
and only if the number of chunks of the input exceeds `bloom_bytes*4` (the
chunk sequence, if the chunking loop ends at all, is longer than that); it
then returns in iteration `bloom_bytes*4 + 1` of the loop exactly (after
`bloom_bytes*4` iterations it has not returned); and an input with exactly
`bloom_bytes*4` chunks does not get status `3`.  The configuration is any one
in which `bloom_bytes*8` is a non-zero 32-bit value (the modulo at
confero.c:212 is defined) and the 32-bit product `bloom_bytes*4` does not
wrap. -/
theorem C9_oversaturated_iff (bb T : Nat) (B : List Byte) (fp : List Nat)
    (h8 : B.length ≠ 8) (_hdef : (bb * 8) % 2 ^ 32 ≠ 0) (hbb : bb < 2 ^ 30) :
    ((∃ fp1, hash bb T B fp = some (3, fp1))
        ↔ (∀ l, chunking T B = some l → bb * 4 < l.length))
      ∧ ((∃ fp1, hash bb T B fp = some (3, fp1)) →
          hash_loop bb T B B.length (bb * 4) 0 B.length 0 fp = none ∧
          ∃ fp1, hash_loop bb T B B.length (bb * 4 + 1) 0 B.length 0 fp = some (3, fp1))
      ∧ (∀ l, chunking T B = some l → l.length = bb * 4 →
          ∀ fp1, hash bb T B fp ≠ some (3, fp1)) := by
  have hL : (bb * 4) % 2 ^ 32 = bb * 4 := Nat.mod_eq_of_lt (by omega)
  have hiff : (∃ fp1, hash bb T B fp = some (3, fp1))
      ↔ (∀ l, chunking T B = some l → bb * 4 < l.length) := by
    constructor
    · rintro ⟨fp1, hfp⟩
      rcases hash_cases bb T B fp h8 with ⟨l, _, _, hres⟩ | ⟨hmany, _⟩
      · rw [hres] at hfp
        split_ifs at hfp <;> cases hfp
      · rw [hL] at hmany
        exact hmany
    · intro hmany
      exact hash_oversaturated bb T B fp h8 (by rw [hL]; exact hmany)
  refine ⟨hiff, ?_, ?_⟩
  · intro h3
    have hmany := hiff.1 h3
    have hnone := (chunk_loop_none_iff T B (bb * 4)).2 hmany
    refine ⟨hash_loop_running bb T B (bb * 4) 0 B.length 0 fp (by omega) hnone, ?_⟩
    obtain ⟨fp1, hfp⟩ := h3
    rw [hash, if_neg h8, hL] at hfp
    exact ⟨fp1, hfp⟩
  · intro l hl hlen fp1 hfp
    have := hiff.1 ⟨fp1, hfp⟩ l hl
    omega

theorem C9_witness :
    stride120.length ≠ 8 ∧ (8 * 8) % 2 ^ 32 ≠ 0 ∧ 8 < 2 ^ 30 ∧
      (((∃ fp1, hash 8 63 stride120 (List.replicate 8 0) = some (3, fp1))
          ↔ (∀ l, chunking 63 stride120 = some l → 8 * 4 < l.length))
        ∧ ((∃ fp1, hash 8 63 stride120 (List.replicate 8 0) = some (3, fp1)) →
            hash_loop 8 63 stride120 stride120.length (8 * 4) 0 stride120.length 0
                (List.replicate 8 0) = none ∧
            ∃ fp1, hash_loop 8 63 stride120 stride120.length (8 * 4 + 1) 0 stride120.length 0
                (List.replicate 8 0) = some (3, fp1))
        ∧ (∀ l, chunking 63 stride120 = some l → l.length = 8 * 4 →
            ∀ fp1, hash 8 63 stride120 (List.replicate 8 0) ≠ some (3, fp1))) :=
  ⟨by decide, by decide, by decide,
    C9_oversaturated_iff 8 63 stride120 (List.replicate 8 0) (by decide) (by decide)
      (by decide)⟩

/-- C10 as stated fails on inputs of exactly 8 bytes: such an input chunks
into a single chunk (fewer than 10), yet `hash` returns status `2`, not the
undersized status `4`. -/
theorem C10_counterexample :
    ¬ ((∃ l, chunking 52 [1, 2, 3, 4, 5, 6, 7, 8] = some l ∧ l.length < 10) →
      ∃ fp, hash 8 52 [1, 2, 3, 4, 5, 6, 7, 8] (List.replicate 8 0) = some (4, fp)) := by
  intro h
  have hl : chunking 52 [1, 2, 3, 4, 5, 6, 7, 8] = some [(0, 8)] := by rfl
  obtain ⟨fp, hfp⟩ := h ⟨[(0, 8)], hl, by decide⟩
  have h2 : hash 8 52 [1, 2, 3, 4, 5, 6, 7, 8] (List.replicate 8 0)
      = some (2, List.replicate 8 0) := by rfl
  rw [h2] at hfp
  cases hfp

/-- C10 (amended): under a configuration with `bloom_bytes` a positive
multiple of 8 below `2^29`, for every input whose length is not 8 and whose
chunking produces fewer than 10 chunks, `hash` returns the undersized status
`4`. -/
theorem C10_undersized (bb T : Nat) (B : List Byte) (fp : List Nat) (l : List (Nat × Nat))
    (hbb0 : 0 < bb) (hbb : bb < 2 ^ 29) (hmul : 8 ∣ bb) (h8 : B.length ≠ 8)
    (hl : chunking T B = some l) (hlt : l.length < 10) :
    ∃ fp1, hash bb T B fp = some (4, fp1) := by
  have hL : (bb * 4) % 2 ^ 32 = bb * 4 := Nat.mod_eq_of_lt (by omega)
  have hge : 8 ≤ bb := Nat.le_of_dvd hbb0 hmul
  rw [hash_of_chunking bb T B fp l h8 hl (by omega), if_pos hlt]
  exact ⟨_, rfl⟩

theorem C10_witness :
    0 < 8 ∧ 8 < 2 ^ 29 ∧ 8 ∣ 8 ∧ ramp40.length ≠ 8 ∧
      chunking 63 ramp40 = some [(0, 9), (9, 8), (17, 12), (29, 10), (39, 1)] ∧
      [(0, 9), (9, 8), (17, 12), (29, 10), (39, 1)].length < 10 ∧
      ∃ fp1, hash 8 63 ramp40 (List.replicate 8 0) = some (4, fp1) :=
  ⟨by decide, by decide, by decide, by decide, by rfl, by decide,
    C10_undersized 8 63 ramp40 (List.replicate 8 0)
      [(0, 9), (9, 8), (17, 12), (29, 10), (39, 1)]
      (by decide) (by decide) (by decide) (by decide) (by rfl) (by decide)⟩

/-- C11 as stated fails in the value returned: the result is a `float`.  For
the one-word fingerprints `5` (bits 0 and 2) and `6` (bits 1 and 2) the sets
have one common element and three elements in all, and `jaccard_simularity`
returns `11184811/33554432`, the float next to one third, not
`|A ∩ B| / |A ∪ B| = 1/3`. -/
theorem C11_counterexample :
    8 ∣ 8 ∧ ([5] : List Nat).length = 8 / 8 ∧ ([6] : List Nat).length = 8 / 8 ∧
      (set_bits [5] (8 * 8) ∩ set_bits [6] (8 * 8)).card = 1 ∧
      (set_bits [5] (8 * 8) ∪ set_bits [6] (8 * 8)).card = 3 ∧
      jaccard_simularity 8 [5] [6] = 11184811 / 33554432 ∧
      jaccard_simularity 8 [5] [6]
        ≠ ((set_bits [5] (8 * 8) ∩ set_bits [6] (8 * 8)).card : ℚ)
          / ((set_bits [5] (8 * 8) ∪ set_bits [6] (8 * 8)).card : ℚ) := by
  have hI : (set_bits [5] (8 * 8) ∩ set_bits [6] (8 * 8)).card = 1 := by decide
  have hU : (set_bits [5] (8 * 8) ∪ set_bits [6] (8 * 8)).card = 3 := by decide
  have hc : (List.range (8 / 8)).foldl
      (fun (c : Nat × Nat) n =>
        ((c.1 + popcountll (([5] : List Nat).getD n 0 ||| ([6] : List Nat).getD n 0)) % 2 ^ 32,
         (c.2 + popcountll (([5] : List Nat).getD n 0 &&& ([6] : List Nat).getD n 0)) % 2 ^ 32))
      (0, 0) = (3, 1) := by decide
  have hv : jaccard_simularity 8 [5] [6] = 11184811 / 33554432 := by
    simp only [jaccard_simularity, hc]
    rw [if_neg (by norm_num)]
    exact_mod_cast float_quotient_third
  refine ⟨by decide, rfl, rfl, hI, hU, hv, ?_⟩
  rw [hv, hI, hU]
  norm_num

/-- C11 (amended): for two fingerprints `a` and `b` of `bloom_bytes` bytes
(`bloom_bytes` a multiple of 8, below `2^29` so that the bit counts fit the
32-bit counters), with `A` and `B` the sets of indices of their set bits,
`jaccard_simularity a b` is the sentinel `-1` exactly when `A` and `B` have no
common element; otherwise it is the single-precision quotient
`(float)|A ∩ B| / (float)|A ∪ B|`, a value in `(0, 1]`, which for
fingerprints of fewer than `2^24` bits is `|A ∩ B| / |A ∪ B|` rounded to the
nearest float; and it is never `0`. -/
theorem C11_jaccard_simularity_value (bb : Nat) (a b : List Nat)
    (hmul : 8 ∣ bb) (hbb : bb < 2 ^ 29) (_ha : a.length = bb / 8) (_hb : b.length = bb / 8) :
    (jaccard_simularity bb a b = -1 ↔ set_bits a (bb * 8) ∩ set_bits b (bb * 8) = ∅)
      ∧ (set_bits a (bb * 8) ∩ set_bits b (bb * 8) ≠ ∅ →
          jaccard_simularity bb a b
              = to_float
                  (to_float ((set_bits a (bb * 8) ∩ set_bits b (bb * 8)).card : ℚ)
                    / to_float ((set_bits a (bb * 8) ∪ set_bits b (bb * 8)).card : ℚ))
            ∧ 0 < jaccard_simularity bb a b ∧ jaccard_simularity bb a b ≤ 1)
      ∧ (set_bits a (bb * 8) ∩ set_bits b (bb * 8) ≠ ∅ → bb * 8 < 2 ^ 24 →
          jaccard_simularity bb a b
              = to_float
                  (((set_bits a (bb * 8) ∩ set_bits b (bb * 8)).card : ℚ)
                    / ((set_bits a (bb * 8) ∪ set_bits b (bb * 8)).card : ℚ)))
      ∧ jaccard_simularity bb a b ≠ 0 := by
  have heq := jaccard_simularity_eq bb a b hmul hbb
  have hIU := set_bits_inter_card_le_union a b (bb * 8)
  have hUN := set_bits_union_card_le a b (bb * 8)
  by_cases h0 : (set_bits a (bb * 8) ∩ set_bits b (bb * 8)).card = 0
  · rw [if_pos h0] at heq
    have hempty := Finset.card_eq_zero.1 h0
    refine ⟨⟨fun _ => hempty, fun _ => heq⟩, fun hne => absurd hempty hne,
      fun hne => absurd hempty hne, ?_⟩
    rw [heq]
    norm_num
  · rw [if_neg h0] at heq
    have hpos := jaccard_quotient_bounds _ _ (Nat.pos_of_ne_zero h0) hIU
    have hne : set_bits a (bb * 8) ∩ set_bits b (bb * 8) ≠ ∅ := fun h =>
      h0 (Finset.card_eq_zero.2 h)
    rw [← heq] at hpos
    refine ⟨⟨fun h => ?_, fun h => absurd h hne⟩, fun _ => ⟨heq, hpos.1, hpos.2⟩, ?_, ?_⟩
    · rw [h] at hpos
      exact absurd hpos.1 (by norm_num)
    · intro _ hsmall
      rw [heq, to_float_natCast _ (Nat.pos_of_ne_zero h0) (by omega),
        to_float_natCast _ (by omega) (by omega)]
    · exact ne_of_gt hpos.1

theorem C11_witness :
    8 ∣ 8 ∧ 8 < 2 ^ 29 ∧ [5].length = 8 / 8 ∧ [6].length = 8 / 8 ∧
      ((jaccard_simularity 8 [5] [6] = -1 ↔ set_bits [5] (8 * 8) ∩ set_bits [6] (8 * 8) = ∅)
        ∧ (set_bits [5] (8 * 8) ∩ set_bits [6] (8 * 8) ≠ ∅ →
            jaccard_simularity 8 [5] [6]
                = to_float
                    (to_float ((set_bits [5] (8 * 8) ∩ set_bits [6] (8 * 8)).card : ℚ)
                      / to_float ((set_bits [5] (8 * 8) ∪ set_bits [6] (8 * 8)).card : ℚ))
              ∧ 0 < jaccard_simularity 8 [5] [6] ∧ jaccard_simularity 8 [5] [6] ≤ 1)
        ∧ (set_bits [5] (8 * 8) ∩ set_bits [6] (8 * 8) ≠ ∅ → 8 * 8 < 2 ^ 24 →
            jaccard_simularity 8 [5] [6]
                = to_float
                    (((set_bits [5] (8 * 8) ∩ set_bits [6] (8 * 8)).card : ℚ)
                      / ((set_bits [5] (8 * 8) ∪ set_bits [6] (8 * 8)).card : ℚ)))
        ∧ jaccard_simularity 8 [5] [6] ≠ 0) :=
  ⟨by decide, by decide, by decide, by decide,
    C11_jaccard_simularity_value 8 [5] [6] (by decide) (by decide) (by decide) (by decide)⟩

/-- C12: `jaccard_simularity` is symmetric: for all fingerprints `a` and `b`
of the same length, `jaccard_simularity a b = jaccard_simularity b a`, the
sentinel `-1` included. -/
theorem C12_jaccard_simularity_symmetric (bb : Nat) (a b : List Nat)
    (_hlen : a.length = b.length) :
    jaccard_simularity bb a b = jaccard_simularity bb b a :=
  jaccard_simularity_comm bb a b

theorem C12_witness :
    [5].length = [6].length ∧ jaccard_simularity 8 [5] [6] = jaccard_simularity 8 [6] [5] :=
  ⟨rfl, C12_jaccard_simularity_symmetric 8 [5] [6] rfl⟩

/-- C13: `jaccard_simularity` is reflexive-maximal: for every fingerprint `a`
(of `bloom_bytes` bytes, `bloom_bytes` a multiple of 8 below `2^29`) with at
least one set bit, `jaccard_simularity a a = 1` exactly. -/
theorem C13_jaccard_simularity_reflexive (bb : Nat) (a : List Nat)
    (hmul : 8 ∣ bb) (hbb : bb < 2 ^ 29) (hbit : (set_bits a (bb * 8)).Nonempty) :
    jaccard_simularity bb a a = 1 := by
  have hcard : (set_bits a (bb * 8)).card ≠ 0 := by
    rw [Finset.card_ne_zero]
    exact hbit
  have hpos : (0 : ℚ) < ((set_bits a (bb * 8)).card : ℚ) := by
    exact_mod_cast Nat.pos_of_ne_zero hcard
  rw [jaccard_simularity_eq bb a a hmul hbb, Finset.inter_self, Finset.union_self,
    if_neg hcard, div_self (ne_of_gt (to_float_pos _ hpos)), to_float_one]

theorem C13_witness :
    8 ∣ 8 ∧ 8 < 2 ^ 29 ∧ (set_bits [5] (8 * 8)).Nonempty ∧ jaccard_simularity 8 [5] [5] = 1 :=
  have hbit : (set_bits [5] (8 * 8)).Nonempty := ⟨0, by decide⟩
  ⟨by decide, by decide, hbit,
    C13_jaccard_simularity_reflexive 8 [5] (by decide) (by decide) hbit⟩

/-- C14: end to end.  Under a fixed configuration (`bloom_bytes` a positive
multiple of 8 below `2^29`) let `hash` succeed on the byte buffer `B` with
fingerprint `fp` (status `0`, hence at least 10 chunks).  Then `fp` has at
least one set bit, `jaccard_simularity` of two copies of `fp` is exactly `1`,
and for two files with content `B` the corpus holds `fp` in both slots and
the comparison loop prints the pair `(1, 0)` with score `1`, for every match
threshold `M` in `(0, 1]`. -/
theorem C14_identical_files_match (bb T : Nat) (B : List Byte) (name1 name2 : String)
    (M : ℚ) (fp : List Nat) (hbb0 : 0 < bb) (hbb : bb < 2 ^ 29) (hmul : 8 ∣ bb)
    (_hM0 : 0 < M) (hM1 : M ≤ 1)
    (h : hash bb T B (List.replicate bb 0) = some (0, fp)) :
    (∃ i, i < bb * 8 ∧ fp_bit fp i = true)
      ∧ jaccard_simularity bb (to_words fp) (to_words fp) = 1
      ∧ ∃ st, dofiles bb T [(name1, B), (name2, B)] Corpus.empty = some st ∧
          st.num_files = 2 ∧
          read_bytes st.bloomhashes 0 bb = fp ∧ read_bytes st.bloomhashes bb bb = fp ∧
          main_compare bb M st = [{ a := 1, b := 0, simularity := 1, printed := true }] := by
  have hsim := jaccard_simularity_success bb T B fp hbb0 hbb hmul h
  have hlen : fp.length = bb := by
    have := (hash_invariants bb T B _ _ (replicate_zero_lt bb) h).1
    rw [List.length_replicate] at this
    exact this
  refine ⟨hash_success_set_bit bb T B fp hbb0 hbb h, hsim, ?_⟩
  have hoff : bb % 4294967296 = bb := Nat.mod_eq_of_lt (by omega)
  have hslot1 : read_bytes (write_bytes (write_bytes Corpus.empty.bloomhashes 0 bb fp) bb bb fp)
      bb bb = fp := read_write_same _ bb bb fp hlen
  have hslot0 : read_bytes (write_bytes (write_bytes Corpus.empty.bloomhashes 0 bb fp) bb bb fp)
      0 bb = fp := by
    rw [read_write_disjoint _ bb bb 0 bb fp (Or.inl (by omega))]
    exact read_write_same _ 0 bb fp hlen
  refine ⟨{ bloomhashes := write_bytes (write_bytes Corpus.empty.bloomhashes 0 bb fp) bb bb fp,
             filenames := [name1, name2], num_files := 2, alloc_files := 256 },
    ?_, rfl, hslot0, hslot1, ?_⟩
  · simp [dofiles, dofile_of_hash bb T _ B _ (0, fp) h, Corpus.empty, hoff]
  · simp [main_compare, slot_words, List.range_succ, hoff, hslot0, hslot1, hsim, hM1]

theorem C14_witness :
    0 < 8 ∧ 8 < 2 ^ 29 ∧ 8 ∣ 8 ∧ (0 : ℚ) < 1 / 2 ∧ (1 / 2 : ℚ) ≤ 1 ∧
      hash 8 63 stride120 (List.replicate 8 0) = some (0, [162, 32, 65, 0, 2, 38, 0, 0]) ∧
      ((∃ i, i < 8 * 8 ∧ fp_bit [162, 32, 65, 0, 2, 38, 0, 0] i = true)
        ∧ jaccard_simularity 8 (to_words [162, 32, 65, 0, 2, 38, 0, 0])
            (to_words [162, 32, 65, 0, 2, 38, 0, 0]) = 1
        ∧ ∃ st, dofiles 8 63 [("one", stride120), ("two", stride120)] Corpus.empty = some st ∧
            st.num_files = 2 ∧
            read_bytes st.bloomhashes 0 8 = [162, 32, 65, 0, 2, 38, 0, 0] ∧
            read_bytes st.bloomhashes 8 8 = [162, 32, 65, 0, 2, 38, 0, 0] ∧
            main_compare 8 (1 / 2) st
              = [{ a := 1, b := 0, simularity := 1, printed := true }]) :=
  ⟨by decide, by decide, by decide, by norm_num, by norm_num, by rfl,
    C14_identical_files_match 8 63 stride120 "one" "two" (1 / 2) [162, 32, 65, 0, 2, 38, 0, 0]
      (by decide) (by decide) (by decide) (by norm_num) (by norm_num) (by rfl)⟩

/-- C15: for every corpus of `n` fingerprints and every match threshold `M`
in `(0, 1]`, the comparison loop in `main` evaluates `jaccard_simularity` on
exactly the `n(n-1)/2` index pairs `(a, b)` with `0 ≤ b < a < n`, each once,
in increasing `a` and then increasing `b`; the printed matches are exactly
the sub-sequence of those pairs whose score is `≥ M`; and a pair whose score
is the sentinel `-1` is never printed.  `M` is the value of the global
`float match_thresh` the loop tests against, and the score is the `float`
that `jaccard_simularity` returned, so `≥` is the comparison of two floats
(`option_M_range`: every threshold the option `-M` stores lies in `(0, 1]`;
`main_compare_corpus53`: a pair whose score equals the threshold stored for
`-M53`). -/
theorem C15_comparison_loop (bb n : Nat) (M : ℚ) (st : Corpus)
    (hn : st.num_files = n) (hM0 : 0 < M) (_hM1 : M ≤ 1) :
    ((main_compare bb M st).map (fun c => (c.a, c.b))).length = n * (n - 1) / 2
      ∧ (∀ a b, (a, b) ∈ (main_compare bb M st).map (fun c => (c.a, c.b)) ↔ b < a ∧ a < n)
      ∧ ((main_compare bb M st).map (fun c => (c.a, c.b))).Nodup
      ∧ ((main_compare bb M st).map (fun c => (c.a, c.b))).Pairwise
          (fun p q => p.1 < q.1 ∨ (p.1 = q.1 ∧ p.2 < q.2))
      ∧ (∀ c ∈ main_compare bb M st,
          c.simularity = jaccard_simularity bb (slot_words bb st c.a) (slot_words bb st c.b))
      ∧ (main_compare bb M st).filter (fun c => c.printed)
          = (main_compare bb M st).filter (fun c => decide (M ≤ c.simularity))
      ∧ (∀ c ∈ main_compare bb M st, c.simularity = -1 → c.printed = false) := by
  rw [main_compare_pairs, hn]
  have hpw := pairwise_index_pairs n
  refine ⟨length_index_pairs n, mem_index_pairs n, ?_, hpw,
    fun c hc => (main_compare_entry bb M st c hc).1, ?_, ?_⟩
  · refine hpw.imp ?_
    intro p q h heq
    rw [heq] at h
    omega
  · apply List.filter_congr
    intro c hc
    have h := (main_compare_entry bb M st c hc).2
    by_cases hp : c.printed = true
    · rw [hp, decide_eq_true (h.1 hp)]
    · have hM : ¬ M ≤ c.simularity := fun hle => hp (h.2 hle)
      rw [Bool.not_eq_true] at hp
      rw [hp, decide_eq_false hM]
  · intro c hc hs
    have h := (main_compare_entry bb M st c hc).2
    by_contra hp
    rw [Bool.not_eq_false] at hp
    have := h.1 hp
    rw [hs] at this
    linarith

theorem C15_witness :
    corpus3.num_files = 3 ∧ (0 : ℚ) < 1 / 2 ∧ (1 / 2 : ℚ) ≤ 1 ∧
      (((main_compare 8 (1 / 2) corpus3).map (fun c => (c.a, c.b))).length = 3 * (3 - 1) / 2
        ∧ (∀ a b, (a, b) ∈ (main_compare 8 (1 / 2) corpus3).map (fun c => (c.a, c.b))
            ↔ b < a ∧ a < 3)
        ∧ ((main_compare 8 (1 / 2) corpus3).map (fun c => (c.a, c.b))).Nodup
        ∧ ((main_compare 8 (1 / 2) corpus3).map (fun c => (c.a, c.b))).Pairwise
            (fun p q => p.1 < q.1 ∨ (p.1 = q.1 ∧ p.2 < q.2))
        ∧ (∀ c ∈ main_compare 8 (1 / 2) corpus3,
            c.simularity = jaccard_simularity 8 (slot_words 8 corpus3 c.a)
              (slot_words 8 corpus3 c.b))
        ∧ (main_compare 8 (1 / 2) corpus3).filter (fun c => c.printed)
            = (main_compare 8 (1 / 2) corpus3).filter (fun c => decide (1 / 2 ≤ c.simularity))
        ∧ (∀ c ∈ main_compare 8 (1 / 2) corpus3, c.simularity = -1 → c.printed = false)) :=
  ⟨rfl, by norm_num, by norm_num,
    C15_comparison_loop 8 3 (1 / 2) corpus3 rfl (by norm_num) (by norm_num)⟩

/-- C16, the code at a failing input.  Default bucket count (`bloom_bytes =
8192`), threshold `60`: after `524288` copies of the 160-byte file `ramp160`
have been stored (each with status `0`), the corpus holds the fingerprint of
`ramp160` in slot `0`.  A further, empty file makes `hash` fail with status
`4`; its slot offset `524288 * 8192 = 2^32` wraps to `0` in 32-bit
arithmetic, so although `num_files` and the names are unchanged, slot `0` now
holds the bits of the failed file instead of the stored fingerprint. -/
theorem C16_failed_file_overwrites_slot_zero :
    ∃ st st1,
      dofiles 8192 60 (List.replicate 524288 ("copy", ramp160)) Corpus.empty = some st ∧
        st.num_files = 524288 ∧
        read_bytes st.bloomhashes 0 8192 = file_fingerprint 8192 60 ramp160 ∧
        file_status 8192 60 [] = some 4 ∧
        dofile 8192 60 "empty" [] st = some st1 ∧
        st1.num_files = 524288 ∧ st1.filenames = st.filenames ∧
        read_bytes st1.bloomhashes 0 8192 = file_fingerprint 8192 60 [] ∧
        fp_bit (read_bytes st.bloomhashes 0 8192) 55432 = true ∧
        fp_bit (read_bytes st1.bloomhashes 0 8192) 55432 = false := by
  -- the stored file
  have hchunks : chunking 60 ramp160 = some [(0, 19), (19, 10), (29, 26), (55, 33), (88, 11),
      (99, 13), (112, 13), (125, 8), (133, 8), (141, 19)] := chunking_ramp160
  have hF := hash_of_chunking 8192 60 ramp160 (List.replicate 8192 0) _
    (by simp [ramp160]) hchunks (by norm_num)
  rw [if_neg (by norm_num)] at hF
  have hstatF : file_status 8192 60 ramp160 = some 0 := by rw [file_status, hF]; rfl
  have hfpF : file_fingerprint 8192 60 ramp160
      = [(0, 19), (19, 10), (29, 26), (55, 33), (88, 11), (99, 13), (112, 13), (125, 8),
          (133, 8), (141, 19)].foldl
          (fun fp c => set_bucket fp (chunk_bucket 8192 ramp160 c)) (List.replicate 8192 0) := by
    rw [file_fingerprint, hF]
    rfl
  have hbitF : fp_bit (file_fingerprint 8192 60 ramp160) 55432 = true := by
    rw [hfpF, fp_bit_fingerprint 8192 ramp160 _ 55432 (by norm_num) (by norm_num)
      (chunking_bounds 60 ramp160 _ hchunks)]
    exact ⟨(0, 19), List.mem_cons_self _ _, by rfl⟩
  -- the failing file
  have hE := hash_of_chunking 8192 60 [] (List.replicate 8192 0) _ (by simp)
    (chunking_empty 60) (by norm_num)
  rw [if_pos (by norm_num)] at hE
  have hstatE : file_status 8192 60 [] = some 4 := by rw [file_status, hE]; rfl
  have hfpE : file_fingerprint 8192 60 []
      = [(0, 0)].foldl (fun fp c => set_bucket fp (chunk_bucket 8192 [] c))
          (List.replicate 8192 0) := by
    rw [file_fingerprint, hE]
    rfl
  have hbitE : fp_bit (file_fingerprint 8192 60 []) 55432 = false := by
    rw [← Bool.not_eq_true, hfpE, fp_bit_fingerprint 8192 [] _ 55432 (by norm_num) (by norm_num)
      (chunking_bounds 60 [] _ (chunking_empty 60))]
    rintro ⟨c, hc, hval⟩
    rw [List.mem_singleton] at hc
    subst hc
    revert hval
    decide
  have hlenE : (file_fingerprint 8192 60 []).length = 8192 := by
    rw [hfpE, (foldl_set_bucket_invariants 8192 [] _ _ (replicate_zero_lt 8192)).1,
      List.length_replicate]
  -- the corpus after the 524288 copies
  have hsuc : successes 8192 60 (List.replicate 524288 ("copy", ramp160))
      = List.replicate 524288 ("copy", ramp160) := by
    rw [successes, List.filter_eq_self]
    intro f hf
    rw [List.eq_of_mem_replicate hf]
    exact decide_eq_true hstatF
  obtain ⟨st, hst, hn, _, _, hnew⟩ := dofiles_no_wrap 8192 60
    (List.replicate 524288 ("copy", ramp160)) Corpus.empty
    (by rw [List.length_replicate]; norm_num [Corpus.empty]) rfl
  rw [hsuc, List.length_replicate] at hn
  have hn1 : st.num_files = 524288 := by
    rw [hn]
    exact Nat.zero_add 524288
  have hslot : read_bytes st.bloomhashes 0 8192 = file_fingerprint 8192 60 ramp160 := by
    have h0 := hnew 0 ("copy", ramp160)
      (by rw [hsuc, List.getElem?_replicate, if_pos (by norm_num)])
    have e : (Corpus.empty.num_files + 0) * 8192 = 0 := rfl
    rw [e] at h0
    exact h0
  -- the failing call
  have hd := dofile_of_hash 8192 60 "empty" [] st _ hE
  rw [if_pos (by norm_num), hn1, ← hfpE] at hd
  have hoff : (524288 * 8192) % 2 ^ 32 = 0 := by norm_num
  rw [hoff] at hd
  have hread := read_write_same st.bloomhashes 0 8192 (file_fingerprint 8192 60 []) hlenE
  refine ⟨st, _, hst, hn1, hslot, hstatE, hd, rfl, rfl, hread, ?_, ?_⟩
  · rw [hslot]
    exact hbitF
  · show fp_bit (read_bytes (write_bytes st.bloomhashes 0 8192 (file_fingerprint 8192 60 []))
      0 8192) 55432 = false
    rw [hread]
    exact hbitE

/-- C17 as stated fails: with bucket count `B = 1024` (the default, and what
`-B1024` sets) `bloom_bytes` is `8192`, so a fingerprint is `8192` bytes
long, not `1024`, and bucket indices are not reduced modulo `1024 × 8`: the
first chunk of `ramp160` gets bucket `55432`. -/
theorem C17_counterexample :
    option_B 1024 = some 8192 ∧ default_bloom_bytes = 8192 ∧
      ¬ ((file_fingerprint 8192 60 ramp160).length = 1024) ∧
      ¬ (chunk_bucket 8192 ramp160 (0, 19) < 1024 * 8) := by
  refine ⟨by decide, by decide, ?_, by decide⟩
  have hF := hash_of_chunking 8192 60 ramp160 (List.replicate 8192 0) _
    (by simp [ramp160]) chunking_ramp160 (by norm_num)
  have hlen := (hash_invariants 8192 60 ramp160 _ _ (replicate_zero_lt 8192) hF).1
  rw [List.length_replicate] at hlen
  rw [file_fingerprint, hF]
  simp only [Option.map_some', Option.getD_some]
  rw [hlen]
  norm_num

/-- C17 (amended): for a run configured with bucket count `B` (option `-B`,
`0 < B < 2^26`; default `1024`), `bloom_bytes` is `B × 8`: every fingerprint
is `B × 8` bytes long, i.e. its bit length is `B × 64`, bucket indices are
reduced modulo `B × 64`, and the oversaturation limit is `B × 32` chunks. -/
theorem C17_bucket_count (B T : Nat) (file : List Byte) (r : Nat × List Nat)
    (hB0 : 0 < B) (hB : B < 2 ^ 26)
    (h : hash (B * 8) T file (List.replicate (B * 8) 0) = some r) :
    option_B (B : Int) = some (B * 8) ∧ option_B 1024 = some default_bloom_bytes
      ∧ r.2.length = B * 8
      ∧ (∀ c : Nat × Nat, c.1 + c.2 ≤ file.length →
          chunk_bucket (B * 8) file c = fnv1a (chunk_bytes file c) % (B * 64)
            ∧ chunk_bucket (B * 8) file c < B * 64)
      ∧ (file.length ≠ 8 →
          (r.1 = 3 ↔ ∀ l, chunking T file = some l → B * 32 < l.length)) := by
  have hbb : B * 8 < 2 ^ 29 := by omega
  have hL : (B * 8 * 4) % 2 ^ 32 = B * 32 := by
    rw [Nat.mod_eq_of_lt (by omega)]
    omega
  refine ⟨?_, by decide, ?_, ?_, ?_⟩
  · have e : ((B : Int) * 8) % 2 ^ 32 = ((B * 8 : Nat) : Int) := by
      rw [Int.emod_eq_of_lt (by positivity) (by omega)]
      push_cast
      rfl
    rw [option_B, e, Int.toNat_ofNat, if_neg (by omega)]
  · have := (hash_invariants (B * 8) T file _ r (replicate_zero_lt _) h).1
    rw [List.length_replicate] at this
    exact this
  · intro c hc
    have hcb := chunk_bucket_eq (B * 8) file c (by omega) hbb hc
    have e : B * 8 * 8 = B * 64 := by omega
    rw [e] at hcb
    refine ⟨hcb.1, ?_⟩
    rw [hcb.1]
    exact Nat.mod_lt _ (by omega)
  · intro h8
    rcases hash_cases (B * 8) T file (List.replicate (B * 8) 0) h8 with
      ⟨l, hl, hle, hres⟩ | ⟨hmany, fp1, hres⟩
    · rw [hres] at h
      cases h
      rw [hL] at hle
      constructor
      · intro h3
        exfalso
        revert h3
        split_ifs <;> simp
      · intro hmany
        have := hmany l hl
        omega
    · rw [hres] at h
      cases h
      rw [hL] at hmany
      exact ⟨fun _ => hmany, fun _ => rfl⟩

theorem C17_witness :
    0 < 1 ∧ 1 < 2 ^ 26 ∧
      hash (1 * 8) 63 stride120 (List.replicate (1 * 8) 0)
        = some (0, [162, 32, 65, 0, 2, 38, 0, 0]) ∧
      (option_B ((1 : Nat) : Int) = some (1 * 8) ∧ option_B 1024 = some default_bloom_bytes
        ∧ (0, [162, 32, 65, 0, 2, 38, 0, 0]).2.length = 1 * 8
        ∧ (∀ c : Nat × Nat, c.1 + c.2 ≤ stride120.length →
            chunk_bucket (1 * 8) stride120 c = fnv1a (chunk_bytes stride120 c) % (1 * 64)
              ∧ chunk_bucket (1 * 8) stride120 c < 1 * 64)
        ∧ (stride120.length ≠ 8 →
            ((0, [162, 32, 65, 0, 2, 38, 0, 0]).1 = 3
              ↔ ∀ l, chunking 63 stride120 = some l → 1 * 32 < l.length))) :=
  ⟨by decide, by decide, by rfl,
    C17_bucket_count 1 63 stride120 (0, [162, 32, 65, 0, 2, 38, 0, 0]) (by decide) (by decide)
      (by rfl)⟩

/-- C18: the fingerprint write in `hash` is always in bounds.  For every
configuration with `0 < bloom_bytes < 2^29`, every 64-bit chunk hash `h` and
every fingerprint of `bloom_bytes` bytes, `bucket = h mod (bloom_bytes*8)`
satisfies `bucket < bloom_bytes*8`, the byte index `bucket >> 3` is below
`bloom_bytes`, and the write keeps the length, changes no other byte, and in
that byte sets bit `bucket & 7` and leaves every other bit as it was (so no
bit that was set is cleared). -/
theorem C18_fingerprint_write_in_bounds (bb h : Nat) (fp : List Nat)
    (hbb0 : 0 < bb) (hbb : bb < 2 ^ 29) (_hh : h < 2 ^ 64) (hlen : fp.length = bb) :
    (h % ((bb * 8) % 2 ^ 32)) % 2 ^ 32 = h % (bb * 8)
      ∧ h % (bb * 8) < bb * 8
      ∧ (h % (bb * 8)) >>> 3 < bb
      ∧ (h % (bb * 8)) &&& 7 < 8
      ∧ (set_bucket fp (h % (bb * 8))).length = bb
      ∧ (∀ j, j ≠ (h % (bb * 8)) >>> 3 →
          (set_bucket fp (h % (bb * 8))).getD j 0 = fp.getD j 0)
      ∧ (∀ k, ((set_bucket fp (h % (bb * 8))).getD ((h % (bb * 8)) >>> 3) 0).testBit k
          = ((fp.getD ((h % (bb * 8)) >>> 3) 0).testBit k
              || decide (k = (h % (bb * 8)) &&& 7))) := by
  have h32 : bb * 8 < 2 ^ 32 := by omega
  have hlt : h % (bb * 8) < bb * 8 := Nat.mod_lt _ (by omega)
  have hshift : (h % (bb * 8)) >>> 3 = h % (bb * 8) / 8 := by
    rw [Nat.shiftRight_eq_div_pow]
  have hand : (h % (bb * 8)) &&& 7 = h % (bb * 8) % 8 := by
    have := Nat.and_pow_two_sub_one_eq_mod (h % (bb * 8)) 3
    simpa using this
  have hidx : h % (bb * 8) / 8 < fp.length := by omega
  refine ⟨?_, hlt, by omega, by omega, ?_, ?_, ?_⟩
  · rw [Nat.mod_eq_of_lt h32]
    exact Nat.mod_eq_of_lt (Nat.lt_trans hlt h32)
  · rw [length_set_bucket, hlen]
  · intro j hj
    simp only [set_bucket, List.getD_eq_getElem?_getD]
    rw [List.getElem?_set_ne (Ne.symm hj)]
  · intro k
    have hbit : (1 <<< (h % (bb * 8) % 8)) % 2 ^ 8 = 2 ^ (h % (bb * 8) % 8) := by
      rw [Nat.shiftLeft_eq, Nat.one_mul]
      exact Nat.mod_eq_of_lt (Nat.pow_lt_pow_right (by norm_num) (by omega))
    rw [set_bucket, hand, hbit, hshift, List.getD_eq_getElem?_getD (l := fp.set _ _),
      List.getElem?_set_self hidx, Option.getD_some, Nat.testBit_lor, Nat.testBit_two_pow]
    congr 1
    exact decide_eq_decide.2 ⟨fun e => e.symm, fun e => e.symm⟩

theorem C18_witness :
    0 < 8 ∧ 8 < 2 ^ 29 ∧ 14695981039346656037 < 2 ^ 64 ∧
      ([0, 0, 0, 0, 0, 0, 0, 0] : List Nat).length = 8 ∧
      ((14695981039346656037 % ((8 * 8) % 2 ^ 32)) % 2 ^ 32 = 14695981039346656037 % (8 * 8)
        ∧ 14695981039346656037 % (8 * 8) < 8 * 8
        ∧ (14695981039346656037 % (8 * 8)) >>> 3 < 8
        ∧ (14695981039346656037 % (8 * 8)) &&& 7 < 8
        ∧ (set_bucket [0, 0, 0, 0, 0, 0, 0, 0] (14695981039346656037 % (8 * 8))).length = 8
        ∧ (∀ j, j ≠ (14695981039346656037 % (8 * 8)) >>> 3 →
            (set_bucket [0, 0, 0, 0, 0, 0, 0, 0] (14695981039346656037 % (8 * 8))).getD j 0
              = ([0, 0, 0, 0, 0, 0, 0, 0] : List Nat).getD j 0)
        ∧ (∀ k, ((set_bucket [0, 0, 0, 0, 0, 0, 0, 0] (14695981039346656037 % (8 * 8))).getD
              ((14695981039346656037 % (8 * 8)) >>> 3) 0).testBit k
            = ((([0, 0, 0, 0, 0, 0, 0, 0] : List Nat).getD
                  ((14695981039346656037 % (8 * 8)) >>> 3) 0).testBit k
                || decide (k = (14695981039346656037 % (8 * 8)) &&& 7)))) :=
  ⟨by decide, by decide, by decide, rfl,
    C18_fingerprint_write_in_bounds 8 14695981039346656037 [0, 0, 0, 0, 0, 0, 0, 0]
      (by decide) (by decide) (by decide) rfl⟩

/-- C19 as stated fails on a file of `2^32` bytes: the narrowed `max` is `0`,
so the first chunk has length `0` although it is not the last one
(`bytes_left` is still `2^32` after it); every further iteration is the same
empty chunk, so the loop produces more chunks than any bound and never ends
by itself. -/
theorem C19_counterexample :
    1 ≤ (List.replicate (2 ^ 32) (0 : Byte)).length ∧
      get_chunk_len (List.replicate (2 ^ 32) (0 : Byte))
        ((List.replicate (2 ^ 32) (0 : Byte)).length % 2 ^ 32) 52 = 0 ∧
      (List.replicate (2 ^ 32) (0 : Byte)).length - (0 + 0) ≠ 0 ∧
      chunk_steps 52 (List.replicate (2 ^ 32) (0 : Byte)) 2 0
          (List.replicate (2 ^ 32) (0 : Byte)).length = [(0, 0), (0, 0)] ∧
      (∀ n, (chunk_steps 52 (List.replicate (2 ^ 32) (0 : Byte)) n 0
          (List.replicate (2 ^ 32) (0 : Byte)).length).length = n) ∧
      chunking 52 (List.replicate (2 ^ 32) (0 : Byte)) = none := by
  have hlen : (List.replicate (2 ^ 32) (0 : Byte)).length = 2 ^ 32 := List.length_replicate _ _
  have hsteps : ∀ n, chunk_steps 52 (List.replicate (2 ^ 32) (0 : Byte)) n 0
      (List.replicate (2 ^ 32) (0 : Byte)).length = List.replicate n (0, 0) := by
    intro n
    have hs := chunk_steps_stuck 52 (List.replicate (2 ^ 32) (0 : Byte)) n 0
      (by rw [hlen]; norm_num) (by rw [hlen]; norm_num)
    rw [Nat.sub_zero] at hs
    exact hs
  refine ⟨by rw [hlen]; norm_num, ?_, by rw [hlen]; norm_num, ?_, ?_, ?_⟩
  · rw [hlen, Nat.mod_self]
    exact get_chunk_len_small _ 0 52 (by omega)
  · rw [hsteps 2]
    rfl
  · intro n
    rw [hsteps n, List.length_replicate]
  · have hs := chunk_loop_stuck 52 (List.replicate (2 ^ 32) (0 : Byte))
      ((List.replicate (2 ^ 32) (0 : Byte)).length + 1) 0
      (by rw [hlen]; norm_num) (by rw [hlen]; norm_num)
    rw [Nat.sub_zero] at hs
    exact hs

/-- C19 (amended): a file shorter than `2^32` bytes has a chunk sequence in
which every chunk except the last one is at least 8 bytes long, so a file of
length `1 ≤ L < 2^32` yields at most `⌊(L-1)/8⌋ + 1` chunks; consequently,
for every threshold `T` in `1..63` and every bucket count for which the
bucket modulus `bloom_bytes*8` is not `0` in 32 bits, `hash` returns a
non-zero status on every input shorter than 73 bytes, and `dofile` does not
add such a file to the corpus. -/
theorem C19_short_files_rejected (bb T : Nat) (B : List Byte)
    (_hT1 : 1 ≤ T) (_hT63 : T ≤ 63) (hlen : B.length < 2 ^ 32)
    (_hbb : (bb * 8) % 2 ^ 32 ≠ 0) :
    (∃ l, chunking T B = some l
        ∧ (∀ pre c post, l = pre ++ c :: post → post ≠ [] → 8 ≤ c.2)
        ∧ (1 ≤ B.length → l.length ≤ (B.length - 1) / 8 + 1))
      ∧ (B.length < 73 →
          ∃ s fp, hash bb T B (List.replicate bb 0) = some (s, fp) ∧ s ≠ 0 ∧
            ∀ (name : String) (st : Corpus), ∃ st1, dofile bb T name B st = some st1 ∧
              st1.num_files = st.num_files ∧ st1.filenames = st.filenames) := by
  have hsize : ∀ l, chunking T B = some l → 1 ≤ B.length →
      l.length ≤ (B.length - 1) / 8 + 1 := by
    intro l hl hpos
    have := chunk_loop_size T B (B.length + 1) 0 l (by omega) (by rw [Nat.sub_zero]; exact hl)
    omega
  obtain ⟨l0, hl0⟩ := chunking_terminates T B hlen
  refine ⟨⟨l0, hl0, ?_, hsize l0 hl0⟩, ?_⟩
  · intro pre c post hsplit hpost
    rw [hsplit] at hl0
    exact chunk_loop_all_but_last T B (B.length + 1) 0 pre c post (Nat.zero_le _) hpost
      (by rw [Nat.sub_zero]; exact hl0)
  · intro hshort
    have hstatus : ∃ s fp, hash bb T B (List.replicate bb 0) = some (s, fp) ∧ s ≠ 0 := by
      by_cases h8 : B.length = 8
      · exact ⟨2, _, by rw [hash, if_pos h8], by norm_num⟩
      · rcases hash_cases bb T B (List.replicate bb 0) h8 with
          ⟨l, hl, _, hres⟩ | ⟨_, fp1, hres⟩
        · have hlen : l.length < 10 := by
            rcases Nat.eq_zero_or_pos B.length with h0 | hpos
            · rw [List.length_eq_zero] at h0
              subst h0
              rw [chunking_empty] at hl
              cases hl
              norm_num
            · have := hsize l hl hpos
              omega
          rw [if_pos hlen] at hres
          exact ⟨4, _, hres, by norm_num⟩
        · exact ⟨3, fp1, hres, by norm_num⟩
    obtain ⟨s, fp, hh, hs⟩ := hstatus
    refine ⟨s, fp, hh, hs, fun name st => ?_⟩
    have hd := dofile_of_hash bb T name B st (s, fp) hh
    rw [if_pos hs] at hd
    exact ⟨_, hd, rfl, rfl⟩

theorem C19_witness :
    1 ≤ 63 ∧ 63 ≤ 63 ∧ ramp40.length < 2 ^ 32 ∧ (8 * 8) % 2 ^ 32 ≠ 0 ∧
      ((∃ l, chunking 63 ramp40 = some l
          ∧ (∀ pre c post, l = pre ++ c :: post → post ≠ [] → 8 ≤ c.2)
          ∧ (1 ≤ ramp40.length → l.length ≤ (ramp40.length - 1) / 8 + 1))
        ∧ (ramp40.length < 73 →
            ∃ s fp, hash 8 63 ramp40 (List.replicate 8 0) = some (s, fp) ∧ s ≠ 0 ∧
              ∀ (name : String) (st : Corpus), ∃ st1, dofile 8 63 name ramp40 st = some st1 ∧
                st1.num_files = st.num_files ∧ st1.filenames = st.filenames)) :=
  ⟨by decide, by decide, by decide, by decide,
    C19_short_files_rejected 8 63 ramp40 (by decide) (by decide) (by decide) (by decide)⟩

/-- C20: the 64-bit `bytes_left` is narrowed to the 32-bit `max` of
`get_chunk_len`.  For every file whose length is a positive multiple of
`2^32` (configuration `0 < bloom_bytes < 2^29`): the first call gets
`max = 0` and returns chunk length `0`; the loop never reaches
`bytes_left = 0`; starting from an all-zero fingerprint only the bit
`FNV-1a(empty) mod bloom_bits` is set; and `hash` returns status `3` in
iteration `bloom_bytes*4 + 1` (not within `bloom_bytes*4` iterations),
whatever the file content.  For every file shorter than `2^32` bytes the
narrowing changes nothing. -/
theorem C20_bytes_left_narrowed (bb T : Nat) (B : List Byte)
    (hbb0 : 0 < bb) (hbb : bb < 2 ^ 29) (hpos : 0 < B.length)
    (hmul : B.length % 2 ^ 32 = 0) :
    get_chunk_len B (B.length % 2 ^ 32) T = 0
      ∧ (∀ fuel, chunk_loop T B fuel 0 B.length = none)
      ∧ hash bb T B (List.replicate bb 0)
          = some (3, set_bucket (List.replicate bb 0) (14695981039346656037 % (bb * 8)))
      ∧ (∀ i, fp_bit (set_bucket (List.replicate bb 0) (14695981039346656037 % (bb * 8))) i
            = true ↔ i = 14695981039346656037 % (bb * 8))
      ∧ hash_loop bb T B B.length (bb * 4) 0 B.length 0 (List.replicate bb 0) = none
      ∧ (∀ B1 : List Byte, B1.length < 2 ^ 32 →
          ∀ pos, (B1.length - pos) % 2 ^ 32 = B1.length - pos) := by
  have hL : (bb * 4) % 2 ^ 32 = bb * 4 := Nat.mod_eq_of_lt (by omega)
  have hne : B.length ≠ 0 := by omega
  have h8 : B.length ≠ 8 := by omega
  have hstuck : ∀ fuel, chunk_loop T B fuel 0 B.length = none := by
    intro fuel
    have := chunk_loop_stuck T B fuel 0 (by rw [Nat.sub_zero]; exact hne)
      (by rw [Nat.sub_zero]; exact hmul)
    rw [Nat.sub_zero] at this
    exact this
  have hbucket := chunk_bucket_eq bb B (0, 0) hbb0 hbb (Nat.zero_le _)
  have hempty : fnv1a (chunk_bytes B (0, 0)) = 14695981039346656037 := by
    simp [chunk_bytes, fnv1a]
  rw [hempty] at hbucket
  refine ⟨?_, hstuck, ?_, ?_, ?_, ?_⟩
  · rw [hmul]
    exact get_chunk_len_small B 0 T (by omega)
  · rw [hash, if_neg h8, hash_loop_stuck bb T B hne hmul _ 0 _ (Nat.zero_le _) (by omega),
      hbucket.1]
  · intro i
    rw [fp_bit_set_bucket _ _ i (by rw [List.length_replicate, ← hbucket.1]; exact hbucket.2),
      fp_bit_zero]
    simp
  · exact hash_loop_running bb T B (bb * 4) 0 B.length 0 _ (by omega) (hstuck _)
  · intro B1 h1 pos
    exact Nat.mod_eq_of_lt (by omega)

theorem C20_witness :
    0 < 8 ∧ 8 < 2 ^ 29 ∧ 0 < (List.replicate (2 ^ 32) (0 : Byte)).length ∧
      (List.replicate (2 ^ 32) (0 : Byte)).length % 2 ^ 32 = 0 ∧
      (get_chunk_len (List.replicate (2 ^ 32) (0 : Byte))
          ((List.replicate (2 ^ 32) (0 : Byte)).length % 2 ^ 32) 52 = 0
        ∧ (∀ fuel, chunk_loop 52 (List.replicate (2 ^ 32) (0 : Byte)) fuel 0
            (List.replicate (2 ^ 32) (0 : Byte)).length = none)
        ∧ hash 8 52 (List.replicate (2 ^ 32) (0 : Byte)) (List.replicate 8 0)
            = some (3, set_bucket (List.replicate 8 0) (14695981039346656037 % (8 * 8)))
        ∧ (∀ i, fp_bit (set_bucket (List.replicate 8 0) (14695981039346656037 % (8 * 8))) i
              = true ↔ i = 14695981039346656037 % (8 * 8))
        ∧ hash_loop 8 52 (List.replicate (2 ^ 32) (0 : Byte))
            (List.replicate (2 ^ 32) (0 : Byte)).length (8 * 4) 0
            (List.replicate (2 ^ 32) (0 : Byte)).length 0 (List.replicate 8 0) = none
        ∧ (∀ B1 : List Byte, B1.length < 2 ^ 32 →
            ∀ pos, (B1.length - pos) % 2 ^ 32 = B1.length - pos)) :=
  have hlen : (List.replicate (2 ^ 32) (0 : Byte)).length = 2 ^ 32 := List.length_replicate _ _
  ⟨by decide, by decide, by rw [hlen]; norm_num, by rw [hlen]; norm_num,
    C20_bytes_left_narrowed 8 52 (List.replicate (2 ^ 32) (0 : Byte)) (by decide) (by decide)
      (by rw [hlen]; norm_num) (by rw [hlen]; norm_num)⟩

end Confero
